import Mathlib

/-!
# zipstream: the ZIP directory decoder and the ranged retrieval of entries

A shallow embedding of `cmd/zipstream.go` and `cmd/struct.go`.

* A Go `[]byte` or `string` is a `List Byte`.
* A Go function that may return an error, or stop with a run-time panic
  (index or slice bound out of range), returns an `Outcome`.
* Unsigned machine integers are natural numbers; every value decoded here comes
  from at most four bytes, so no 64-bit operation of the code wraps.
-/

namespace ZipStream

/-- One octet, the Go type `byte`. -/
abbrev Byte := Fin 256

/-- The error values the code returns (`ErrFormat`, `ErrAlgorithm`, the `io` end-of-data
errors, and the two errors built in place by `readDirectoryEnd` and `Reader.init`). -/
inductive GoError where
  | ErrFormat
  | ErrAlgorithm
  | EOF
  | ErrUnexpectedEOF
  | invalidCommentLength
  | impossibleFiles (records size : Nat)
  | PathError
  deriving DecidableEq, Repr

/-- How a call ends: a normal return, a returned error, a run-time panic, or, for the
two loops whose model carries a step budget, the budget running out. -/
inductive Outcome (α : Type) where
  | ok (a : α)
  | error (e : GoError)
  | panic
  | budget
  deriving DecidableEq, Repr

namespace Outcome

/-- Sequencing: the first call that does not return normally ends the computation. -/
def bind {α β : Type} (x : Outcome α) (f : α → Outcome β) : Outcome β :=
  match x with
  | ok a => f a
  | error e => error e
  | panic => panic
  | budget => budget

instance : Monad Outcome where
  pure := Outcome.ok
  bind := Outcome.bind

/-- A call on a pointer receiver gives a result and the receiver's final state; when the
call returned normally the two are passed on together. -/
def thread {α σ : Type} (p : Outcome α × σ) : Outcome (α × σ) :=
  match p.1 with
  | ok a => ok (a, p.2)
  | error e => error e
  | panic => panic
  | budget => budget

end Outcome

open Outcome

/-! ## Constants of `struct.go` -/

def fileHeaderSignature : Nat := 0x04034b50
def directoryHeaderSignature : Nat := 0x02014b50
def directoryEndSignature : Nat := 0x06054b50
def fileHeaderLen : Nat := 30
def directoryHeaderLen : Nat := 46
def directoryEndLen : Nat := 22

/-! ## Slices -/

/-- The index expression `b[i]`: a panic unless `0 ≤ i < len(b)`. -/
def index (b : List Byte) (i : Int) : Outcome Byte :=
  if i < 0 then panic
  else match b[i.toNat]? with
    | some v => ok v
    | none => panic

/-- The slice expression `b[n:]`: a panic unless `0 ≤ n ≤ len(b)`. -/
def sliceFrom (b : List Byte) (n : Int) : Outcome (List Byte) :=
  if n < 0 ∨ (b.length : Int) < n then panic else ok (b.drop n.toNat)

/-- The slice expression `b[:n]` on a slice whose capacity is its length: a panic unless
`0 ≤ n ≤ len(b)`. -/
def sliceTo (b : List Byte) (n : Int) : Outcome (List Byte) :=
  if n < 0 ∨ (b.length : Int) < n then panic else ok (b.take n.toNat)

/-! ## `encoding/binary`, little endian -/

namespace LittleEndian

/-- The function `binary.LittleEndian.Uint16`: `_ = b[1]`, then `uint16(b[0]) | uint16(b[1])<<8`. -/
def Uint16 (b : List Byte) : Outcome Nat :=
  match b with
  | b0 :: b1 :: _ => ok (b0.val ||| b1.val <<< 8)
  | _ => panic

/-- The function `binary.LittleEndian.Uint32`: `_ = b[3]`, then the four bytes or-ed together. -/
def Uint32 (b : List Byte) : Outcome Nat :=
  match b with
  | b0 :: b1 :: b2 :: b3 :: _ =>
    ok (b0.val ||| b1.val <<< 8 ||| b2.val <<< 16 ||| b3.val <<< 24)
  | _ => panic

/-- The function `binary.LittleEndian.Uint64`: `_ = b[7]`, then the eight bytes or-ed together. -/
def Uint64 (b : List Byte) : Outcome Nat :=
  match b with
  | b0 :: b1 :: b2 :: b3 :: b4 :: b5 :: b6 :: b7 :: _ =>
    ok (b0.val ||| b1.val <<< 8 ||| b2.val <<< 16 ||| b3.val <<< 24 |||
        b4.val <<< 32 ||| b5.val <<< 40 ||| b6.val <<< 48 ||| b7.val <<< 56)
  | _ => panic

end LittleEndian

/-! ## `readBuf`

Each method has a pointer receiver: the model returns the result together with the
window as the call leaves it. A statement that panics leaves the window as it was, since
the assignment `*b = ...` is the last thing each method does before returning. -/

/-- The type `readBuf`, a window of bytes. -/
abbrev readBuf := List Byte

namespace readBuf

/-- The method `uint8`: `v := (*b)[0]; *b = (*b)[1:]; return v`. -/
def uint8 (b : readBuf) : Outcome Nat × readBuf :=
  match index b 0 with
  | ok v =>
    match sliceFrom b 1 with
    | ok b1 => (ok v.val, b1)
    | _ => (panic, b)
  | _ => (panic, b)

/-- The method `uint16`: `v := binary.LittleEndian.Uint16(*b); *b = (*b)[2:]; return v`. -/
def uint16 (b : readBuf) : Outcome Nat × readBuf :=
  match LittleEndian.Uint16 b with
  | ok v =>
    match sliceFrom b 2 with
    | ok b1 => (ok v, b1)
    | _ => (panic, b)
  | _ => (panic, b)

/-- The method `uint32`: `v := binary.LittleEndian.Uint32(*b); *b = (*b)[4:]; return v`. -/
def uint32 (b : readBuf) : Outcome Nat × readBuf :=
  match LittleEndian.Uint32 b with
  | ok v =>
    match sliceFrom b 4 with
    | ok b1 => (ok v, b1)
    | _ => (panic, b)
  | _ => (panic, b)

/-- The method `uint64`: `v := binary.LittleEndian.Uint64(*b); *b = (*b)[8:]; return v`. -/
def uint64 (b : readBuf) : Outcome Nat × readBuf :=
  match LittleEndian.Uint64 b with
  | ok v =>
    match sliceFrom b 8 with
    | ok b1 => (ok v, b1)
    | _ => (panic, b)
  | _ => (panic, b)

/-- The method `sub`: `b2 := (*b)[:n]; *b = (*b)[n:]; return b2`. The first slice is taken up to the
capacity of the window, which is at least its length, so for `n > len(b)` at the latest
the second statement panics; for `n ≤ len(b)` neither does. -/
def sub (b : readBuf) (n : Int) : Outcome readBuf × readBuf :=
  match sliceTo b n with
  | ok b2 =>
    match sliceFrom b n with
    | ok b1 => (ok b2, b1)
    | _ => (panic, b)
  | _ => (panic, b)

end readBuf

/-! ## `findSignatureInBlock` -/

/-- The loop of `findSignatureInBlock`, `for i := len(b) - directoryEndLen; i >= 0; i--`.
The argument is `i + 1`, so the loop test `i >= 0` is the test for a successor. -/
def findSignatureInBlock.loop (b : List Byte) : Nat → Outcome Int
  | 0 => ok (-1)
  | i + 1 => do
    let b0 ← index b i
    let hit ←
      if b0 = 0x50 then do
        let b1 ← index b (i + 1)
        if b1 = 0x4b then do
          let b2 ← index b (i + 2)
          if b2 = 0x05 then do
            let b3 ← index b (i + 3)
            pure (decide (b3 = 0x06))
          else pure false
        else pure false
      else pure false
    if hit then do
      -- n is length of comment
      let c0 ← index b (i + directoryEndLen - 2)
      let c1 ← index b (i + directoryEndLen - 1)
      let n := c0.val ||| c1.val <<< 8
      if n + directoryEndLen + i ≤ b.length then pure (i : Int)
      else findSignatureInBlock.loop b i
    else findSignatureInBlock.loop b i

/-- The function `findSignatureInBlock`: the offset of the last end-of-central-directory candidate
whose comment fits in the block, or `-1`. -/
def findSignatureInBlock (b : List Byte) : Outcome Int :=
  findSignatureInBlock.loop b ((b.length : Int) - directoryEndLen + 1).toNat

/-! ## Streams -/

/-- The call `io.ReadFull(r, buf)` with `len(buf) = n` on a reader that holds the bytes `r`: the
bytes read and the rest of the stream. Nothing is asked of the reader when `n = 0`; a
stream that is empty gives `io.EOF`, one that ends early `io.ErrUnexpectedEOF`. -/
def ReadFull (r : List Byte) (n : Nat) : Outcome (List Byte × List Byte) :=
  if n = 0 then ok ([], r)
  else if n ≤ r.length then ok (r.take n, r.drop n)
  else if r.length = 0 then error GoError.EOF
  else error GoError.ErrUnexpectedEOF

/-- The body of the response to `getFileBody(url, lo, hi)`, a request with the header
`Range: bytes=lo-hi`, from a server that holds the bytes `res`. The bounds are inclusive
and the answer stops where the resource does. Two kinds of request have no such answer:
a header that is no byte range (`lo < 0` or `hi < lo`) is ignored and the whole resource
is served, and a range that starts at or after the end of the resource gets an empty
body. No statement below depends on either. -/
def getFileBody (res : List Byte) (lo hi : Int) : List Byte :=
  if lo < 0 ∨ hi < lo then res
  else if (res.length : Int) ≤ lo then []
  else (res.drop lo.toNat).take (hi - lo + 1).toNat

/-! ## The end-of-central-directory record -/

/-- The struct `directoryEnd`. -/
structure directoryEnd where
  diskNbr : Nat
  dirDiskNbr : Nat
  dirRecordsThisDisk : Nat
  directoryRecords : Nat
  directorySize : Nat
  directoryOffset : Nat
  commentLen : Nat
  comment : List Byte
  deriving DecidableEq, Repr

/-- The function `readDirectoryEnd`. -/
def readDirectoryEnd (buf : List Byte) : Outcome directoryEnd := do
  let b : readBuf ← sliceFrom buf 4 -- skip signature
  let (diskNbr, b) ← thread (readBuf.uint16 b)
  let (dirDiskNbr, b) ← thread (readBuf.uint16 b)
  let (dirRecordsThisDisk, b) ← thread (readBuf.uint16 b)
  let (directoryRecords, b) ← thread (readBuf.uint16 b)
  let (directorySize, b) ← thread (readBuf.uint32 b)
  let (directoryOffset, b) ← thread (readBuf.uint32 b)
  let (commentLen, b) ← thread (readBuf.uint16 b)
  let l : Int := commentLen
  if l > b.length then error GoError.invalidCommentLength
  else do
    let comment ← sliceTo b l
    pure { diskNbr, dirDiskNbr, dirRecordsThisDisk, directoryRecords, directorySize,
           directoryOffset, commentLen, comment }

/-! ## `unicode/utf8` -/

namespace utf8

def RuneError : Nat := 0xFFFD
def MaxRune : Nat := 0x10FFFF
def surrogateMin : Nat := 0xD800
def surrogateMax : Nat := 0xDFFF

/-- The table `first`: information about the first byte of an encoding. `0xF0` marks
ASCII and `0xF1` an illegal first byte; otherwise the low three bits are the size and the
high four the index into `acceptRanges`. -/
def first (s0 : Byte) : Nat :=
  if s0.val < 0x80 then 0xF0
  else if s0.val < 0xC2 then 0xF1
  else if s0.val < 0xE0 then 0x02
  else if s0.val = 0xE0 then 0x13
  else if s0.val < 0xED then 0x03
  else if s0.val = 0xED then 0x23
  else if s0.val < 0xF0 then 0x03
  else if s0.val = 0xF0 then 0x34
  else if s0.val < 0xF4 then 0x04
  else if s0.val = 0xF4 then 0x44
  else 0xF1

/-- The table `acceptRanges`: the lowest and the highest second byte accepted. -/
def acceptRanges (k : Nat) : Nat × Nat :=
  match k with
  | 0 => (0x80, 0xBF)
  | 1 => (0xA0, 0xBF)
  | 2 => (0x80, 0x9F)
  | 3 => (0x90, 0xBF)
  | 4 => (0x80, 0x8F)
  | _ => (0, 0)

/-- The function `utf8.DecodeRuneInString`: the first rune of `s` and its width in bytes, or
`(RuneError, 1)` when `s` does not start with a well-formed encoding, `(RuneError, 0)`
when `s` is empty. The bytes `s[1]`, `s[2]`, `s[3]` are read after the test `n < sz`. -/
def DecodeRuneInString (s : List Byte) : Nat × Nat :=
  match s with
  | [] => (RuneError, 0)
  | s0 :: t =>
    let x := first s0
    if x ≥ 0xF0 then
      -- `mask := rune(x) << 31 >> 31` is all ones when bit 0 of `x` is set, else zero
      (if x &&& 1 = 1 then RuneError else s0.val, 1)
    else
      let sz := x &&& 7
      let accept := acceptRanges (x >>> 4)
      if (s0 :: t).length < sz then (RuneError, 1)
      else
        let s1 := (t.getD 0 0).val
        if s1 < accept.1 ∨ accept.2 < s1 then (RuneError, 1)
        else if sz ≤ 2 then ((s0.val &&& 0x1F) <<< 6 ||| (s1 &&& 0x3F), 2)
        else
          let s2 := (t.getD 1 0).val
          if s2 < 0x80 ∨ 0xBF < s2 then (RuneError, 1)
          else if sz ≤ 3 then
            ((s0.val &&& 0x0F) <<< 12 ||| (s1 &&& 0x3F) <<< 6 ||| (s2 &&& 0x3F), 3)
          else
            let s3 := (t.getD 2 0).val
            if s3 < 0x80 ∨ 0xBF < s3 then (RuneError, 1)
            else
              ((s0.val &&& 0x07) <<< 18 ||| (s1 &&& 0x3F) <<< 12 ||| (s2 &&& 0x3F) <<< 6 |||
                (s3 &&& 0x3F), 4)

/-- The function `utf8.ValidRune`. -/
def ValidRune (r : Nat) : Bool :=
  if r < surrogateMin then true
  else if surrogateMax < r ∧ r ≤ MaxRune then true
  else false

end utf8

/-- The loop of `detectUTF8`, `for i := 0; i < len(s); { ... i += size ... }`, with a
budget of iterations. -/
def detectUTF8.loop (s : List Byte) : Nat → Nat → Bool → Outcome (Bool × Bool)
  | steps, i, require =>
    if i < s.length then
      match steps with
      | 0 => budget
      | steps + 1 =>
        let (r, size) := utf8.DecodeRuneInString (s.drop i)
        let i := i + size
        if r < 0x20 ∨ r > 0x7d ∨ r = 0x5c then
          if !utf8.ValidRune r || (r = utf8.RuneError && size = 1) then ok (false, false)
          else detectUTF8.loop s steps i true
        else detectUTF8.loop s steps i require
    else ok (true, require)

/-- The function `detectUTF8`. Every iteration moves `i` forward, so `len(s)` iterations are
enough. -/
def detectUTF8 (s : List Byte) : Outcome (Bool × Bool) :=
  detectUTF8.loop s s.length 0 false

/-! ## Central directory file headers -/

/-- The struct `File` with the embedded `FileHeader`. `Modified`, which the code never
sets, and the pointer `zip` back to the reader are left out. -/
structure File where
  Name : List Byte := []
  Comment : List Byte := []
  NonUTF8 : Bool := false
  CreatorVersion : Nat := 0
  ReaderVersion : Nat := 0
  Flags : Nat := 0
  Method : Nat := 0
  ModifiedTime : Nat := 0
  ModifiedDate : Nat := 0
  CRC32 : Nat := 0
  CompressedSize : Nat := 0
  UncompressedSize : Nat := 0
  CompressedSize64 : Nat := 0
  UncompressedSize64 : Nat := 0
  Extra : List Byte := []
  ExternalAttrs : Nat := 0
  headerOffset : Int := 0
  Path : List Byte := []
  deriving DecidableEq, Repr

/-- The slice expression `b[lo:hi]` on a slice whose capacity is its length: a panic
unless `0 ≤ lo ≤ hi ≤ len(b)`. -/
def slice (b : List Byte) (lo hi : Int) : Outcome (List Byte) :=
  if lo < 0 ∨ hi < lo ∨ (b.length : Int) < hi then panic
  else ok ((b.take hi.toNat).drop lo.toNat)

/-- The `switch` that ends `readDirectoryHeader`: the value given to `NonUTF8`. -/
def nonUTF8 (utf8Valid1 utf8Require1 utf8Valid2 utf8Require2 : Bool) (Flags : Nat) : Bool :=
  if !utf8Valid1 || !utf8Valid2 then
    -- Name and Comment definitely not UTF-8.
    true
  else if !utf8Require1 && !utf8Require2 then
    -- Name and Comment use only single-byte runes that overlap with UTF-8.
    false
  else
    -- Might be UTF-8, might be some other encoding; preserve existing flag.
    decide (Flags &&& 0x800 = 0)

/-- The call `readDirectoryHeader(f, r)` on a fresh `f`: the file header decoded and the rest of
the stream. -/
def readDirectoryHeader (r : List Byte) : Outcome (File × List Byte) := do
  let (buf, r) ← ReadFull r directoryHeaderLen
  let b : readBuf := buf
  let (sig, b) ← thread (readBuf.uint32 b)
  if sig ≠ directoryHeaderSignature then error GoError.ErrFormat
  else do
    let (CreatorVersion, b) ← thread (readBuf.uint16 b)
    let (ReaderVersion, b) ← thread (readBuf.uint16 b)
    let (Flags, b) ← thread (readBuf.uint16 b)
    let (Method, b) ← thread (readBuf.uint16 b)
    let (ModifiedTime, b) ← thread (readBuf.uint16 b)
    let (ModifiedDate, b) ← thread (readBuf.uint16 b)
    let (CRC32, b) ← thread (readBuf.uint32 b)
    let (CompressedSize, b) ← thread (readBuf.uint32 b)
    let (UncompressedSize, b) ← thread (readBuf.uint32 b)
    let CompressedSize64 := CompressedSize
    let UncompressedSize64 := UncompressedSize
    let (filenameLen, b) ← thread (readBuf.uint16 b)
    let (extraLen, b) ← thread (readBuf.uint16 b)
    let (commentLen, b) ← thread (readBuf.uint16 b)
    let b ← sliceFrom b 4 -- skipped start disk number and internal attributes (2x uint16)
    let (ExternalAttrs, b) ← thread (readBuf.uint32 b)
    let (headerOffset, _) ← thread (readBuf.uint32 b)
    let (d, r) ← ReadFull r (filenameLen + extraLen + commentLen)
    let Name ← sliceTo d filenameLen
    let Extra ← slice d filenameLen (filenameLen + extraLen)
    let Comment ← sliceFrom d (filenameLen + extraLen)
    -- Determine the character encoding.
    let (utf8Valid1, utf8Require1) ← detectUTF8 Name
    let (utf8Valid2, utf8Require2) ← detectUTF8 Comment
    let NonUTF8 := nonUTF8 utf8Valid1 utf8Require1 utf8Valid2 utf8Require2 Flags
    pure ({ Name, Comment, NonUTF8, CreatorVersion, ReaderVersion, Flags, Method,
            ModifiedTime, ModifiedDate, CRC32, CompressedSize, UncompressedSize,
            CompressedSize64, UncompressedSize64, Extra, ExternalAttrs,
            headerOffset := (headerOffset : Int) }, r)

/-! ## `Reader.init` -/

/-- The struct `Reader`: the entries in the order they were appended, and the archive
comment, which the code never sets. The map `decompressors` is left out. -/
structure Reader where
  File : List File := []
  Comment : List Byte := []
  deriving DecidableEq, Repr

/-- The `for` loop of `Reader.init` over the stream `b2` of the central directory: `acc` is
`z.File`. The loop has no bound in the code; the model gives it a budget of iterations. -/
def Reader.init.loop : Nat → List Byte → List ZipStream.File → Outcome (List ZipStream.File)
  | 0, _, _ => budget
  | steps + 1, b2, acc =>
    match readDirectoryHeader b2 with
    | ok (f, rest) => Reader.init.loop steps rest (acc ++ [f])
    | error e =>
      if e = GoError.ErrFormat ∨ e = GoError.ErrUnexpectedEOF then ok acc
      else error e
    | .panic => panic
    | .budget => budget

/-- The call `Reader.init(url, size)` against a server that holds the bytes `res`. Every header
decoded takes bytes off the stream, so one iteration more than the stream has bytes is
enough for the loop. -/
def Reader.init (res : List Byte) (size : Nat) : Outcome Reader := do
  -- get EOCD
  let buf := getFileBody res ((size : Int) - 100) size
  let startEndDir ← findSignatureInBlock buf
  let tail ← sliceFrom buf startEndDir
  let dirEnd ← readDirectoryEnd tail
  if dirEnd.directoryRecords > size / fileHeaderLen then
    error (GoError.impossibleFiles dirEnd.directoryRecords size)
  else do
    -- get central directory
    let b2 := getFileBody res dirEnd.directoryOffset size
    let files ← Reader.init.loop (b2.length + 1) b2 []
    pure { File := files }

/-! ## Retrieval of one entry -/

/-- The part of `File.findBodyOffset` after the fetch: `buf` is the fetched local header. -/
def findBodyOffset.decode (buf : List Byte) : Outcome Int := do
  let b : readBuf := buf
  let (sig, b) ← thread (readBuf.uint32 b)
  if sig ≠ fileHeaderSignature then error GoError.ErrFormat
  else do
    let b ← sliceFrom b 22 -- skip over most of the header
    let (filenameLen, b) ← thread (readBuf.uint16 b)
    let (extraLen, _) ← thread (readBuf.uint16 b)
    pure ((fileHeaderLen + filenameLen + extraLen : Nat) : Int)

/-- The call `File.findBodyOffset(url)` against a server that holds the bytes `res`. -/
def File.findBodyOffset (f : File) (res : List Byte) : Outcome Int :=
  findBodyOffset.decode (getFileBody res f.headerOffset (f.headerOffset + fileHeaderLen))

/-- The bounds `(lo, hi)` of the request that `getStream` makes in iteration `i` of
`for i := 0; i < 5; i++` for an entry with the given header offset, body offset and
compressed size. -/
def getStream.range (headerOffset bodyOffSet : Int) (CompressedSize64 : Nat) (i : Nat) :
    Int × Int :=
  let perSize := CompressedSize64 / 5
  match i with
  | 0 => (headerOffset + bodyOffSet, headerOffset + bodyOffSet + perSize)
  | 4 => (headerOffset + bodyOffSet + perSize * i + 1,
          headerOffset + bodyOffSet + CompressedSize64)
  | _ => (headerOffset + bodyOffSet + perSize * i + 1,
          headerOffset + bodyOffSet + perSize * (i + 1))

/-- The five requests of `getStream` for one entry, in the order they are made. -/
def getStream.ranges (headerOffset bodyOffSet : Int) (CompressedSize64 : Nat) :
    List (Int × Int) :=
  (List.range 5).map (getStream.range headerOffset bodyOffSet CompressedSize64)

/-- The bytes that the five calls of `saveFileBody` append to the file of the entry: the
bodies of the five responses, in order. -/
def getStream.fetched (res : List Byte) (headerOffset bodyOffSet : Int)
    (CompressedSize64 : Nat) : List Byte :=
  ((getStream.ranges headerOffset bodyOffSet CompressedSize64).map
    (fun p => getFileBody res p.1 p.2)).flatten

/-! ## `Reader.init` with its effects -/

/-- The loop of `Reader.init` with the receiver's field: the result of the loop and
`z.File` as the loop leaves it, also when it ends with an error. -/
def Reader.init.runLoop :
    Nat → List Byte → List ZipStream.File → Outcome Unit × List ZipStream.File
  | 0, _, acc => (budget, acc)
  | steps + 1, b2, acc =>
    match readDirectoryHeader b2 with
    | ok (f, rest) => Reader.init.runLoop steps rest (acc ++ [f])
    | error e =>
      if e = GoError.ErrFormat ∨ e = GoError.ErrUnexpectedEOF then (ok (), acc)
      else (error e, acc)
    | .panic => (panic, acc)
    | .budget => (budget, acc)

/-- What a call `z.init(url, size)` leaves behind: the returned error (or `nil`), the
receiver `z` after the call, and the requests `(lo, hi)` made to the server, in order. -/
structure InitRun where
  result : Outcome Unit
  z : Reader
  requests : List (Int × Int)

/-- The call `z.init(url, size)` statement by statement, with the receiver and the requests:
the tail is fetched first; `z.File` is assigned and the central directory is fetched only
after the test of the entry count against `size / fileHeaderLen`. -/
def Reader.init.run (z : Reader) (res : List Byte) (size : Nat) : InitRun :=
  -- get EOCD
  let req1 : Int × Int := ((size : Int) - 100, size)
  let buf := getFileBody res req1.1 req1.2
  match findSignatureInBlock buf >>= sliceFrom buf >>= readDirectoryEnd with
  | ok dirEnd =>
    if dirEnd.directoryRecords > size / fileHeaderLen then
      { result := error (GoError.impossibleFiles dirEnd.directoryRecords size), z := z,
        requests := [req1] }
    else
      -- z.File = make([]*File, 0, end.directoryRecords)
      let z1 : Reader := { z with File := [] }
      -- get central directory
      let req2 : Int × Int := (dirEnd.directoryOffset, size)
      let b2 := getFileBody res req2.1 req2.2
      let out := Reader.init.runLoop (b2.length + 1) b2 z1.File
      { result := out.1, z := { z1 with File := out.2 }, requests := [req1, req2] }
  | error e => { result := error e, z := z, requests := [req1] }
  | .panic => { result := panic, z := z, requests := [req1] }
  | .budget => { result := budget, z := z, requests := [req1] }

/-! ## `strings` and `path` -/

namespace strings

/-- The scan of `strings.LastIndex` from the right. The argument is `i + 1` for the index
`i` that is tried next. -/
def LastIndex.loop (s substr : List Byte) : Nat → Int
  | 0 => -1
  | i + 1 =>
    if (s.drop i).take substr.length = substr then (i : Int)
    else LastIndex.loop s substr i

/-- The function `strings.LastIndex`: the index of the last instance of `substr` in `s`, or
`-1` if `substr` is not present in `s`. -/
def LastIndex (s substr : List Byte) : Int :=
  if s.length < substr.length then -1
  else LastIndex.loop s substr (s.length - substr.length + 1)

end strings

namespace path

/-- The path elements of `s`: the pieces between its slashes, empty pieces included. -/
def elements : List Byte → List (List Byte)
  | [] => [[]]
  | c :: s =>
    if c = 0x2f then [] :: elements s
    else
      match elements s with
      | e :: es => (c :: e) :: es
      | [] => [[c]]

/-- One element in the loop of `path.Clean`, with the elements written so far in `out`:
an empty element and `.` are dropped; `..` removes the last element written if there is
one that is not `..` itself, is written if the path is not rooted, and is dropped at the
root; any other element is written. -/
def Clean.step (rooted : Bool) (out : List (List Byte)) (e : List Byte) : List (List Byte) :=
  if e = [] ∨ e = [0x2e] then out
  else if e = [0x2e, 0x2e] then
    match out.getLast? with
    | some top =>
      if top ≠ [0x2e, 0x2e] then out.dropLast
      else if rooted then out
      else out ++ [e]
    | none => if rooted then out else out ++ [e]
  else out ++ [e]

/-- The elements written by `path.Clean`, joined by slashes after the root slash if the
path is rooted; the empty result is turned into `.`. -/
def render (rooted : Bool) (out : List (List Byte)) : List Byte :=
  if rooted then 0x2f :: List.intercalate [0x2f] out
  else if out = [] then [0x2e]
  else List.intercalate [0x2f] out

/-- The function `path.Clean`: the shortest path name equivalent to `s` by purely lexical
processing, by the four rules of its documentation. -/
def Clean (s : List Byte) : List Byte :=
  if s = [] then [0x2e]
  else
    let rooted := decide (s.head? = some 0x2f)
    render rooted ((elements s).foldl (Clean.step rooted) [])

/-- The function `path.Join`: the elements from the first non-empty one on, joined by
slashes and cleaned; the empty string if all elements are empty. -/
def Join (elem : List (List Byte)) : List Byte :=
  match elem.dropWhile (fun e => decide (e = [])) with
  | [] => []
  | rest => Clean (List.intercalate [0x2f] rest)

end path

/-- The method `File.setFilePath`:
`f.Path = path.Join(p, f.Name[strings.LastIndex(f.Name, "/")+1:])`. -/
def File.setFilePath (f : File) (p : List Byte) : Outcome File := do
  let seg ← sliceFrom f.Name (strings.LastIndex f.Name [0x2f] + 1)
  pure { f with Path := path.Join [p, seg] }

/-! ## The files written -/

/-- What the file system has at a path, as far as a call of `os.OpenFile` for reading
and writing with `O_CREATE` can tell. -/
inductive Node where
  /-- A regular file that the process may read and write, with its content. -/
  | file (content : List Byte)
  /-- No file, in a directory in which the process may create one. -/
  | absent
  /-- A path that cannot be opened for reading and writing: a directory, a path in a
  directory that is missing, a file without the permission. -/
  | denied
  deriving DecidableEq, Repr

/-- The file system: what it has at each path. A write to a file that is open is taken
to succeed. -/
def FileSystem := List Byte → Node

/-- The content of the file at `name`; no bytes when there is no regular file. -/
def FileSystem.content (fs : FileSystem) (name : List Byte) : List Byte :=
  match fs name with
  | Node.file c => c
  | _ => []

/-- The file system with a regular file of content `c` at `name`. -/
def FileSystem.write (fs : FileSystem) (name c : List Byte) : FileSystem :=
  fun q => if q = name then Node.file c else fs q

namespace os

/-- The call `os.OpenFile(name, flag|os.O_CREATE, 0666)` without `O_TRUNC`, with the file
system after it: a file that exists is left as it is, and an empty file is created when
there is none. The call fails with a `*PathError` on the empty path and on a path that
cannot be opened, and then the file system is as it was. -/
def OpenFile (fs : FileSystem) (name : List Byte) : Outcome FileSystem :=
  if name = [] then error GoError.PathError
  else
    match fs name with
    | Node.file _ => ok fs
    | Node.absent => ok (fs.write name [])
    | Node.denied => error GoError.PathError

end os

/-- The method `File.saveFileBody` on the response body `b`: the file at `f.Path` is
opened with `O_RDWR|O_CREATE|O_APPEND`, the error of the open is returned, and
`io.Copy(fp, b)` writes the body at the end of the file. -/
def File.saveFileBody (f : File) (b : List Byte) (fs : FileSystem) :
    Outcome Unit × FileSystem :=
  match os.OpenFile fs f.Path with
  | ok fs => (ok (), fs.write f.Path (fs.content f.Path ++ b))
  | err => (err >>= fun _ => ok (), fs)

/-- Modelled from the spec: a decompressor is a pure function from the compressed bytes
to the expanded bytes. The type `Decompressor` is not among the sources. -/
def Decompressor := List Byte → List Byte

/-- The method `Reader.decompressor`. The map `z.decompressors` and the package function
`decompressor`, which is not among the sources, are parameters; `none` stands for `nil`. -/
def Reader.decompressor (decompressors decompressor : Nat → Option Decompressor)
    (method : Nat) : Option Decompressor :=
  match decompressors method with
  | some dcomp => some dcomp
  | none => decompressor method

/-- The method `File.decompress`, with the registry of `f.zip` as parameters. The file is
opened with `O_RDWR|O_CREATE` and the error of the open is returned; `r` is the section
of the first `CompressedSize64` bytes of the file; without a decompressor the result is
`ErrAlgorithm`. Otherwise `io.Copy(fp, rc)` writes the output from offset 0 over the
content, and nothing truncates the file: the bytes past the output stay. The
decompressor is taken to have read its input before the first write, as it has when the
input fits its read buffer. -/
def File.decompress (f : File) (decompressors decompressor : Nat → Option Decompressor)
    (fs : FileSystem) : Outcome Unit × FileSystem :=
  match os.OpenFile fs f.Path with
  | ok fs =>
    let r := (fs.content f.Path).take f.CompressedSize64
    match Reader.decompressor decompressors decompressor f.Method with
    | none => (error GoError.ErrAlgorithm, fs)
    | some dcomp =>
      let rc := dcomp r
      (ok (), fs.write f.Path (rc ++ (fs.content f.Path).drop rc.length))
  | err => (err >>= fun _ => ok (), fs)

/-- The loop `for i := 0; i < 5; i++` of `getStream` over the requests of one entry: each
body is fetched and saved, and the first error ends the loop. -/
def getStream.save (res : List Byte) (f : File) :
    List (Int × Int) → FileSystem → Outcome Unit × FileSystem
  | [], fs => (ok (), fs)
  | r :: rs, fs =>
    match f.saveFileBody (getFileBody res r.1 r.2) fs with
    | (ok _, fs) => getStream.save res f rs fs
    | (e, fs) => (e, fs)

/-- One iteration of the loop `for _, f := range r.File` of `getStream`, against a server
that holds the bytes `res`, with the destination directory `p`: the entry as
`setFilePath` leaves it and the file system after the iteration. -/
def getStream.entry (res p : List Byte)
    (decompressors decompressor : Nat → Option Decompressor) (f : File) (fs : FileSystem) :
    Outcome File × FileSystem :=
  match f.setFilePath p with
  | ok f =>
    match f.findBodyOffset res with
    | ok bodyOffSet =>
      match getStream.save res f
          (getStream.ranges f.headerOffset bodyOffSet f.CompressedSize64) fs with
      | (ok _, fs) =>
        -- decompress content
        if f.Method ≠ 0 then
          match f.decompress decompressors decompressor fs with
          | (err, fs) => (err >>= fun _ => ok f, fs)
        else (ok f, fs)
      | (err, fs) => (err >>= fun _ => ok f, fs)
    | err => (err >>= fun _ => ok f, fs)
  | err => (err, fs)

/-! ## Notions used in the statements -/

/-- The little-endian value of the two bytes of `b` at offsets `i` and `i + 1`. -/
def le16At (b : List Byte) (i : Nat) : Nat :=
  (b.getD i 0).val + 256 * (b.getD (i + 1) 0).val

/-- The little-endian value of the four bytes of `b` at offsets `i` to `i + 3`. -/
def le32At (b : List Byte) (i : Nat) : Nat :=
  (b.getD i 0).val + 256 * (b.getD (i + 1) 0).val + 65536 * (b.getD (i + 2) 0).val +
    16777216 * (b.getD (i + 3) 0).val

/-- Offset `i` of `b` is an end-of-central-directory candidate: a record of 22 bytes starts
there with the bytes `50 4B 05 06`, and the comment length it declares at its offsets 20
and 21 fits in what follows the record. -/
def IsEndCandidate (b : List Byte) (i : Nat) : Prop :=
  i + 22 ≤ b.length ∧ b[i]? = some 0x50 ∧ b[i + 1]? = some 0x4b ∧ b[i + 2]? = some 0x05 ∧
    b[i + 3]? = some 0x06 ∧ i + 22 + le16At b (i + 20) ≤ b.length

instance (b : List Byte) (i : Nat) : Decidable (IsEndCandidate b i) := by
  unfold IsEndCandidate
  infer_instance

/-- A continuation byte, `80..BF`. -/
def isContinuation (b : Byte) : Bool :=
  decide (0x80 ≤ b.val ∧ b.val ≤ 0xBF)

/-- The second byte of a three-byte sequence that starts with `b0`: `A0..BF` after `E0`
(no overlong form), `80..9F` after `ED` (no surrogate), else any continuation byte. -/
def isSecondOfThree (b0 b1 : Byte) : Bool :=
  if b0.val = 0xE0 then decide (0xA0 ≤ b1.val ∧ b1.val ≤ 0xBF)
  else if b0.val = 0xED then decide (0x80 ≤ b1.val ∧ b1.val ≤ 0x9F)
  else isContinuation b1

/-- The second byte of a four-byte sequence that starts with `b0`: `90..BF` after `F0`
(no overlong form), `80..8F` after `F4` (nothing above `10FFFF`), else any continuation
byte. -/
def isSecondOfFour (b0 b1 : Byte) : Bool :=
  if b0.val = 0xF0 then decide (0x90 ≤ b1.val ∧ b1.val ≤ 0xBF)
  else if b0.val = 0xF4 then decide (0x80 ≤ b1.val ∧ b1.val ≤ 0x8F)
  else isContinuation b1

/-- Well-formed UTF-8, by the table of well-formed byte sequences of the Unicode standard:
a string is well formed when it is a sequence of one-byte (`00..7F`), two-byte (first byte
`C2..DF`), three-byte (`E0..EF`) and four-byte (`F0..F4`) sequences. -/
def validUTF8 : List Byte → Bool
  | [] => true
  | b0 :: t =>
    if b0.val < 0x80 then validUTF8 t
    else if 0xC2 ≤ b0.val ∧ b0.val ≤ 0xDF then
      match t with
      | b1 :: t1 => isContinuation b1 && validUTF8 t1
      | _ => false
    else if 0xE0 ≤ b0.val ∧ b0.val ≤ 0xEF then
      match t with
      | b1 :: b2 :: t2 => isSecondOfThree b0 b1 && isContinuation b2 && validUTF8 t2
      | _ => false
    else if 0xF0 ≤ b0.val ∧ b0.val ≤ 0xF4 then
      match t with
      | b1 :: b2 :: b3 :: t3 =>
        isSecondOfFour b0 b1 && isContinuation b2 && isContinuation b3 && validUTF8 t3
      | _ => false
    else false

/-- A byte outside the range that `detectUTF8` takes to mean the same in every encoding:
below `20`, above `7D`, or `5C`. -/
def isUnsafeByte (b : Byte) : Bool :=
  decide (b.val < 0x20 ∨ b.val > 0x7d ∨ b.val = 0x5c)

/-- The entry that a central directory file header stands for: `buf` is the fixed part of
46 bytes and `d` the bytes that follow it (name, extra field, comment). -/
def headerFile (buf d : List Byte) : File :=
  let Name := d.take (le16At buf 28)
  let Comment := d.drop (le16At buf 28 + le16At buf 30)
  { Name := Name
    Comment := Comment
    NonUTF8 := nonUTF8 (validUTF8 Name) (validUTF8 Name && Name.any isUnsafeByte)
      (validUTF8 Comment) (validUTF8 Comment && Comment.any isUnsafeByte) (le16At buf 8)
    CreatorVersion := le16At buf 4
    ReaderVersion := le16At buf 6
    Flags := le16At buf 8
    Method := le16At buf 10
    ModifiedTime := le16At buf 12
    ModifiedDate := le16At buf 14
    CRC32 := le32At buf 16
    CompressedSize := le32At buf 20
    UncompressedSize := le32At buf 24
    CompressedSize64 := le32At buf 20
    UncompressedSize64 := le32At buf 24
    Extra := (d.take (le16At buf 28 + le16At buf 30)).drop (le16At buf 28)
    ExternalAttrs := le32At buf 38
    headerOffset := (le32At buf 42 : Nat) }

/-- The decision table for `NonUTF8` in the words of the specification: true when the name
or the comment is not valid UTF-8; otherwise false when every byte of both strings lies in
`20..7D` and is not `5C`; otherwise true exactly when bit 11 of the flags is clear. -/
def encodingDecision (name comment : List Byte) (bit11 : Bool) : Bool :=
  if validUTF8 name = false ∨ validUTF8 comment = false then true
  else if ∀ b ∈ name ++ comment, 0x20 ≤ b.val ∧ b.val ≤ 0x7D ∧ b.val ≠ 0x5C then false
  else !bit11

/-- The entries that a stream of central directory file headers decodes to, one call of
`readDirectoryHeader` after the other, and the stream that is left. -/
inductive DecodesTo : List Byte → List File → List Byte → Prop
  | nil (r : List Byte) : DecodesTo r [] r
  | cons {r r1 r2 : List Byte} {f : File} {fs : List File} :
      readDirectoryHeader r = ok (f, r1) → DecodesTo r1 fs r2 → DecodesTo r (f :: fs) r2

/-- A well-formed central directory file header: the fixed part of 46 bytes with the
signature `0x02014b50`, followed by exactly the name, the extra field and the comment whose
lengths the fixed part declares. -/
def IsDirectoryRecord (rec : List Byte) : Prop :=
  46 ≤ rec.length ∧ le32At rec 0 = directoryHeaderSignature ∧
    rec.length = 46 + le16At rec 28 + le16At rec 30 + le16At rec 32

/-- The code points that a well-formed UTF-8 string encodes, in order, by the bit
distribution of the Unicode standard; `none` for a string that is not well-formed. -/
def codePoints : List Byte → Option (List Nat)
  | [] => some []
  | b0 :: t =>
    if b0.val < 0x80 then (codePoints t).map (fun cs => b0.val :: cs)
    else if 0xC2 ≤ b0.val ∧ b0.val ≤ 0xDF then
      match t with
      | b1 :: t1 =>
        if isContinuation b1 then
          (codePoints t1).map (fun cs => ((b0.val - 0xC0) * 64 + (b1.val - 0x80)) :: cs)
        else none
      | _ => none
    else if 0xE0 ≤ b0.val ∧ b0.val ≤ 0xEF then
      match t with
      | b1 :: b2 :: t2 =>
        if isSecondOfThree b0 b1 && isContinuation b2 then
          (codePoints t2).map (fun cs =>
            ((b0.val - 0xE0) * 4096 + (b1.val - 0x80) * 64 + (b2.val - 0x80)) :: cs)
        else none
      | _ => none
    else if 0xF0 ≤ b0.val ∧ b0.val ≤ 0xF4 then
      match t with
      | b1 :: b2 :: b3 :: t3 =>
        if isSecondOfFour b0 b1 && isContinuation b2 && isContinuation b3 then
          (codePoints t3).map (fun cs =>
            ((b0.val - 0xF0) * 262144 + (b1.val - 0x80) * 4096 + (b2.val - 0x80) * 64 +
              (b3.val - 0x80)) :: cs)
        else none
      | _ => none
    else none

/-- A code point outside the range that `detectUTF8` takes to mean the same in every
encoding: below `20`, above `7D`, or `5C`. -/
def isUnsafeCodePoint (c : Nat) : Bool :=
  decide (c < 0x20 ∨ c > 0x7d ∨ c = 0x5c)

/-- The relation between the well-formedness test and the code points of a string. -/
def CodePointsAgree (s : List Byte) : Prop :=
  (validUTF8 s = false → codePoints s = none) ∧
  (validUTF8 s = true →
    ∃ cps, codePoints s = some cps ∧ cps.any isUnsafeCodePoint = s.any isUnsafeByte)

/-- The path of the entry `seg` of the directory `d`, for a cleaned path `d`: `d`, a slash
and `seg`, without the slash after the root `/` and without `d` when it is `.`. -/
def childPath (d seg : List Byte) : List Byte :=
  if d = [0x2f] then 0x2f :: seg
  else if d = [0x2e] then seg
  else d ++ 0x2f :: seg

/-- The elements that `path.Clean` has written are plain: not empty, not `.`, and without
a slash. -/
def PlainElements (out : List (List Byte)) : Prop :=
  ∀ e ∈ out, e ≠ [] ∧ e ≠ [0x2e] ∧ (0x2f : Byte) ∉ e

/-! ## Concrete inputs -/

/-- An end-of-central-directory record that declares a comment of 22 bytes. -/
def eocdComment22 : List Byte :=
  [0x50, 0x4b, 0x05, 0x06, 0, 0, 0, 0, 0, 0, 0, 0, 0, 0, 0, 0, 0, 0, 0, 0, 22, 0]

/-- An end-of-central-directory record that declares no entry and an empty comment. -/
def eocdEmpty : List Byte :=
  [0x50, 0x4b, 0x05, 0x06, 0, 0, 0, 0, 0, 0, 0, 0, 0, 0, 0, 0, 0, 0, 0, 0, 0, 0]

/-- An end-of-central-directory record that declares a comment of 4 bytes. -/
def eocdComment4 : List Byte :=
  [0x50, 0x4b, 0x05, 0x06, 0, 0, 0, 0, 0, 0, 0, 0, 0, 0, 0, 0, 0, 0, 0, 0, 4, 0]

/-- An end-of-central-directory record: 2 entries, directory of 200 bytes at offset 1000,
a comment of one byte. -/
def eocdSample : List Byte :=
  [0x50, 0x4b, 0x05, 0x06, 0, 0, 0, 0, 2, 0, 2, 0, 200, 0, 0, 0, 0xe8, 3, 0, 0, 1, 0]

/-- A local file header: a name of 3 bytes and an extra field of 1 byte. -/
def localHeaderSample : List Byte :=
  [0x50, 0x4b, 0x03, 0x04, 20, 0, 0, 0, 0, 0, 0, 0, 0, 0, 0, 0, 0, 0, 0, 0, 0, 0, 0, 0, 0, 0,
   3, 0, 1, 0]

/-- A whole archive of 111 bytes with one stored entry named `a`: the local header and the
name (31 bytes), the payload of 11 bytes, the central directory header and the name
(47 bytes, at offset 42), and the end record (22 bytes, at offset 89). -/
def archiveStored : List Byte :=
  [0x50, 0x4b, 0x03, 0x04, 20, 0, 0, 0, 0, 0, 0, 0, 0, 0, 1, 2, 3, 4,
   11, 0, 0, 0, 11, 0, 0, 0, 1, 0, 0, 0, 0x61] ++
  [101, 102, 103, 104, 105, 106, 107, 108, 109, 110, 111] ++
  [0x50, 0x4b, 0x01, 0x02, 20, 0, 20, 0, 0, 0, 0, 0, 0, 0, 0, 0, 1, 2, 3, 4,
   11, 0, 0, 0, 11, 0, 0, 0, 1, 0, 0, 0, 0, 0, 0, 0, 0, 0, 0, 0, 0, 0, 0, 0, 0, 0, 0x61] ++
  [0x50, 0x4b, 0x05, 0x06, 0, 0, 0, 0, 1, 0, 1, 0, 47, 0, 0, 0, 42, 0, 0, 0, 0, 0]

/-- The entry that `Reader.init` decodes from `archiveStored`. -/
def entryStored : File :=
  { Name := [0x61], CreatorVersion := 20, ReaderVersion := 20, CRC32 := 67305985,
    CompressedSize := 11, UncompressedSize := 11, CompressedSize64 := 11,
    UncompressedSize64 := 11, headerOffset := 0 }

/-- A central directory file header with the name `é.txt` in UTF-8 (6 bytes), an extra
field of 2 bytes and the comment `ok`, flags `0800`, followed by 3 more bytes. -/
def headerSample : List Byte :=
  [0x50, 0x4b, 0x01, 0x02, 20, 0, 20, 0, 0, 8, 8, 0, 0, 0, 0, 0, 1, 2, 3, 4,
   11, 0, 0, 0, 12, 0, 0, 0, 6, 0, 2, 0, 2, 0, 0, 0, 0, 0, 0, 0, 0xa4, 0x81, 7, 0, 0, 0,
   0xc3, 0xa9, 0x2e, 0x74, 0x78, 0x74, 0xaa, 0xbb, 0x6f, 0x6b, 9, 9, 9]

/-- The archive `archiveStored` with an end record that declares two entries instead of
the one entry that the central directory holds. -/
def archiveTwoDeclared : List Byte :=
  archiveStored.take 89 ++
  [0x50, 0x4b, 0x05, 0x06, 0, 0, 0, 0, 2, 0, 2, 0, 47, 0, 0, 0, 42, 0, 0, 0, 0, 0]

/-- The archive `archiveStored` with an archive comment of 22 bytes that is itself an end
record: no entry, central directory at offset 89, empty comment. -/
def archiveCommentRecord : List Byte :=
  archiveStored.take 89 ++
  [0x50, 0x4b, 0x05, 0x06, 0, 0, 0, 0, 1, 0, 1, 0, 47, 0, 0, 0, 42, 0, 0, 0, 22, 0] ++
  [0x50, 0x4b, 0x05, 0x06, 0, 0, 0, 0, 0, 0, 0, 0, 0, 0, 0, 0, 89, 0, 0, 0, 0, 0]

/-- The archive `archiveStored` with an archive comment of 79 spaces, so that the end
record starts one byte before the last 100 bytes of the archive. -/
def archiveLongComment : List Byte :=
  archiveStored.take 89 ++
  [0x50, 0x4b, 0x05, 0x06, 0, 0, 0, 0, 1, 0, 1, 0, 47, 0, 0, 0, 42, 0, 0, 0, 79, 0] ++
  List.replicate 79 0x20

/-- The archive `archiveStored` with an end record that declares four entries, more than
a resource of 111 bytes can hold. -/
def archiveManyDeclared : List Byte :=
  archiveStored.take 89 ++
  [0x50, 0x4b, 0x05, 0x06, 0, 0, 0, 0, 4, 0, 4, 0, 47, 0, 0, 0, 42, 0, 0, 0, 0, 0]

/-- The destination directory `out`. -/
def dirOut : List Byte := [0x6f, 0x75, 0x74]

/-- An entry named `a/`: its name ends with a slash. -/
def fileSlashName : File := { Name := [0x61, 0x2f] }

/-- An entry named `a/.`: its last segment is `.`. -/
def fileDotName : File := { Name := [0x61, 0x2f, 0x2e] }

/-- An entry named `a/..`: its last segment is `..`. -/
def fileDotDotName : File := { Name := [0x61, 0x2f, 0x2e, 0x2e] }

/-- An entry named `a/b/c.go`. -/
def fileNestedName : File := { Name := [0x61, 0x2f, 0x62, 0x2f, 0x63, 0x2e, 0x67, 0x6f] }

/-- The path `out/a`. -/
def pathOutA : List Byte := [0x6f, 0x75, 0x74, 0x2f, 0x61]

/-- A file system whose only file is `out/a`, with the one byte 9. -/
def fsStale : FileSystem := fun q => if q = pathOutA then Node.file [9] else Node.absent

/-- A file system whose only file is `out/a`, with the two bytes `03 00`: the DEFLATE
stream of the empty content. -/
def fsDeflated : FileSystem :=
  fun q => if q = pathOutA then Node.file [3, 0] else Node.absent

/-- An entry at `out/a` with the method 8 and a compressed size of 2 bytes. -/
def entryDeflated : File :=
  { Name := [0x61], Method := 8, CompressedSize64 := 2, Path := pathOutA }

/-- A file system in which `out` is a directory and there is nothing else. -/
def fsDirectory : FileSystem := fun q => if q = dirOut then Node.denied else Node.absent

/-- An entry named `a/` with the method 8 whose path is `out`, the destination directory
itself, as `File.setFilePath` sets it. -/
def entryAtDirectory : File :=
  { Name := [0x61, 0x2f], Method := 8, CompressedSize64 := 2, Path := dirOut }

/-- An entry with the method 8 and the empty path. -/
def entryNoPath : File := { Name := [0x61], Method := 8, CompressedSize64 := 2 }

/-- A registry with no decompressor at all. -/
def registryNone : Nat → Option Decompressor := fun _ => none

/-- A registry whose only decompressor, for the method 8, expands `03 00` to no bytes
and any other input to the byte 1. -/
def registryDeflate : Nat → Option Decompressor := fun method =>
  if method = 8 then some (fun r => if r = [3, 0] then [] else [1]) else none

/-! # Statements and proofs -/

/-! ## General lemmas -/

theorem bind_ok {α β : Type} (a : α) (f : α → Outcome β) : (Outcome.ok a >>= f) = f a := rfl

theorem pure_eq_ok {α : Type} (a : α) : (pure a : Outcome α) = ok a := rfl

theorem or_shiftLeft_eight (a c : Nat) (h : a < 256) : a ||| c <<< 8 = a + 256 * c := by
  rw [Nat.shiftLeft_eq, Nat.lor_comm, Nat.mul_comm c, Nat.add_comm]
  exact (Nat.mul_add_lt_is_or (i := 8) h c).symm

theorem index_eq (b : List Byte) (z : Int) (j : Nat) (hz : z = j) (h : j < b.length) :
    index b z = ok b[j] := by
  subst hz
  simp [index, List.getElem?_eq_getElem h]

theorem getElem_mid (pre E post : List Byte) (c : Nat) (hc : c < E.length) :
    (pre ++ E ++ post)[pre.length + c]? = E[c]? := by
  rw [List.append_assoc, List.getElem?_append_right (by omega)]
  rw [show pre.length + c - pre.length = c by omega]
  exact List.getElem?_append_left hc

theorem getD_mid (pre E post : List Byte) (c : Nat) (hc : c < E.length) :
    (pre ++ E ++ post).getD (pre.length + c) 0 = E.getD c 0 := by
  rw [List.getD_eq_getElem?_getD, List.getD_eq_getElem?_getD, getElem_mid pre E post c hc]

/-! ## `findSignatureInBlock` -/

theorem findSignatureInBlock.loop_succ (b : List Byte) (i : Nat) (h : i + 22 ≤ b.length) :
    findSignatureInBlock.loop b (i + 1) =
      if IsEndCandidate b i then ok (i : Int) else findSignatureInBlock.loop b i := by
  rw [findSignatureInBlock.loop]
  have i0 : index b (i : Int) = ok b[i] := index_eq b _ i rfl (by omega)
  have i1 : index b ((i : Int) + 1) = ok b[i + 1] := index_eq b _ (i + 1) (by omega) (by omega)
  have i2 : index b ((i : Int) + 2) = ok b[i + 2] := index_eq b _ (i + 2) (by omega) (by omega)
  have i3 : index b ((i : Int) + 3) = ok b[i + 3] := index_eq b _ (i + 3) (by omega) (by omega)
  have i20 : index b ((i : Int) + (directoryEndLen : Nat) - 2) = ok b[i + 20] :=
    index_eq b _ (i + 20) (by unfold directoryEndLen; omega) (by omega)
  have i21 : index b ((i : Int) + (directoryEndLen : Nat) - 1) = ok b[i + 21] :=
    index_eq b _ (i + 21) (by unfold directoryEndLen; omega) (by omega)
  simp only [i0, i1, i2, i3, i20, i21, bind_ok, pure_eq_ok,
    or_shiftLeft_eight _ _ (b[i + 20]).isLt]
  have e0 : b[i]? = some b[i] := List.getElem?_eq_getElem (by omega)
  have e1 : b[i + 1]? = some b[i + 1] := List.getElem?_eq_getElem (by omega)
  have e2 : b[i + 2]? = some b[i + 2] := List.getElem?_eq_getElem (by omega)
  have e3 : b[i + 3]? = some b[i + 3] := List.getElem?_eq_getElem (by omega)
  have e20 : b.getD (i + 20) 0 = b[i + 20] := by
    rw [List.getD_eq_getElem?_getD, List.getElem?_eq_getElem (by omega)]; rfl
  have e21 : b.getD (i + 20 + 1) 0 = b[i + 21] := by
    rw [List.getD_eq_getElem?_getD, List.getElem?_eq_getElem (by omega)]; rfl
  unfold IsEndCandidate le16At
  simp only [e0, e1, e2, e3, e20, e21, Option.some.injEq, directoryEndLen]
  by_cases h0 : b[i] = 0x50 <;> by_cases h1 : b[i + 1] = 0x4b <;>
    by_cases h2 : b[i + 2] = 0x05 <;> by_cases h3 : b[i + 3] = 0x06 <;>
    simp [h0, h1, h2, h3, h, bind_ok, pure_eq_ok]
  exact if_congr (by omega) rfl rfl

/-- What the scan from index `k - 1` downwards returns: `-1` when no index below `k` is a
candidate, otherwise the greatest candidate below `k`. -/
theorem findSignatureInBlock.loop_spec (b : List Byte) :
    ∀ k : Nat, (k = 0 ∨ k + 21 ≤ b.length) →
      (findSignatureInBlock.loop b k = ok (-1) ∧ ∀ i, i < k → ¬ IsEndCandidate b i) ∨
      (∃ i : Nat, i < k ∧ findSignatureInBlock.loop b k = ok (i : Int) ∧ IsEndCandidate b i ∧
        ∀ j, i < j → j < k → ¬ IsEndCandidate b j) := by
  intro k
  induction k with
  | zero =>
    intro _
    left
    exact ⟨rfl, fun i hi => absurd hi (Nat.not_lt_zero i)⟩
  | succ k ih =>
    intro hk
    have hlen : k + 22 ≤ b.length := by omega
    rw [findSignatureInBlock.loop_succ b k hlen]
    by_cases hc : IsEndCandidate b k
    · right
      refine ⟨k, Nat.lt_succ_self k, by simp [hc], hc, ?_⟩
      intro j h1 h2
      omega
    · rw [if_neg hc]
      rcases ih (by omega) with ⟨h1, h2⟩ | ⟨i, hi, h1, h2, h3⟩
      · left
        refine ⟨h1, fun i hi => ?_⟩
        rcases Nat.lt_succ_iff_lt_or_eq.mp hi with h | h
        · exact h2 i h
        · exact h ▸ hc
      · right
        refine ⟨i, Nat.lt_succ_of_lt hi, h1, h2, fun j hj1 hj2 => ?_⟩
        rcases Nat.lt_succ_iff_lt_or_eq.mp hj2 with h | h
        · exact h3 j hj1 h
        · exact h ▸ hc

/-- The result of `findSignatureInBlock`: `-1` when the block has no candidate, otherwise
the greatest candidate. It never panics. -/
theorem findSignatureInBlock_spec (b : List Byte) :
    (findSignatureInBlock b = ok (-1) ∧ ∀ i, ¬ IsEndCandidate b i) ∨
    (∃ i : Nat, findSignatureInBlock b = ok (i : Int) ∧ IsEndCandidate b i ∧
      ∀ j, i < j → ¬ IsEndCandidate b j) := by
  have hk : ∀ j, IsEndCandidate b j →
      j < ((b.length : Int) - (directoryEndLen : Nat) + 1).toNat := by
    intro j hj
    have := hj.1
    unfold directoryEndLen
    omega
  rcases findSignatureInBlock.loop_spec b
      ((b.length : Int) - (directoryEndLen : Nat) + 1).toNat
      (by unfold directoryEndLen; omega) with ⟨h1, h2⟩ | ⟨i, _, h1, h2, h3⟩
  · left
    exact ⟨h1, fun i hi => h2 i (hk i hi) hi⟩
  · right
    exact ⟨i, h1, h2, fun j hj hc => h3 j hj (hk j hc) hc⟩

/-- The record itself is a candidate of the buffer it sits in. -/
theorem isEndCandidate_record (pre E comment : List Byte) (hlen : E.length = 22)
    (hsig : E.take 4 = [0x50, 0x4b, 0x05, 0x06]) (hn : le16At E 20 = comment.length) :
    IsEndCandidate (pre ++ E ++ comment) pre.length := by
  have h0 := getElem_mid pre E comment 0 (by omega)
  have h1 := getElem_mid pre E comment 1 (by omega)
  have h2 := getElem_mid pre E comment 2 (by omega)
  have h3 := getElem_mid pre E comment 3 (by omega)
  have h20 := getD_mid pre E comment 20 (by omega)
  have h21 := getD_mid pre E comment 21 (by omega)
  have hL : le16At (pre ++ E ++ comment) (pre.length + 20) = le16At E 20 := by
    unfold le16At
    rw [h20, show pre.length + 20 + 1 = pre.length + 21 by omega, h21]
  match E, hlen, hsig with
  | e0 :: e1 :: e2 :: e3 :: rest, hlen, hsig =>
    simp only [List.take_succ_cons, List.take_zero, List.cons.injEq, and_true] at hsig
    obtain ⟨r0, r1, r2, r3⟩ := hsig
    subst r0 r1 r2 r3
    have hr : rest.length = 18 := by simpa using hlen
    refine ⟨by simp only [List.length_append, List.length_cons]; omega, ?_, ?_, ?_, ?_, ?_⟩
    · simpa using h0
    · simpa using h1
    · simpa using h2
    · simpa using h3
    · rw [hL, hn]
      simp only [List.length_append, List.length_cons]
      omega

/-- C1 (as stated, refuted): the buffer is a 22-byte end record that declares a comment of
22 bytes, followed by that comment, which is itself an end record with an empty comment.
All the conditions of the claim hold with an empty part before the record, and
`findSignatureInBlock` returns 22, the offset of the record inside the comment, not 0. -/
theorem findSignatureInBlock_embedded_record :
    eocdComment22.length = 22 ∧ eocdComment22.take 4 = [0x50, 0x4b, 0x05, 0x06] ∧
    le16At eocdComment22 20 = eocdEmpty.length ∧
    findSignatureInBlock ([] ++ eocdComment22 ++ eocdEmpty) = ok 22 ∧
    findSignatureInBlock ([] ++ eocdComment22 ++ eocdEmpty) ≠
      ok (([] : List Byte).length : Int) := by
  decide

/-- C1 (amended): for every buffer `pre ++ E ++ comment`, where `E` is a 22-byte record
that begins with `50 4B 05 06` and whose comment-length field equals `len(comment)`,
`findSignatureInBlock` returns `len(pre)` exactly when no offset after `len(pre)` is
itself a candidate, that is, carries the four signature bytes together with a
comment-length field that fits in the buffer. A comment that merely contains the four
bytes is harmless; one that contains a whole consistent record is not. -/
theorem findSignatureInBlock_record_offset (pre E comment : List Byte)
    (hlen : E.length = 22) (hsig : E.take 4 = [0x50, 0x4b, 0x05, 0x06])
    (hn : le16At E 20 = comment.length) :
    findSignatureInBlock (pre ++ E ++ comment) = ok (pre.length : Int) ↔
      ∀ j, pre.length < j → ¬ IsEndCandidate (pre ++ E ++ comment) j := by
  have hc := isEndCandidate_record pre E comment hlen hsig hn
  rcases findSignatureInBlock_spec (pre ++ E ++ comment) with ⟨_, h2⟩ | ⟨i, h1, h2, h3⟩
  · exact absurd hc (h2 _)
  · rw [h1]
    constructor
    · intro h j hj
      have : i = pre.length := by simpa using h
      exact h3 j (this ▸ hj)
    · intro h
      have h4 : ¬ i < pre.length := fun hlt => h3 _ hlt hc
      have h5 : ¬ pre.length < i := fun hlt => h i hlt h2
      have : i = pre.length := by omega
      rw [this]

/-- C1 (amended), at a concrete input: one byte, then a record whose 4-byte comment is the
signature itself. -/
theorem findSignatureInBlock_record_offset_witness :
    eocdComment4.length = 22 ∧ eocdComment4.take 4 = [0x50, 0x4b, 0x05, 0x06] ∧
    le16At eocdComment4 20 = ([0x50, 0x4b, 0x05, 0x06] : List Byte).length ∧
    (findSignatureInBlock ([7] ++ eocdComment4 ++ [0x50, 0x4b, 0x05, 0x06]) =
        ok (([7] : List Byte).length : Int) ↔
      ∀ j, ([7] : List Byte).length < j →
        ¬ IsEndCandidate ([7] ++ eocdComment4 ++ [0x50, 0x4b, 0x05, 0x06]) j) :=
  ⟨by decide, by decide, by decide,
    findSignatureInBlock_record_offset [7] eocdComment4 [0x50, 0x4b, 0x05, 0x06]
      (by decide) (by decide) (by decide)⟩

/-! ## `readBuf` and the fixed-length records -/


theorem or_shiftLeft (a c k : Nat) (h : a < 2 ^ k) : a ||| c <<< k = a + 2 ^ k * c := by
  rw [Nat.shiftLeft_eq, Nat.lor_comm, Nat.mul_comm c, Nat.add_comm]
  exact (Nat.mul_add_lt_is_or h c).symm

theorem getD_drop (b : List Byte) (k i : Nat) : (b.drop k).getD i 0 = b.getD (k + i) 0 := by
  simp [List.getD_eq_getElem?_getD, List.getElem?_drop]

theorem le16At_drop (b : List Byte) (k i : Nat) : le16At (b.drop k) i = le16At b (k + i) := by
  simp [le16At, getD_drop, Nat.add_assoc]

theorem le32At_drop (b : List Byte) (k i : Nat) : le32At (b.drop k) i = le32At b (k + i) := by
  simp [le32At, getD_drop, Nat.add_assoc]

theorem le16At_lt (b : List Byte) (i : Nat) : le16At b i < 65536 := by
  unfold le16At
  have h1 := (b.getD i 0).isLt
  have h2 := (b.getD (i + 1) 0).isLt
  omega

theorem le32At_lt (b : List Byte) (i : Nat) : le32At b i < 4294967296 := by
  unfold le32At
  have h1 := (b.getD i 0).isLt
  have h2 := (b.getD (i + 1) 0).isLt
  have h3 := (b.getD (i + 2) 0).isLt
  have h4 := (b.getD (i + 3) 0).isLt
  omega

theorem sliceFrom_eq (b : List Byte) (z : Int) (n : Nat) (hz : z = n) (h : n ≤ b.length) :
    sliceFrom b z = ok (b.drop n) := by
  subst hz
  have : ¬ ((n : Int) < 0 ∨ (b.length : Int) < n) := by omega
  unfold sliceFrom
  rw [if_neg this, Int.toNat_ofNat]

theorem sliceTo_eq (b : List Byte) (z : Int) (n : Nat) (hz : z = n) (h : n ≤ b.length) :
    sliceTo b z = ok (b.take n) := by
  subst hz
  have : ¬ ((n : Int) < 0 ∨ (b.length : Int) < n) := by omega
  unfold sliceTo
  rw [if_neg this, Int.toNat_ofNat]

theorem thread_uint16 (b : List Byte) (h : 2 ≤ b.length) :
    thread (readBuf.uint16 b) = ok (le16At b 0, b.drop 2) := by
  unfold readBuf.uint16
  rw [sliceFrom_eq b 2 2 rfl h]
  match b, h with
  | b0 :: b1 :: t, _ =>
    simp [LittleEndian.Uint16, thread, le16At, or_shiftLeft_eight _ _ b0.isLt]

theorem thread_uint32 (b : List Byte) (h : 4 ≤ b.length) :
    thread (readBuf.uint32 b) = ok (le32At b 0, b.drop 4) := by
  unfold readBuf.uint32
  rw [sliceFrom_eq b 4 4 rfl h]
  match b, h with
  | b0 :: b1 :: b2 :: b3 :: t, _ =>
    have h0 := b0.isLt
    have h1 := b1.isLt
    have h2 := b2.isLt
    have e1 : b0.val ||| b1.val <<< 8 = b0.val + 2 ^ 8 * b1.val :=
      or_shiftLeft _ _ 8 (by omega)
    have e2 : b0.val + 2 ^ 8 * b1.val ||| b2.val <<< 16
        = b0.val + 2 ^ 8 * b1.val + 2 ^ 16 * b2.val := or_shiftLeft _ _ 16 (by omega)
    have e3 : b0.val + 2 ^ 8 * b1.val + 2 ^ 16 * b2.val ||| b3.val <<< 24
        = b0.val + 2 ^ 8 * b1.val + 2 ^ 16 * b2.val + 2 ^ 24 * b3.val :=
      or_shiftLeft _ _ 24 (by omega)
    simp only [LittleEndian.Uint32, thread, le32At, e1, e2, e3]
    simp

theorem readDirectoryEnd_eq (buf : List Byte) (h : 22 ≤ buf.length) :
    readDirectoryEnd buf =
      if le16At buf 20 > buf.length - 22 then error GoError.invalidCommentLength
      else ok { diskNbr := le16At buf 4, dirDiskNbr := le16At buf 6,
                dirRecordsThisDisk := le16At buf 8, directoryRecords := le16At buf 10,
                directorySize := le32At buf 12, directoryOffset := le32At buf 16,
                commentLen := le16At buf 20,
                comment := (buf.drop 22).take (le16At buf 20) } := by
  unfold readDirectoryEnd
  simp (disch := simp only [List.length_drop]; omega) only [sliceFrom_eq buf 4 4 rfl (by omega),
    bind_ok, thread_uint16, thread_uint32, List.drop_drop, le16At_drop, le32At_drop]
  simp only [Nat.reduceAdd]
  by_cases hc : le16At buf 20 > buf.length - 22
  · have hc2 : ((le16At buf 20 : Nat) : Int) > ((buf.drop 22).length : Nat) := by
      rw [List.length_drop]; omega
    rw [if_pos hc, if_pos hc2]
  · have hc2 : ¬ ((le16At buf 20 : Nat) : Int) > ((buf.drop 22).length : Nat) := by
      rw [List.length_drop]; omega
    rw [if_neg hc, if_neg hc2, sliceTo_eq _ _ (le16At buf 20) rfl
      (by rw [List.length_drop]; omega)]
    rfl

/-- C7: for every buffer of at least 22 bytes, `readDirectoryEnd` returns the error
`zip: invalid comment length` if and only if the little-endian comment length at offset 20
exceeds `len(buf) - 22`; otherwise it succeeds, with `directoryRecords` the uint16 at
offset 10, `directorySize` the uint32 at offset 12, `directoryOffset` the uint32 at offset
16, `commentLen` the uint16 at offset 20 and `comment` exactly the `commentLen` bytes that
start at offset 22. -/
theorem readDirectoryEnd_layout (buf : List Byte) (h : 22 ≤ buf.length) :
    (readDirectoryEnd buf = error GoError.invalidCommentLength ↔
      le16At buf 20 > buf.length - 22) ∧
    (¬ le16At buf 20 > buf.length - 22 →
      ∃ d, readDirectoryEnd buf = ok d ∧
        d.directoryRecords = le16At buf 10 ∧ d.directorySize = le32At buf 12 ∧
        d.directoryOffset = le32At buf 16 ∧ d.commentLen = le16At buf 20 ∧
        d.comment = (buf.drop 22).take (le16At buf 20) ∧
        d.comment.length = le16At buf 20) := by
  rw [readDirectoryEnd_eq buf h]
  by_cases hc : le16At buf 20 > buf.length - 22
  · simp [hc]
  · simp only [if_neg hc, hc, false_iff, not_false_eq_true, true_implies]
    refine ⟨by simp, _, rfl, rfl, rfl, rfl, rfl, rfl, ?_⟩
    simp only [List.length_take, List.length_drop]
    omega


/-- C7, at a concrete buffer: a record followed by its one comment byte. -/
theorem readDirectoryEnd_layout_witness :
    22 ≤ (eocdSample ++ [9]).length ∧
    (readDirectoryEnd (eocdSample ++ [9]) = error GoError.invalidCommentLength ↔
      le16At (eocdSample ++ [9]) 20 > (eocdSample ++ [9]).length - 22) ∧
    (¬ le16At (eocdSample ++ [9]) 20 > (eocdSample ++ [9]).length - 22 →
      ∃ d, readDirectoryEnd (eocdSample ++ [9]) = ok d ∧
        d.directoryRecords = le16At (eocdSample ++ [9]) 10 ∧
        d.directorySize = le32At (eocdSample ++ [9]) 12 ∧
        d.directoryOffset = le32At (eocdSample ++ [9]) 16 ∧
        d.commentLen = le16At (eocdSample ++ [9]) 20 ∧
        d.comment = ((eocdSample ++ [9]).drop 22).take (le16At (eocdSample ++ [9]) 20) ∧
        d.comment.length = le16At (eocdSample ++ [9]) 20) :=
  ⟨by decide, readDirectoryEnd_layout (eocdSample ++ [9]) (by decide)⟩

theorem findBodyOffset.decode_eq (buf : List Byte) (h : 30 ≤ buf.length) :
    findBodyOffset.decode buf =
      if le32At buf 0 ≠ fileHeaderSignature then error GoError.ErrFormat
      else ok ((30 + le16At buf 26 + le16At buf 28 : Nat) : Int) := by
  unfold findBodyOffset.decode
  simp (disch := first | omega | (simp only [List.length_drop]; omega)) only [bind_ok,
    thread_uint32,
    thread_uint16, sliceFrom_eq (buf.drop 4) 22 22 rfl (by rw [List.length_drop]; omega),
    List.drop_drop, le16At_drop, Nat.reduceAdd, fileHeaderLen]
  rfl

/-- C9: for every fetched local-header prefix of at least 30 bytes, `File.findBodyOffset`
returns `ErrFormat` if the first four bytes are not the little-endian signature
`0x04034b50`, and otherwise returns `30 + nameLen + extraLen`, where `nameLen` and
`extraLen` are the little-endian uint16 values at offsets 26 and 28 of the prefix. -/
theorem File.findBodyOffset_layout (f : File) (res buf : List Byte)
    (hbuf : getFileBody res f.headerOffset (f.headerOffset + fileHeaderLen) = buf)
    (h : 30 ≤ buf.length) :
    (le32At buf 0 ≠ 0x04034b50 → f.findBodyOffset res = error GoError.ErrFormat) ∧
    (le32At buf 0 = 0x04034b50 →
      f.findBodyOffset res = ok ((30 + le16At buf 26 + le16At buf 28 : Nat) : Int)) := by
  unfold File.findBodyOffset
  rw [hbuf, findBodyOffset.decode_eq buf h]
  simp only [fileHeaderSignature]
  constructor
  · intro hs
    rw [if_pos hs]
  · intro hs
    rw [if_neg (not_not.mpr hs)]

/-- C9, at a concrete input: a local header at offset 2 of the resource. -/
theorem File.findBodyOffset_layout_witness :
    30 ≤ (localHeaderSample ++ [7]).length ∧
    (le32At (localHeaderSample ++ [7]) 0 = 0x04034b50 →
      File.findBodyOffset { headerOffset := 2 } ([0, 0] ++ localHeaderSample ++ [7, 7, 7]) =
        ok ((30 + le16At (localHeaderSample ++ [7]) 26 +
          le16At (localHeaderSample ++ [7]) 28 : Nat) : Int)) :=
  ⟨by decide,
   (File.findBodyOffset_layout { headerOffset := 2 } ([0, 0] ++ localHeaderSample ++ [7, 7, 7])
      (localHeaderSample ++ [7]) (by decide) (by decide)).2⟩

/-- C10 (as stated, refuted): `uint16` on a window of one byte ends in a panic, which is
not an error result. -/
theorem readBuf.uint16_short_no_error :
    ([1] : readBuf).length < 2 ∧ (readBuf.uint16 [1]).1 = Outcome.panic ∧
    ∀ e, (readBuf.uint16 [1]).1 ≠ Outcome.error e :=
  ⟨by decide, by decide, fun e => by simp [readBuf.uint16, LittleEndian.Uint16]⟩

/-- C10 (amended): for every byte window `b`, each read (`uint8`, `uint16`, `uint32`,
`uint64`) applied when fewer than 1, 2, 4 or 8 bytes remain, and `sub(n)` applied with
`n > len(b)`, ends in a run-time panic (the methods have no error result), and leaves the
window unchanged. -/
theorem readBuf.short_read_panics (b : readBuf) :
    (b.length < 1 → readBuf.uint8 b = (Outcome.panic, b)) ∧
    (b.length < 2 → readBuf.uint16 b = (Outcome.panic, b)) ∧
    (b.length < 4 → readBuf.uint32 b = (Outcome.panic, b)) ∧
    (b.length < 8 → readBuf.uint64 b = (Outcome.panic, b)) ∧
    (∀ n : Int, (b.length : Int) < n → readBuf.sub b n = (Outcome.panic, b)) := by
  refine ⟨?_, ?_, ?_, ?_, ?_⟩
  · intro h
    match b, h with
    | [], _ => rfl
  · intro h
    match b, h with
    | [], _ => rfl
    | [_], _ => rfl
  · intro h
    match b, h with
    | [], _ => rfl
    | [_], _ => rfl
    | [_, _], _ => rfl
    | [_, _, _], _ => rfl
  · intro h
    match b, h with
    | [], _ => rfl
    | [_], _ => rfl
    | [_, _], _ => rfl
    | [_, _, _], _ => rfl
    | [_, _, _, _], _ => rfl
    | [_, _, _, _, _], _ => rfl
    | [_, _, _, _, _, _], _ => rfl
    | [_, _, _, _, _, _, _], _ => rfl
  · intro n h
    have : n < 0 ∨ (b.length : Int) < n := Or.inr h
    simp [readBuf.sub, sliceTo, this]

/-- C10 (amended), at concrete windows. -/
theorem readBuf.short_read_panics_witness :
    readBuf.uint8 [] = (Outcome.panic, []) ∧
    readBuf.uint16 [1] = (Outcome.panic, [1]) ∧
    readBuf.uint32 [1, 2, 3] = (Outcome.panic, [1, 2, 3]) ∧
    readBuf.uint64 [1, 2, 3, 4, 5, 6, 7] = (Outcome.panic, [1, 2, 3, 4, 5, 6, 7]) ∧
    readBuf.sub [1, 2] 3 = (Outcome.panic, [1, 2]) :=
  ⟨(readBuf.short_read_panics []).1 (by decide),
   (readBuf.short_read_panics [1]).2.1 (by decide),
   (readBuf.short_read_panics [1, 2, 3]).2.2.1 (by decide),
   (readBuf.short_read_panics [1, 2, 3, 4, 5, 6, 7]).2.2.2.1 (by decide),
   (readBuf.short_read_panics [1, 2]).2.2.2.2 3 (by decide)⟩

/-! ## UTF-8 -/

theorem validUTF8_cons (b0 : Byte) (t : List Byte) : validUTF8 (b0 :: t) =
    if b0.val < 0x80 then validUTF8 t
    else if 0xC2 ≤ b0.val ∧ b0.val ≤ 0xDF then
      match t with
      | b1 :: t1 => isContinuation b1 && validUTF8 t1
      | _ => false
    else if 0xE0 ≤ b0.val ∧ b0.val ≤ 0xEF then
      match t with
      | b1 :: b2 :: t2 => isSecondOfThree b0 b1 && isContinuation b2 && validUTF8 t2
      | _ => false
    else if 0xF0 ≤ b0.val ∧ b0.val ≤ 0xF4 then
      match t with
      | b1 :: b2 :: b3 :: t3 =>
        isSecondOfFour b0 b1 && isContinuation b2 && isContinuation b3 && validUTF8 t3
      | _ => false
    else false := by
  cases t with
  | nil => rfl
  | cons b1 t =>
    cases t with
    | nil => rfl
    | cons b2 t =>
      cases t with
      | nil => rfl
      | cons b3 t => rfl

theorem or_add_of_lt (x z k : Nat) (hz : z < 2 ^ k) : 2 ^ k * x ||| z = 2 ^ k * x + z :=
  (Nat.mul_add_lt_is_or hz x).symm

theorem and_mask (a k : Nat) : a &&& (2 ^ k - 1) = a % 2 ^ k :=
  Nat.and_pow_two_sub_one_eq_mod a k

theorem rune2_eq (a b : Nat) :
    (a &&& 0x1F) <<< 6 ||| (b &&& 0x3F) = a % 32 * 64 + b % 64 := by
  have h1 : a &&& 0x1F = a % 32 := and_mask a 5
  have h2 : b &&& 0x3F = b % 64 := and_mask b 6
  rw [h1, h2, Nat.shiftLeft_eq, show a % 32 * 2 ^ 6 = 2 ^ 6 * (a % 32) by omega,
    or_add_of_lt _ _ 6 (by omega)]
  omega

theorem rune3_eq (a b c : Nat) :
    (a &&& 0x0F) <<< 12 ||| (b &&& 0x3F) <<< 6 ||| (c &&& 0x3F)
      = a % 16 * 4096 + b % 64 * 64 + c % 64 := by
  have h1 : a &&& 0x0F = a % 16 := and_mask a 4
  have h2 : b &&& 0x3F = b % 64 := and_mask b 6
  have h3 : c &&& 0x3F = c % 64 := and_mask c 6
  have hb : b % 64 < 64 := Nat.mod_lt _ (by decide)
  rw [h1, h2, h3, Nat.shiftLeft_eq, Nat.shiftLeft_eq,
    show a % 16 * 2 ^ 12 = 2 ^ 12 * (a % 16) by omega,
    or_add_of_lt _ _ 12 (by omega),
    show 2 ^ 12 * (a % 16) + b % 64 * 2 ^ 6 = 2 ^ 6 * (64 * (a % 16) + b % 64) by omega,
    or_add_of_lt _ _ 6 (by omega)]
  omega

theorem rune4_eq (a b c d : Nat) :
    (a &&& 0x07) <<< 18 ||| (b &&& 0x3F) <<< 12 ||| (c &&& 0x3F) <<< 6 ||| (d &&& 0x3F)
      = a % 8 * 262144 + b % 64 * 4096 + c % 64 * 64 + d % 64 := by
  have h1 : a &&& 0x07 = a % 8 := and_mask a 3
  have h2 : b &&& 0x3F = b % 64 := and_mask b 6
  have h3 : c &&& 0x3F = c % 64 := and_mask c 6
  have h4 : d &&& 0x3F = d % 64 := and_mask d 6
  have hb : b % 64 < 64 := Nat.mod_lt _ (by decide)
  have hc : c % 64 < 64 := Nat.mod_lt _ (by decide)
  rw [h1, h2, h3, h4, Nat.shiftLeft_eq, Nat.shiftLeft_eq, Nat.shiftLeft_eq,
    show a % 8 * 2 ^ 18 = 2 ^ 18 * (a % 8) by omega,
    or_add_of_lt _ _ 18 (by omega),
    show 2 ^ 18 * (a % 8) + b % 64 * 2 ^ 12 = 2 ^ 12 * (64 * (a % 8) + b % 64) by omega,
    or_add_of_lt _ _ 12 (by omega),
    show 2 ^ 12 * (64 * (a % 8) + b % 64) + c % 64 * 2 ^ 6
      = 2 ^ 6 * (64 * (64 * (a % 8) + b % 64) + c % 64) by omega,
    or_add_of_lt _ _ 6 (by omega)]
  omega

set_option maxRecDepth 100000 in
theorem first_ascii : ∀ b0 : Byte, b0.val < 0x80 →
    utf8.first b0 ≥ 0xF0 ∧ utf8.first b0 &&& 1 ≠ 1 := by
  decide

set_option maxRecDepth 100000 in
theorem first_bad : ∀ b0 : Byte, (0x80 ≤ b0.val ∧ b0.val < 0xC2) ∨ 0xF5 ≤ b0.val →
    utf8.first b0 ≥ 0xF0 ∧ utf8.first b0 &&& 1 = 1 := by
  decide

set_option maxRecDepth 100000 in
theorem first_two : ∀ b0 : Byte, 0xC2 ≤ b0.val ∧ b0.val ≤ 0xDF →
    ¬ utf8.first b0 ≥ 0xF0 ∧ utf8.first b0 &&& 7 = 2 ∧
    utf8.acceptRanges (utf8.first b0 >>> 4) = (0x80, 0xBF) := by
  decide

set_option maxRecDepth 100000 in
theorem first_three : ∀ b0 : Byte, 0xE0 ≤ b0.val ∧ b0.val ≤ 0xEF →
    ¬ utf8.first b0 ≥ 0xF0 ∧ utf8.first b0 &&& 7 = 3 ∧
    utf8.acceptRanges (utf8.first b0 >>> 4) =
      (if b0.val = 0xE0 then 0xA0 else 0x80, if b0.val = 0xED then 0x9F else 0xBF) := by
  decide

set_option maxRecDepth 100000 in
theorem first_four : ∀ b0 : Byte, 0xF0 ≤ b0.val ∧ b0.val ≤ 0xF4 →
    ¬ utf8.first b0 ≥ 0xF0 ∧ utf8.first b0 &&& 7 = 4 ∧
    utf8.acceptRanges (utf8.first b0 >>> 4) =
      (if b0.val = 0xF0 then 0x90 else 0x80, if b0.val = 0xF4 then 0x8F else 0xBF) := by
  decide

theorem decode_ascii (b0 : Byte) (t : List Byte) (h : b0.val < 0x80) :
    utf8.DecodeRuneInString (b0 :: t) = (b0.val, 1) := by
  obtain ⟨h1, h2⟩ := first_ascii b0 h
  simp only [utf8.DecodeRuneInString, if_pos h1, if_neg h2]

theorem decode_bad_first (b0 : Byte) (t : List Byte)
    (h : (0x80 ≤ b0.val ∧ b0.val < 0xC2) ∨ 0xF5 ≤ b0.val) :
    utf8.DecodeRuneInString (b0 :: t) = (utf8.RuneError, 1) := by
  obtain ⟨h1, h2⟩ := first_bad b0 h
  simp only [utf8.DecodeRuneInString, if_pos h1, if_pos h2]

theorem decode_two (b0 : Byte) (t : List Byte) (h : 0xC2 ≤ b0.val ∧ b0.val ≤ 0xDF) :
    utf8.DecodeRuneInString (b0 :: t) =
      match t with
      | b1 :: _ =>
        if isContinuation b1 then (b0.val % 32 * 64 + b1.val % 64, 2)
        else (utf8.RuneError, 1)
      | [] => (utf8.RuneError, 1) := by
  obtain ⟨h1, h2, h3⟩ := first_two b0 h
  cases t with
  | nil => simp [utf8.DecodeRuneInString, if_neg h1, h2]
  | cons b1 t =>
    simp only [utf8.DecodeRuneInString, if_neg h1, h2, h3, isContinuation, rune2_eq]
    by_cases hc : 0x80 ≤ b1.val ∧ b1.val ≤ 0xBF
    · have : ¬ (b1.val < 0x80 ∨ 0xBF < b1.val) := by omega
      simp [hc, this]
    · have : (b1.val < 0x80 ∨ 0xBF < b1.val) := by omega
      simp [hc, this]

theorem isSecondOfThree_eq (b0 b1 : Byte) :
    isSecondOfThree b0 b1 = decide ((if b0.val = 0xE0 then 0xA0 else 0x80) ≤ b1.val ∧
      b1.val ≤ (if b0.val = 0xED then 0x9F else 0xBF)) := by
  unfold isSecondOfThree isContinuation
  by_cases e0 : b0.val = 0xE0
  · have : ¬ b0.val = 0xED := by omega
    simp [e0]
  · by_cases ed : b0.val = 0xED
    · simp [ed]
    · simp [e0, ed]

theorem isSecondOfFour_eq (b0 b1 : Byte) :
    isSecondOfFour b0 b1 = decide ((if b0.val = 0xF0 then 0x90 else 0x80) ≤ b1.val ∧
      b1.val ≤ (if b0.val = 0xF4 then 0x8F else 0xBF)) := by
  unfold isSecondOfFour isContinuation
  by_cases e0 : b0.val = 0xF0
  · have : ¬ b0.val = 0xF4 := by omega
    simp [e0]
  · by_cases ed : b0.val = 0xF4
    · simp [ed]
    · simp [e0, ed]

theorem decode_three (b0 : Byte) (t : List Byte) (h : 0xE0 ≤ b0.val ∧ b0.val ≤ 0xEF) :
    utf8.DecodeRuneInString (b0 :: t) =
      match t with
      | b1 :: b2 :: _ =>
        if isSecondOfThree b0 b1 && isContinuation b2 then
          (b0.val % 16 * 4096 + b1.val % 64 * 64 + b2.val % 64, 3)
        else (utf8.RuneError, 1)
      | _ => (utf8.RuneError, 1) := by
  obtain ⟨h1, h2, h3⟩ := first_three b0 h
  match t with
  | [] => simp [utf8.DecodeRuneInString, if_neg h1, h2]
  | [b1] => simp [utf8.DecodeRuneInString, if_neg h1, h2]
  | b1 :: b2 :: t =>
    simp only [utf8.DecodeRuneInString, if_neg h1, h2, h3, isContinuation, isSecondOfThree_eq,
      rune3_eq, List.getD_cons_zero, List.getD_cons_succ, List.length_cons]
    generalize (if b0.val = 224 then 160 else 128) = lo
    generalize (if b0.val = 237 then 159 else 191) = hi
    by_cases A : b1.val < lo ∨ hi < b1.val
    · have A2 : ¬ (lo ≤ b1.val ∧ b1.val ≤ hi) := by omega
      simp [A, A2]
    · have A2 : lo ≤ b1.val ∧ b1.val ≤ hi := by omega
      by_cases B : b2.val < 128 ∨ 191 < b2.val
      · have B2 : ¬ (128 ≤ b2.val ∧ b2.val ≤ 191) := by omega
        simp [A, A2, B, B2]
      · have B2 : 128 ≤ b2.val ∧ b2.val ≤ 191 := by omega
        simp [A, A2, B, B2]

theorem decode_four (b0 : Byte) (t : List Byte) (h : 0xF0 ≤ b0.val ∧ b0.val ≤ 0xF4) :
    utf8.DecodeRuneInString (b0 :: t) =
      match t with
      | b1 :: b2 :: b3 :: _ =>
        if isSecondOfFour b0 b1 && isContinuation b2 && isContinuation b3 then
          (b0.val % 8 * 262144 + b1.val % 64 * 4096 + b2.val % 64 * 64 + b3.val % 64, 4)
        else (utf8.RuneError, 1)
      | _ => (utf8.RuneError, 1) := by
  obtain ⟨h1, h2, h3⟩ := first_four b0 h
  match t with
  | [] => simp [utf8.DecodeRuneInString, if_neg h1, h2]
  | [b1] => simp [utf8.DecodeRuneInString, if_neg h1, h2]
  | [b1, b2] => simp [utf8.DecodeRuneInString, if_neg h1, h2]
  | b1 :: b2 :: b3 :: t =>
    simp only [utf8.DecodeRuneInString, if_neg h1, h2, h3, isContinuation, isSecondOfFour_eq,
      rune4_eq, List.getD_cons_zero, List.getD_cons_succ, List.length_cons]
    generalize (if b0.val = 240 then 144 else 128) = lo
    generalize (if b0.val = 244 then 143 else 191) = hi
    by_cases A : b1.val < lo ∨ hi < b1.val
    · have A2 : ¬ (lo ≤ b1.val ∧ b1.val ≤ hi) := by omega
      simp [A, A2]
    · have A2 : lo ≤ b1.val ∧ b1.val ≤ hi := by omega
      by_cases B : b2.val < 128 ∨ 191 < b2.val
      · have B2 : ¬ (128 ≤ b2.val ∧ b2.val ≤ 191) := by omega
        simp [A, A2, B, B2]
      · have B2 : 128 ≤ b2.val ∧ b2.val ≤ 191 := by omega
        by_cases C : b3.val < 128 ∨ 191 < b3.val
        · have C2 : ¬ (128 ≤ b3.val ∧ b3.val ≤ 191) := by omega
          simp [A, A2, B, B2, C, C2]
        · have C2 : 128 ≤ b3.val ∧ b3.val ≤ 191 := by omega
          simp [A, A2, B, B2, C, C2]

theorem isUnsafeByte_of_ge (b : Byte) (h : 0x80 ≤ b.val) : isUnsafeByte b = true := by
  simp [isUnsafeByte]; omega

theorem decode_step (b0 : Byte) (t : List Byte) :
    (utf8.DecodeRuneInString (b0 :: t) = (utf8.RuneError, 1) ∧ validUTF8 (b0 :: t) = false) ∨
    (∃ r size, utf8.DecodeRuneInString (b0 :: t) = (r, size) ∧ 1 ≤ size ∧
      size ≤ (b0 :: t).length ∧
      validUTF8 (b0 :: t) = validUTF8 ((b0 :: t).drop size) ∧
      utf8.ValidRune r = true ∧ ¬ (r = utf8.RuneError ∧ size = 1) ∧
      (b0 :: t).any isUnsafeByte =
        (decide (r < 0x20 ∨ r > 0x7d ∨ r = 0x5c) || ((b0 :: t).drop size).any isUnsafeByte)) := by
  have hb := b0.isLt
  by_cases c1 : b0.val < 0x80
  · right
    refine ⟨b0.val, 1, decode_ascii b0 t c1, le_refl _, by simp, ?_, ?_, ?_, ?_⟩
    · rw [validUTF8_cons, if_pos c1]; rfl
    · simp [utf8.ValidRune, utf8.surrogateMin]; omega
    · simp [utf8.RuneError]; omega
    · simp [isUnsafeByte]
  have hu : isUnsafeByte b0 = true := isUnsafeByte_of_ge b0 (by omega)
  by_cases c2 : 0xC2 ≤ b0.val ∧ b0.val ≤ 0xDF
  · rw [decode_two b0 t c2, validUTF8_cons, if_neg c1, if_pos c2]
    match t with
    | [] => left; exact ⟨rfl, rfl⟩
    | b1 :: t1 =>
      by_cases k1 : isContinuation b1 = true
      · right
        refine ⟨b0.val % 32 * 64 + b1.val % 64, 2, by simp [k1], by omega, by simp,
          by simp [k1], ?_, by simp, ?_⟩
        · simp [utf8.ValidRune, utf8.surrogateMin]; omega
        · have : (b0.val % 32 * 64 + b1.val % 64 < 0x20 ∨ b0.val % 32 * 64 + b1.val % 64 > 0x7d ∨
              b0.val % 32 * 64 + b1.val % 64 = 0x5c) := by omega
          simp [hu, this]
      · left
        simp [k1]
  by_cases c3 : 0xE0 ≤ b0.val ∧ b0.val ≤ 0xEF
  · rw [decode_three b0 t c3, validUTF8_cons, if_neg c1, if_neg c2, if_pos c3]
    match t with
    | [] => left; exact ⟨rfl, rfl⟩
    | [b1] => left; exact ⟨rfl, rfl⟩
    | b1 :: b2 :: t2 =>
      by_cases k1 : (isSecondOfThree b0 b1 && isContinuation b2) = true
      · right
        have k2 := k1
        rw [isSecondOfThree_eq] at k2
        simp only [isContinuation, Bool.and_eq_true, decide_eq_true_eq] at k2
        refine ⟨b0.val % 16 * 4096 + b1.val % 64 * 64 + b2.val % 64, 3, by simp [k1], by omega,
          by simp, by simp [k1], ?_, by simp, ?_⟩
        · simp only [utf8.ValidRune, utf8.surrogateMin, utf8.surrogateMax, utf8.MaxRune]
          split_ifs at k2 ⊢ <;> first | rfl | omega
        · have : (b0.val % 16 * 4096 + b1.val % 64 * 64 + b2.val % 64 < 0x20 ∨
              b0.val % 16 * 4096 + b1.val % 64 * 64 + b2.val % 64 > 0x7d ∨
              b0.val % 16 * 4096 + b1.val % 64 * 64 + b2.val % 64 = 0x5c) := by
            split_ifs at k2 <;> omega
          simp [hu, this]
      · left
        simp [k1]
  by_cases c4 : 0xF0 ≤ b0.val ∧ b0.val ≤ 0xF4
  · rw [decode_four b0 t c4, validUTF8_cons, if_neg c1, if_neg c2, if_neg c3, if_pos c4]
    match t with
    | [] => left; exact ⟨rfl, rfl⟩
    | [b1] => left; exact ⟨rfl, rfl⟩
    | [b1, b2] => left; exact ⟨rfl, rfl⟩
    | b1 :: b2 :: b3 :: t3 =>
      by_cases k1 : (isSecondOfFour b0 b1 && isContinuation b2 && isContinuation b3) = true
      · right
        have k2 := k1
        rw [isSecondOfFour_eq] at k2
        simp only [isContinuation, Bool.and_eq_true, decide_eq_true_eq] at k2
        refine ⟨b0.val % 8 * 262144 + b1.val % 64 * 4096 + b2.val % 64 * 64 + b3.val % 64, 4,
          by simp [k1], by omega, by simp, by simp [k1], ?_, by simp, ?_⟩
        · simp only [utf8.ValidRune, utf8.surrogateMin, utf8.surrogateMax, utf8.MaxRune]
          split_ifs at k2 ⊢ <;> first | rfl | omega
        · have : (b0.val % 8 * 262144 + b1.val % 64 * 4096 + b2.val % 64 * 64 + b3.val % 64 < 0x20 ∨
              b0.val % 8 * 262144 + b1.val % 64 * 4096 + b2.val % 64 * 64 + b3.val % 64 > 0x7d ∨
              b0.val % 8 * 262144 + b1.val % 64 * 4096 + b2.val % 64 * 64 + b3.val % 64 = 0x5c) := by
            split_ifs at k2 <;> omega
          simp [hu, this]
      · left
        simp [k1]
  left
  rw [decode_bad_first b0 t (by omega), validUTF8_cons, if_neg c1, if_neg c2, if_neg c3, if_neg c4]
  exact ⟨rfl, rfl⟩

theorem validUTF8_nil : validUTF8 [] = true := rfl

theorem detectUTF8.loop_eq (s : List Byte) : ∀ (steps i : Nat) (require : Bool),
    i ≤ s.length → s.length - i ≤ steps →
    detectUTF8.loop s steps i require =
      ok (if validUTF8 (s.drop i) then (true, require || (s.drop i).any isUnsafeByte)
          else (false, false)) := by
  intro steps
  induction steps with
  | zero =>
    intro i require h1 h2
    have : ¬ i < s.length := by omega
    have hd : s.drop i = [] := List.drop_eq_nil_of_le (by omega)
    rw [detectUTF8.loop, if_neg this, hd]
    simp [validUTF8_nil]
  | succ k ih =>
    intro i require h1 h2
    by_cases hi : i < s.length
    · obtain ⟨b0, t, hd⟩ : ∃ b0 t, s.drop i = b0 :: t := by
        cases hd : s.drop i with
        | nil =>
          have := congrArg List.length hd
          simp at this
          omega
        | cons b0 t => exact ⟨b0, t, rfl⟩
      rw [detectUTF8.loop, if_pos hi]
      simp only [hd]
      rcases decode_step b0 t with ⟨e1, e2⟩ | ⟨r, size, e1, e2, e3, e4, e5, e6, e7⟩
      · rw [e1, e2]
        simp [utf8.RuneError]
      · have hdrop : s.drop (i + size) = (b0 :: t).drop size := by
          rw [← hd, List.drop_drop, Nat.add_comm]
        have hlen : (b0 :: t).length = s.length - i := by
          rw [← hd, List.length_drop]
        rw [e1]
        simp only
        rw [ih (i + size) true (by omega) (by omega), ih (i + size) require (by omega) (by omega),
          hdrop, e4, e7, e5]
        by_cases hr : r < 0x20 ∨ r > 0x7d ∨ r = 0x5c
        · have : ¬ (r = utf8.RuneError ∧ size = 1) := e6
          simp [hr, this]
        · simp [hr]
    · have hd : s.drop i = [] := List.drop_eq_nil_of_le (by omega)
      rw [detectUTF8.loop, if_neg hi, hd]
      simp [validUTF8_nil]

/-- What `detectUTF8` returns: `valid` says that the string is well-formed UTF-8, and
`require` that it is well formed and holds a byte outside the safe range. The budget is
never used up. -/
theorem detectUTF8_eq (s : List Byte) :
    detectUTF8 s = ok (validUTF8 s, validUTF8 s && s.any isUnsafeByte) := by
  unfold detectUTF8
  rw [detectUTF8.loop_eq s s.length 0 false (Nat.zero_le _) (by omega)]
  cases h : validUTF8 s <;> simp [h]

/-! ## `readDirectoryHeader` -/

theorem bind_error {α β : Type} (e : GoError) (f : α → Outcome β) :
    (Outcome.error e >>= f) = Outcome.error e := rfl

theorem ReadFull_of_le (r : List Byte) (n : Nat) (h : n ≤ r.length) :
    ReadFull r n = ok (r.take n, r.drop n) := by
  unfold ReadFull
  by_cases h0 : n = 0
  · rw [if_pos h0, h0]
    rfl
  · rw [if_neg h0, if_pos h]

theorem ReadFull_of_lt (r : List Byte) (n : Nat) (h : r.length < n) :
    ReadFull r n = error (if r.length = 0 then GoError.EOF else GoError.ErrUnexpectedEOF) := by
  unfold ReadFull
  rw [if_neg (by omega), if_neg (by omega)]
  by_cases h0 : r.length = 0
  · rw [if_pos h0, if_pos h0]
  · rw [if_neg h0, if_neg h0]

theorem slice_eq (b : List Byte) (x y : Int) (lo hi : Nat) (hx : x = lo) (hy : y = hi)
    (h1 : lo ≤ hi) (h2 : hi ≤ b.length) : slice b x y = ok ((b.take hi).drop lo) := by
  subst hx hy
  have : ¬ ((lo : Int) < 0 ∨ (hi : Int) < lo ∨ (b.length : Int) < hi) := by omega
  unfold slice
  rw [if_neg this, Int.toNat_ofNat, Int.toNat_ofNat]

/-- The header decoder after a fixed part `buf` with the right signature has been read:
it succeeds when the stream still holds the name, the extra field and the comment, and
otherwise returns the end-of-data error of `io.ReadFull`. -/
theorem readDirectoryHeader_of_fixed (r buf r1 : List Byte)
    (hr : ReadFull r directoryHeaderLen = ok (buf, r1)) (hbuf : buf.length = 46)
    (hsig : le32At buf 0 = directoryHeaderSignature) :
    readDirectoryHeader r =
      if le16At buf 28 + le16At buf 30 + le16At buf 32 ≤ r1.length then
        ok (headerFile buf (r1.take (le16At buf 28 + le16At buf 30 + le16At buf 32)),
            r1.drop (le16At buf 28 + le16At buf 30 + le16At buf 32))
      else error (if r1.length = 0 then GoError.EOF else GoError.ErrUnexpectedEOF) := by
  unfold readDirectoryHeader
  rw [hr, bind_ok]
  dsimp only
  rw [thread_uint32 buf (by omega), bind_ok]
  dsimp only
  rw [if_neg (not_not.mpr hsig)]
  simp (disch := first | omega | (simp only [List.length_drop]; omega)) only [bind_ok,
    thread_uint32, thread_uint16, List.drop_drop, le16At_drop, le32At_drop, Nat.reduceAdd,
    sliceFrom_eq (buf.drop 34) 4 4 rfl (by rw [List.length_drop]; omega)]
  by_cases hn : le16At buf 28 + le16At buf 30 + le16At buf 32 ≤ r1.length
  · have hl : (r1.take (le16At buf 28 + le16At buf 30 + le16At buf 32)).length
        = le16At buf 28 + le16At buf 30 + le16At buf 32 := by
      rw [List.length_take]; omega
    rw [if_pos hn, ReadFull_of_le r1 _ hn, bind_ok]
    dsimp only
    rw [sliceTo_eq _ _ (le16At buf 28) rfl (by omega), bind_ok,
      slice_eq _ _ _ (le16At buf 28) (le16At buf 28 + le16At buf 30) rfl (by omega) (by omega)
        (by omega), bind_ok,
      sliceFrom_eq _ _ (le16At buf 28 + le16At buf 30) (by omega) (by omega), bind_ok,
      detectUTF8_eq, bind_ok, detectUTF8_eq, bind_ok]
    rfl
  · rw [if_neg hn, ReadFull_of_lt r1 _ (by omega), bind_error]

theorem readDirectoryHeader_append (buf d rest : List Byte) (hbuf : buf.length = 46)
    (hsig : le32At buf 0 = directoryHeaderSignature)
    (hd : d.length = le16At buf 28 + le16At buf 30 + le16At buf 32) :
    readDirectoryHeader (buf ++ d ++ rest) = ok (headerFile buf d, rest) := by
  have h1 : ReadFull (buf ++ d ++ rest) directoryHeaderLen = ok (buf, d ++ rest) := by
    rw [ReadFull_of_le _ directoryHeaderLen (by simp [directoryHeaderLen]; omega),
      List.append_assoc]
    simp [directoryHeaderLen, ← hbuf]
  rw [readDirectoryHeader_of_fixed _ buf (d ++ rest) h1 hbuf hsig, if_pos (by simp; omega), ← hd]
  simp

theorem readDirectoryHeader_short (r : List Byte) (h : r.length < 46) :
    readDirectoryHeader r =
      error (if r.length = 0 then GoError.EOF else GoError.ErrUnexpectedEOF) := by
  unfold readDirectoryHeader
  rw [ReadFull_of_lt r directoryHeaderLen h, bind_error]

theorem getD_take (b : List Byte) (k i : Nat) (h : i < k) :
    (b.take k).getD i 0 = b.getD i 0 := by
  simp [List.getD_eq_getElem?_getD, List.getElem?_take, h]

theorem le16At_take (b : List Byte) (k i : Nat) (h : i + 2 ≤ k) :
    le16At (b.take k) i = le16At b i := by
  unfold le16At
  rw [getD_take b k i (by omega), getD_take b k (i + 1) (by omega)]

theorem le32At_take (b : List Byte) (k i : Nat) (h : i + 4 ≤ k) :
    le32At (b.take k) i = le32At b i := by
  unfold le32At
  rw [getD_take b k i (by omega), getD_take b k (i + 1) (by omega),
    getD_take b k (i + 2) (by omega), getD_take b k (i + 3) (by omega)]

theorem readDirectoryHeader_bad_signature (r : List Byte) (h : 46 ≤ r.length)
    (hsig : le32At r 0 ≠ directoryHeaderSignature) :
    readDirectoryHeader r = error GoError.ErrFormat := by
  unfold readDirectoryHeader
  rw [ReadFull_of_le r directoryHeaderLen h, bind_ok]
  dsimp only
  rw [thread_uint32 _ (by rw [List.length_take]; simp [directoryHeaderLen]; omega), bind_ok]
  dsimp only
  rw [le32At_take r _ 0 (by simp [directoryHeaderLen]), if_pos hsig]

/-- The header decoder on a stream of at least 46 bytes with the right signature. -/
theorem readDirectoryHeader_eq (r : List Byte) (h : 46 ≤ r.length)
    (hsig : le32At r 0 = directoryHeaderSignature) :
    readDirectoryHeader r =
      if le16At r 28 + le16At r 30 + le16At r 32 ≤ r.length - 46 then
        ok (headerFile (r.take 46)
              ((r.drop 46).take (le16At r 28 + le16At r 30 + le16At r 32)),
            r.drop (46 + (le16At r 28 + le16At r 30 + le16At r 32)))
      else error (if r.length = 46 then GoError.EOF else GoError.ErrUnexpectedEOF) := by
  have hr : ReadFull r directoryHeaderLen = ok (r.take 46, r.drop 46) := 
    ReadFull_of_le r 46 h
  rw [readDirectoryHeader_of_fixed r _ _ hr (by rw [List.length_take]; omega)
    (by rw [le32At_take r 46 0 (by omega)]; exact hsig)]
  rw [le16At_take r 46 28 (by omega), le16At_take r 46 30 (by omega),
    le16At_take r 46 32 (by omega), List.length_drop, List.drop_drop]
  by_cases hn : le16At r 28 + le16At r 30 + le16At r 32 ≤ r.length - 46
  · rw [if_pos hn, if_pos hn, Nat.add_comm 46]
  · rw [if_neg hn, if_neg hn]
    by_cases h0 : r.length = 46
    · rw [if_pos h0, if_pos (by omega)]
    · rw [if_neg h0, if_neg (by omega)]

/-- C6: for every stream that begins with a 46-byte record whose first four bytes are the
little-endian signature `0x02014b50`, followed by at least `nameLen + extraLen +
commentLen` bytes (the uint16 fields at offsets 28, 30 and 32), `readDirectoryHeader`
succeeds, consumes exactly `46 + nameLen + extraLen + commentLen` bytes, and sets `Flags`,
`Method`, `CRC32`, `CompressedSize64`, `UncompressedSize64`, `ExternalAttrs` and
`headerOffset` to the little-endian values at offsets 8, 10, 16, 20, 24, 38 and 42, `Name`
to the first `nameLen` trailing bytes, `Extra` to the next `extraLen` bytes and `Comment`
to the final `commentLen` bytes; if the first four bytes are not that signature it returns
`ErrFormat`. -/
theorem readDirectoryHeader_layout (r : List Byte) (h46 : 46 ≤ r.length) :
    (le32At r 0 = 0x02014b50 →
      le16At r 28 + le16At r 30 + le16At r 32 ≤ r.length - 46 →
      ∃ f rest, readDirectoryHeader r = ok (f, rest) ∧
        rest = r.drop (46 + le16At r 28 + le16At r 30 + le16At r 32) ∧
        rest.length + (46 + le16At r 28 + le16At r 30 + le16At r 32) = r.length ∧
        f.Flags = le16At r 8 ∧ f.Method = le16At r 10 ∧ f.CRC32 = le32At r 16 ∧
        f.CompressedSize64 = le32At r 20 ∧ f.UncompressedSize64 = le32At r 24 ∧
        f.ExternalAttrs = le32At r 38 ∧ f.headerOffset = (le32At r 42 : Nat) ∧
        f.Name = (r.drop 46).take (le16At r 28) ∧
        f.Extra = (r.drop (46 + le16At r 28)).take (le16At r 30) ∧
        f.Comment = (r.drop (46 + le16At r 28 + le16At r 30)).take (le16At r 32)) ∧
    (le32At r 0 ≠ 0x02014b50 → readDirectoryHeader r = error GoError.ErrFormat) := by
  constructor
  · intro hsig hn
    rw [readDirectoryHeader_eq r h46 hsig, if_pos hn]
    refine ⟨_, _, rfl, by congr 1; omega, ?_, ?_, ?_, ?_, ?_, ?_, ?_, ?_,
      ?_, ?_, ?_⟩
    · rw [List.length_drop]; omega
    · exact le16At_take r 46 8 (by omega)
    · exact le16At_take r 46 10 (by omega)
    · exact le32At_take r 46 16 (by omega)
    · exact le32At_take r 46 20 (by omega)
    · exact le32At_take r 46 24 (by omega)
    · exact le32At_take r 46 38 (by omega)
    · exact congrArg Nat.cast (le32At_take r 46 42 (by omega))
    · show List.take _ (List.take _ _) = _
      rw [le16At_take r 46 28 (by omega), List.take_take, Nat.min_eq_left (by omega)]
    · show List.drop _ (List.take _ (List.take _ _)) = _
      rw [le16At_take r 46 28 (by omega), le16At_take r 46 30 (by omega), List.take_take,
        Nat.min_eq_left (by omega), List.drop_take, List.drop_drop,
        show le16At r 28 + le16At r 30 - le16At r 28 = le16At r 30 by omega, Nat.add_comm 46]
    · show List.drop _ (List.take _ _) = _
      rw [le16At_take r 46 28 (by omega), le16At_take r 46 30 (by omega), List.drop_take,
        List.drop_drop,
        show le16At r 28 + le16At r 30 + le16At r 32 - (le16At r 28 + le16At r 30)
          = le16At r 32 by omega]
      congr 2
      omega
  · intro hsig
    exact readDirectoryHeader_bad_signature r h46 hsig

/-- C6, at a concrete stream. -/
theorem readDirectoryHeader_layout_witness :
    46 ≤ headerSample.length ∧ le32At headerSample 0 = 0x02014b50 ∧
    le16At headerSample 28 + le16At headerSample 30 + le16At headerSample 32
      ≤ headerSample.length - 46 ∧
    ∃ f rest, readDirectoryHeader headerSample = ok (f, rest) ∧
      rest = headerSample.drop
        (46 + le16At headerSample 28 + le16At headerSample 30 + le16At headerSample 32) ∧
      rest.length +
        (46 + le16At headerSample 28 + le16At headerSample 30 + le16At headerSample 32)
        = headerSample.length ∧
      f.Flags = le16At headerSample 8 ∧ f.Method = le16At headerSample 10 ∧
      f.CRC32 = le32At headerSample 16 ∧ f.CompressedSize64 = le32At headerSample 20 ∧
      f.UncompressedSize64 = le32At headerSample 24 ∧
      f.ExternalAttrs = le32At headerSample 38 ∧
      f.headerOffset = (le32At headerSample 42 : Nat) ∧
      f.Name = (headerSample.drop 46).take (le16At headerSample 28) ∧
      f.Extra = (headerSample.drop (46 + le16At headerSample 28)).take
        (le16At headerSample 30) ∧
      f.Comment = (headerSample.drop
        (46 + le16At headerSample 28 + le16At headerSample 30)).take
        (le16At headerSample 32) :=
  ⟨by decide, by decide, by decide,
    (readDirectoryHeader_layout headerSample (by decide)).1 (by decide) (by decide)⟩

theorem and_bit11 (x : Nat) : x &&& 0x800 = 0 ↔ x.testBit 11 = false := by
  have h2 : (0x800 : Nat) = 2 ^ 11 := by decide
  constructor
  · intro h
    have h3 := congrArg (fun y => y.testBit 11) h
    simp only [Nat.testBit_and, Nat.zero_testBit] at h3
    rw [h2, Nat.testBit_two_pow_self, Bool.and_true] at h3
    exact h3
  · intro h
    apply Nat.eq_of_testBit_eq
    intro i
    rw [Nat.testBit_and, h2, Nat.testBit_two_pow, Nat.zero_testBit]
    by_cases hi : 11 = i
    · subst hi
      simp [h]
    · simp [hi]

/-- A header that was decoded is the one its bytes stand for. -/
theorem readDirectoryHeader_ok (r rest : List Byte) (f : File)
    (h : readDirectoryHeader r = ok (f, rest)) :
    46 ≤ r.length ∧ le32At r 0 = directoryHeaderSignature ∧
    le16At r 28 + le16At r 30 + le16At r 32 ≤ r.length - 46 ∧
    f = headerFile (r.take 46) ((r.drop 46).take (le16At r 28 + le16At r 30 + le16At r 32)) ∧
    rest = r.drop (46 + (le16At r 28 + le16At r 30 + le16At r 32)) := by
  by_cases h46 : 46 ≤ r.length
  · by_cases hsig : le32At r 0 = directoryHeaderSignature
    · rw [readDirectoryHeader_eq r h46 hsig] at h
      by_cases hn : le16At r 28 + le16At r 30 + le16At r 32 ≤ r.length - 46
      · rw [if_pos hn] at h
        injection h with h
        injection h with h1 h2
        exact ⟨h46, hsig, hn, h1.symm, h2.symm⟩
      · rw [if_neg hn] at h
        exact Outcome.noConfusion h
    · rw [readDirectoryHeader_bad_signature r h46 hsig] at h
      exact Outcome.noConfusion h
  · rw [readDirectoryHeader_short r (by omega)] at h
    exact Outcome.noConfusion h

theorem any_isUnsafeByte_eq_false (s : List Byte) :
    s.any isUnsafeByte = false ↔ ∀ b ∈ s, 0x20 ≤ b.val ∧ b.val ≤ 0x7D ∧ b.val ≠ 0x5C := by
  rw [List.any_eq_false]
  constructor
  · intro h b hb
    have := h b hb
    simp only [isUnsafeByte, decide_eq_true_eq] at this
    omega
  · intro h b hb
    have := h b hb
    simp only [isUnsafeByte, decide_eq_true_eq]
    omega

theorem nonUTF8_eq_encodingDecision (name comment : List Byte) (flags : Nat) :
    nonUTF8 (validUTF8 name) (validUTF8 name && name.any isUnsafeByte)
      (validUTF8 comment) (validUTF8 comment && comment.any isUnsafeByte) flags
      = encodingDecision name comment (flags.testBit 11) := by
  unfold nonUTF8 encodingDecision
  cases h1 : validUTF8 name
  · simp
  cases h2 : validUTF8 comment
  · simp
  have hs : (∀ b ∈ name ++ comment, 0x20 ≤ b.val ∧ b.val ≤ 0x7D ∧ b.val ≠ 0x5C) ↔
      (name.any isUnsafeByte = false ∧ comment.any isUnsafeByte = false) := by
    rw [← any_isUnsafeByte_eq_false, List.any_append, Bool.or_eq_false_iff]
  simp only [Bool.not_true, Bool.or_self, Bool.false_eq_true, if_false, Bool.true_and,
    or_self]
  by_cases hP : ∀ b ∈ name ++ comment, 0x20 ≤ b.val ∧ b.val ≤ 0x7D ∧ b.val ≠ 0x5C
  · obtain ⟨hn, hc⟩ := hs.mp hP
    rw [if_pos hP, hn, hc]
    rfl
  · have hq : (!name.any isUnsafeByte && !comment.any isUnsafeByte) = false := by
      cases hn : name.any isUnsafeByte <;> cases hc : comment.any isUnsafeByte <;>
        first | rfl | exact absurd (hs.mpr ⟨hn, hc⟩) hP
    rw [if_neg hP, hq]
    simp only [Bool.false_eq_true, if_false]
    by_cases hb : flags &&& 0x800 = 0
    · rw [(and_bit11 flags).mp hb]
      simp [hb]
    · have hb2 : flags.testBit 11 = true := by
        cases ht : flags.testBit 11
        · exact absurd ((and_bit11 flags).mpr ht) hb
        · rfl
      rw [hb2]
      simp [hb]

/-- C8: the `NonUTF8` flag computed by `readDirectoryHeader` is a function of only the name
bytes, the comment bytes and bit 11 (`0x800`) of `Flags`, by this decision table: if the
name or the comment is not valid UTF-8, `NonUTF8` is true; otherwise, if every byte of both
strings lies in `0x20..0x7D` and is not `0x5C`, `NonUTF8` is false; otherwise `NonUTF8` is
true exactly when bit 11 is clear. -/
theorem readDirectoryHeader_nonUTF8 (r rest : List Byte) (f : File)
    (h : readDirectoryHeader r = ok (f, rest)) :
    f.NonUTF8 = encodingDecision f.Name f.Comment (f.Flags.testBit 11) := by
  obtain ⟨_, _, _, hf, _⟩ := readDirectoryHeader_ok r rest f h
  rw [hf]
  exact nonUTF8_eq_encodingDecision _ _ _

/-- C8, at a concrete stream: a name in UTF-8 with a byte outside the safe range and the
flag bit set, so `NonUTF8` is false. -/
theorem readDirectoryHeader_nonUTF8_witness :
    ∃ f, readDirectoryHeader headerSample = ok (f, [9, 9, 9]) ∧
      f.NonUTF8 = encodingDecision f.Name f.Comment (f.Flags.testBit 11) ∧
      f.NonUTF8 = false ∧ f.Name = [0xc3, 0xa9, 0x2e, 0x74, 0x78, 0x74] ∧ f.Flags = 0x800 :=
  ⟨headerFile (headerSample.take 46) ((headerSample.drop 46).take 10), by decide,
    readDirectoryHeader_nonUTF8 headerSample [9, 9, 9] _ (by decide), by decide, by decide,
    by decide⟩

/-! ## The partitioned retrieval of `getStream` -/

/-- The five requests of `getStream`, written out. -/
theorem getStream.ranges_eq (h b : Int) (n : Nat) :
    getStream.ranges h b n =
      [(h + b, h + b + (n / 5 : Nat)),
       (h + b + (n / 5 : Nat) * 1 + 1, h + b + (n / 5 : Nat) * 2),
       (h + b + (n / 5 : Nat) * 2 + 1, h + b + (n / 5 : Nat) * 3),
       (h + b + (n / 5 : Nat) * 3 + 1, h + b + (n / 5 : Nat) * 4),
       (h + b + (n / 5 : Nat) * 4 + 1, h + b + n)] := by
  simp [getStream.ranges, getStream.range, List.range, List.range.loop]

/-- The number of bytes that each of the five requests asks for, bounds included: the
first asks for one byte more than a fifth, and the five together for one byte more than
the compressed size. -/
theorem getStream.ranges_sizes (h b : Int) (n : Nat) :
    (getStream.ranges h b n).map (fun p => p.2 - p.1 + 1) =
      [((n / 5 + 1 : Nat) : Int), ((n / 5 : Nat) : Int), ((n / 5 : Nat) : Int),
       ((n / 5 : Nat) : Int), ((n - 4 * (n / 5) : Nat) : Int)] ∧
    (n / 5 + 1) + n / 5 + n / 5 + n / 5 + (n - 4 * (n / 5)) = n + 1 := by
  rw [getStream.ranges_eq]
  refine ⟨?_, by omega⟩
  simp only [List.map_cons, List.map_nil, List.cons.injEq, and_true]
  refine ⟨by omega, by omega, by omega, by omega, by omega⟩

theorem getFileBody_range (res : List Byte) (x y : Int) (lo hi : Nat) (hx : x = lo)
    (hy : y = hi) (h1 : lo ≤ hi) (h2 : lo < res.length) :
    getFileBody res x y = (res.drop lo).take (hi - lo + 1) := by
  subst hx hy
  unfold getFileBody
  rw [if_neg (by omega), if_neg (by omega), Int.toNat_ofNat]
  congr 1
  omega

theorem take_drop_append (l : List Byte) (s a c : Nat) :
    (l.drop s).take a ++ (l.drop (s + a)).take c = (l.drop s).take (a + c) := by
  rw [List.take_add, List.drop_drop]

/-- The bytes that the five fetches of `getStream` deliver for an entry of at least 5 bytes
whose payload is followed by at least one more byte of the resource: the payload and the
byte after it. -/
theorem getStream.fetched_eq (res : List Byte) (h b n : Nat) (h5 : 5 ≤ n)
    (hlen : h + b + n < res.length) :
    getStream.fetched res h b n = (res.drop (h + b)).take (n + 1) := by
  unfold getStream.fetched
  rw [getStream.ranges_eq]
  simp only [List.map_cons, List.map_nil, List.flatten_cons, List.flatten_nil,
    List.append_nil]
  rw [getFileBody_range res _ _ (h + b) (h + b + n / 5) (by omega) (by omega) (by omega)
      (by omega),
    getFileBody_range res _ _ (h + b + (n / 5 + 1)) (h + b + n / 5 * 2) (by omega) (by omega)
      (by omega) (by omega),
    getFileBody_range res _ _ (h + b + (n / 5 * 2 + 1)) (h + b + n / 5 * 3) (by omega)
      (by omega) (by omega) (by omega),
    getFileBody_range res _ _ (h + b + (n / 5 * 3 + 1)) (h + b + n / 5 * 4) (by omega)
      (by omega) (by omega) (by omega),
    getFileBody_range res _ _ (h + b + (n / 5 * 4 + 1)) (h + b + n) (by omega) (by omega)
      (by omega) (by omega)]
  rw [show h + b + n / 5 - (h + b) + 1 = n / 5 + 1 by omega,
    show h + b + n / 5 * 2 - (h + b + (n / 5 + 1)) + 1 = n / 5 by omega,
    show h + b + n / 5 * 3 - (h + b + (n / 5 * 2 + 1)) + 1 = n / 5 by omega,
    show h + b + n / 5 * 4 - (h + b + (n / 5 * 3 + 1)) + 1 = n / 5 by omega,
    show h + b + n - (h + b + (n / 5 * 4 + 1)) + 1 = n - n / 5 * 4 by omega]
  rw [← List.append_assoc, ← List.append_assoc, ← List.append_assoc,
    take_drop_append res (h + b) (n / 5 + 1) (n / 5),
    show h + b + (n / 5 * 2 + 1) = h + b + (n / 5 + 1 + n / 5) by omega,
    take_drop_append res (h + b) (n / 5 + 1 + n / 5) (n / 5),
    show h + b + (n / 5 * 3 + 1) = h + b + (n / 5 + 1 + n / 5 + n / 5) by omega,
    take_drop_append res (h + b) (n / 5 + 1 + n / 5 + n / 5) (n / 5),
    show h + b + (n / 5 * 4 + 1) = h + b + (n / 5 + 1 + n / 5 + n / 5 + n / 5) by omega,
    take_drop_append res (h + b) (n / 5 + 1 + n / 5 + n / 5 + n / 5) (n - n / 5 * 4)]
  congr 1
  omega

set_option maxRecDepth 100000 in
/-- C2 (the code at a failing input): `archiveStored` is a well-formed archive whose one
entry is stored, with a payload of 11 bytes at offsets 31 to 41. `Reader.init` decodes the
entry, `findBodyOffset` gives 31, and the five fetches of `getStream` together deliver 12
bytes: the payload and the byte `50` that follows it, which opens the central directory.
One fetch of the payload span delivers the 11 bytes. -/
theorem getStream.fetched_archiveStored :
    Reader.init archiveStored archiveStored.length = ok { File := [entryStored] } ∧
    entryStored.findBodyOffset archiveStored = ok 31 ∧
    entryStored.headerOffset = 0 ∧ entryStored.CompressedSize64 = 11 ∧
    getStream.fetched archiveStored 0 31 11 =
      [101, 102, 103, 104, 105, 106, 107, 108, 109, 110, 111, 0x50] ∧
    (archiveStored.drop 31).take 11 =
      [101, 102, 103, 104, 105, 106, 107, 108, 109, 110, 111] ∧
    getFileBody archiveStored 31 41 =
      [101, 102, 103, 104, 105, 106, 107, 108, 109, 110, 111] := by
  decide

/-- C3 (the code at a failing input): for the entry of `archiveStored`, with a compressed
size of 11, the five requests are `31-33`, `34-35`, `36-37`, `38-39` and `40-42`, that is
3, 2, 2, 2 and 3 bytes, where the claim has 2, 2, 2, 2 and 3. -/
theorem getStream.ranges_archiveStored :
    getStream.ranges 0 31 11 = [(31, 33), (34, 35), (36, 37), (38, 39), (40, 42)] ∧
    (getStream.ranges 0 31 11).map (fun p => p.2 - p.1 + 1) = [3, 2, 2, 2, 3] := by
  decide

/-! ## `Reader.init` -/

theorem Reader.init.loop_ok (steps : Nat) (b2 rest : List Byte) (acc : List ZipStream.File)
    (f : ZipStream.File)
    (h : readDirectoryHeader b2 = ok (f, rest)) :
    Reader.init.loop (steps + 1) b2 acc = Reader.init.loop steps rest (acc ++ [f]) := by
  rw [Reader.init.loop.eq_def]
  simp only [h]

theorem Reader.init.loop_error (steps : Nat) (b2 : List Byte) (acc : List ZipStream.File)
    (e : GoError)
    (h : readDirectoryHeader b2 = error e) :
    Reader.init.loop (steps + 1) b2 acc =
      if e = GoError.ErrFormat ∨ e = GoError.ErrUnexpectedEOF then ok acc else error e := by
  rw [Reader.init.loop.eq_def]
  simp only [h]

theorem readDirectoryHeader_length (r rest : List Byte) (f : ZipStream.File)
    (h : readDirectoryHeader r = ok (f, rest)) : rest.length + 46 ≤ r.length := by
  obtain ⟨h1, _, h3, _, h5⟩ := readDirectoryHeader_ok r rest f h
  rw [h5, List.length_drop]
  omega

/-- The loop of `Reader.init` on a stream that decodes to the entries `fs` and then makes
`readDirectoryHeader` report a signature mismatch or an unexpected end of the data: the
loop returns the entries, and the budget is not used up. -/
theorem Reader.init.loop_decodes {r r2 : List Byte} {fs : List ZipStream.File}
    (hd : DecodesTo r fs r2)
    (e : GoError) (hstop : readDirectoryHeader r2 = error e)
    (he : e = GoError.ErrFormat ∨ e = GoError.ErrUnexpectedEOF) :
    ∀ (steps : Nat) (acc : List ZipStream.File), r.length < steps →
      Reader.init.loop steps r acc = ok (acc ++ fs) := by
  induction hd with
  | nil r =>
    intro steps acc hs
    obtain ⟨k, rfl⟩ : ∃ k, steps = k + 1 := ⟨steps - 1, by omega⟩
    rw [Reader.init.loop_error k r acc e hstop, if_pos he, List.append_nil]
  | cons hf _ ih =>
    intro steps acc hs
    obtain ⟨k, rfl⟩ : ∃ k, steps = k + 1 := ⟨steps - 1, by omega⟩
    have hl := readDirectoryHeader_length _ _ _ hf
    rw [Reader.init.loop_ok k _ _ acc _ hf, ih hstop k _ (by omega), List.append_assoc]
    rfl

/-- The header decoder returns an entry or an error: it does not panic and has no budget to
use up. -/
theorem readDirectoryHeader_total (r : List Byte) :
    (∃ f rest, readDirectoryHeader r = ok (f, rest)) ∨
      ∃ e, readDirectoryHeader r = error e := by
  by_cases h46 : 46 ≤ r.length
  · by_cases hsig : le32At r 0 = directoryHeaderSignature
    · rw [readDirectoryHeader_eq r h46 hsig]
      by_cases hn : le16At r 28 + le16At r 30 + le16At r 32 ≤ r.length - 46
      · rw [if_pos hn]
        exact Or.inl ⟨_, _, rfl⟩
      · rw [if_neg hn]
        exact Or.inr ⟨_, rfl⟩
    · exact Or.inr ⟨_, readDirectoryHeader_bad_signature r h46 hsig⟩
  · exact Or.inr ⟨_, readDirectoryHeader_short r (by omega)⟩

/-- The loop of `Reader.init` ends within its budget, with the entries or with an error. -/
theorem Reader.init.loop_total : ∀ (steps : Nat) (b2 : List Byte) (acc : List ZipStream.File),
    b2.length < steps →
    (∃ fs, Reader.init.loop steps b2 acc = ok fs) ∨
      ∃ e, Reader.init.loop steps b2 acc = error e := by
  intro steps
  induction steps with
  | zero => intro b2 acc h; omega
  | succ k ih =>
    intro b2 acc h
    rcases readDirectoryHeader_total b2 with ⟨f, rest, hf⟩ | ⟨e, he⟩
    · rw [Reader.init.loop_ok k b2 rest acc f hf]
      have := readDirectoryHeader_length b2 rest f hf
      exact ih rest _ (by omega)
    · rw [Reader.init.loop_error k b2 acc e he]
      by_cases hb : e = GoError.ErrFormat ∨ e = GoError.ErrUnexpectedEOF
      · rw [if_pos hb]
        exact Or.inl ⟨_, rfl⟩
      · rw [if_neg hb]
        exact Or.inr ⟨_, rfl⟩

/-- The result of `Reader.init` once the end record has been found and decoded and its entry
count has passed the test against the size: what is left is the loop over the central directory. -/
theorem Reader.init_of_end (res : List Byte) (size i : Nat) (dirEnd : directoryEnd)
    (hfind : findSignatureInBlock (getFileBody res ((size : Int) - 100) size) = ok (i : Int))
    (hend : readDirectoryEnd ((getFileBody res ((size : Int) - 100) size).drop i) = ok dirEnd)
    (hbound : dirEnd.directoryRecords ≤ size / 30) :
    Reader.init res size =
      (Reader.init.loop ((getFileBody res dirEnd.directoryOffset size).length + 1)
        (getFileBody res dirEnd.directoryOffset size) [] >>= fun files =>
          ok { File := files }) := by
  have hi : i ≤ (getFileBody res ((size : Int) - 100) size).length := by
    rcases findSignatureInBlock_spec (getFileBody res ((size : Int) - 100) size) with
      ⟨h1, _⟩ | ⟨j, h1, h2, _⟩
    · rw [hfind] at h1
      injection h1 with h1
      omega
    · rw [hfind] at h1
      injection h1 with h1
      have := h2.1
      omega
  unfold Reader.init
  dsimp only
  rw [hfind, bind_ok, sliceFrom_eq _ _ i rfl hi, bind_ok, hend, bind_ok]
  rw [if_neg (by unfold fileHeaderLen; omega)]
  rfl

/-- The result of `Reader.init` when the stream of the central directory decodes to the
entries `fs` and then makes `readDirectoryHeader` report a signature mismatch or an
unexpected end of the data. -/
theorem Reader.init_of_decodes (res : List Byte) (size i : Nat)
    (dirEnd : directoryEnd) (fs : List ZipStream.File) (r2 : List Byte) (e : GoError)
    (hfind : findSignatureInBlock (getFileBody res ((size : Int) - 100) size) = ok (i : Int))
    (hend : readDirectoryEnd ((getFileBody res ((size : Int) - 100) size).drop i) = ok dirEnd)
    (hbound : dirEnd.directoryRecords ≤ size / 30)
    (hdec : DecodesTo (getFileBody res dirEnd.directoryOffset size) fs r2)
    (hstop : readDirectoryHeader r2 = error e)
    (he : e = GoError.ErrFormat ∨ e = GoError.ErrUnexpectedEOF) :
    Reader.init res size = ok { File := fs } := by
  rw [Reader.init_of_end res size i dirEnd hfind hend hbound,
    Reader.init.loop_decodes hdec e hstop he _ [] (Nat.lt_succ_self _), bind_ok]
  rfl

/-- C4 (as stated, refuted): the end record of `archiveTwoDeclared` declares 2 entries, and
its central directory holds one header, after which `readDirectoryHeader` reports an
unexpected end of the data. `Reader.init` returns successfully, with the one entry. -/
theorem Reader.init_fewer_entries_no_error :
    le16At (archiveTwoDeclared.drop 89) 10 = 2 ∧
    getFileBody archiveTwoDeclared 42 archiveTwoDeclared.length = archiveTwoDeclared.drop 42 ∧
    readDirectoryHeader (archiveTwoDeclared.drop 42) =
      ok (entryStored, archiveTwoDeclared.drop 89) ∧
    readDirectoryHeader (archiveTwoDeclared.drop 89) = error GoError.ErrUnexpectedEOF ∧
    Reader.init archiveTwoDeclared archiveTwoDeclared.length = ok { File := [entryStored] } := by
  decide

/-- C4 (amended): `Reader.init` takes every signature mismatch (`ErrFormat`) and every
unexpected end of the data (`io.ErrUnexpectedEOF`) that `readDirectoryHeader` reports as
the end of the central directory, whatever the number of entries decoded before it: once
the end record is found and decoded and its entry count is at most `size / 30`, `init`
returns successfully with exactly the entries decoded so far. The count that the end
record declares is not compared with their number. -/
theorem Reader.init_stops_at_any_position (res : List Byte) (size i : Nat)
    (dirEnd : directoryEnd) (fs : List ZipStream.File) (r2 : List Byte) (e : GoError)
    (hfind : findSignatureInBlock (getFileBody res ((size : Int) - 100) size) = ok (i : Int))
    (hend : readDirectoryEnd ((getFileBody res ((size : Int) - 100) size).drop i) = ok dirEnd)
    (hbound : dirEnd.directoryRecords ≤ size / 30)
    (hdec : DecodesTo (getFileBody res dirEnd.directoryOffset size) fs r2)
    (hstop : readDirectoryHeader r2 = error e)
    (he : e = GoError.ErrFormat ∨ e = GoError.ErrUnexpectedEOF) :
    Reader.init res size = ok { File := fs } :=
  Reader.init_of_decodes res size i dirEnd fs r2 e hfind hend hbound hdec hstop he

set_option maxRecDepth 100000 in
/-- C4 (amended), at a concrete input: the archive whose end record declares 2 entries and
whose central directory holds one. -/
theorem Reader.init_stops_at_any_position_witness :
    Reader.init archiveTwoDeclared 111 = ok { File := [entryStored] } :=
  Reader.init_stops_at_any_position archiveTwoDeclared 111 78
    { diskNbr := 0, dirDiskNbr := 0, dirRecordsThisDisk := 2, directoryRecords := 2,
      directorySize := 47, directoryOffset := 42, commentLen := 0, comment := [] }
    [entryStored] (archiveTwoDeclared.drop 89) GoError.ErrUnexpectedEOF
    (by decide) (by decide) (by decide)
    (@DecodesTo.cons _ (archiveTwoDeclared.drop 89) _ _ _ (by decide) (DecodesTo.nil _))
    (by decide) (Or.inr rfl)

theorem getFileBody_to_end (res : List Byte) (k : Nat) (hk : k < res.length) :
    getFileBody res (k : Int) (res.length : Int) = res.drop k := by
  unfold getFileBody
  rw [if_neg (by omega), if_neg (by omega), Int.toNat_ofNat]
  apply List.take_of_length_le
  rw [List.length_drop]
  omega

theorem getFileBody_tail (res : List Byte) (h : 100 ≤ res.length) :
    getFileBody res ((res.length : Int) - 100) (res.length : Int)
      = res.drop (res.length - 100) := by
  have := getFileBody_to_end res (res.length - 100) (by omega)
  rw [← this]
  congr 1
  omega

theorem isEndCandidate_drop (b : List Byte) (k i : Nat) (hk : k ≤ b.length) :
    IsEndCandidate (b.drop k) i ↔ IsEndCandidate b (k + i) := by
  unfold IsEndCandidate
  rw [le16At_drop, List.length_drop]
  simp only [List.getElem?_drop, Nat.add_assoc]
  constructor
  · rintro ⟨h1, h2, h3, h4, h5, h6⟩
    exact ⟨by omega, h2, h3, h4, h5, by omega⟩
  · rintro ⟨h1, h2, h3, h4, h5, h6⟩
    exact ⟨by omega, h2, h3, h4, h5, by omega⟩

theorem isDirectoryRecord_decode (rec rest : List Byte) (h : IsDirectoryRecord rec) :
    readDirectoryHeader (rec ++ rest)
      = ok (headerFile (rec.take 46) (rec.drop 46), rest) := by
  obtain ⟨h1, h2, h3⟩ := h
  have := readDirectoryHeader_append (rec.take 46) (rec.drop 46) rest
    (by rw [List.length_take]; omega)
    (by rw [le32At_take rec 46 0 (by omega)]; exact h2)
    (by rw [le16At_take rec 46 28 (by omega), le16At_take rec 46 30 (by omega),
          le16At_take rec 46 32 (by omega), List.length_drop]; omega)
  rw [List.take_append_drop] at this
  exact this

theorem decodesTo_flatten (recs : List (List Byte)) (tail : List Byte)
    (h : ∀ rec ∈ recs, IsDirectoryRecord rec) :
    ∃ fs, DecodesTo (recs.flatten ++ tail) fs tail ∧ fs.length = recs.length ∧
      List.Forall₂ (fun rec f => readDirectoryHeader rec = ok (f, [])) recs fs := by
  induction recs with
  | nil => exact ⟨[], DecodesTo.nil _, rfl, List.Forall₂.nil⟩
  | cons rec recs ih =>
    obtain ⟨fs, h1, h2, h3⟩ := ih (fun r hr => h r (List.mem_cons_of_mem _ hr))
    have hrec := h rec (List.mem_cons_self _ _)
    refine ⟨headerFile (rec.take 46) (rec.drop 46) :: fs, ?_, by simp [h2], ?_⟩
    · rw [List.flatten_cons, List.append_assoc]
      exact DecodesTo.cons (isDirectoryRecord_decode rec _ hrec) h1
    · refine List.Forall₂.cons ?_ h3
      have := isDirectoryRecord_decode rec [] hrec
      rw [List.append_nil] at this
      exact this

theorem flatten_length_ge (recs : List (List Byte)) (h : ∀ rec ∈ recs, IsDirectoryRecord rec) :
    46 * recs.length ≤ recs.flatten.length := by
  induction recs with
  | nil => simp
  | cons rec recs ih =>
    have h1 := (h rec (List.mem_cons_self _ _)).1
    have h2 := ih (fun r hr => h r (List.mem_cons_of_mem _ hr))
    simp only [List.flatten_cons, List.length_append, List.length_cons]
    omega

theorem readDirectoryHeader_end_record (E comment : List Byte) (hlen : E.length = 22)
    (hsig : E.take 4 = [0x50, 0x4b, 0x05, 0x06]) :
    ∃ e, readDirectoryHeader (E ++ comment) = error e ∧
      (e = GoError.ErrFormat ∨ e = GoError.ErrUnexpectedEOF) := by
  by_cases h46 : 46 ≤ (E ++ comment).length
  · refine ⟨_, readDirectoryHeader_bad_signature _ h46 ?_, Or.inl rfl⟩
    match E, hlen, hsig with
    | e0 :: e1 :: e2 :: e3 :: rest, _, hsig =>
      simp only [List.take_succ_cons, List.take_zero, List.cons.injEq, and_true] at hsig
      obtain ⟨r0, r1, r2, r3⟩ := hsig
      subst r0 r1 r2 r3
      simp only [le32At, directoryHeaderSignature, List.cons_append, List.getD_cons_zero,
        List.getD_cons_succ]
      decide
  · refine ⟨_, readDirectoryHeader_short _ (by omega), Or.inr ?_⟩
    rw [if_neg (by rw [List.length_append]; omega)]

theorem getD_append_left (a b : List Byte) (i : Nat) (h : i < a.length) :
    (a ++ b).getD i 0 = a.getD i 0 := by
  rw [List.getD_eq_getElem?_getD, List.getD_eq_getElem?_getD, List.getElem?_append_left h]

theorem le16At_append_left (a b : List Byte) (i : Nat) (h : i + 2 ≤ a.length) :
    le16At (a ++ b) i = le16At a i := by
  unfold le16At
  rw [getD_append_left a b i (by omega), getD_append_left a b (i + 1) (by omega)]

theorem le32At_append_left (a b : List Byte) (i : Nat) (h : i + 4 ≤ a.length) :
    le32At (a ++ b) i = le32At a i := by
  unfold le32At
  rw [getD_append_left a b i (by omega), getD_append_left a b (i + 1) (by omega),
    getD_append_left a b (i + 2) (by omega), getD_append_left a b (i + 3) (by omega)]

/-- The end record is found in the last 100 bytes of a resource when it lies in them with
its comment and no later offset is a candidate. -/
theorem findSignatureInBlock_tail (P E comment : List Byte) (hlen : E.length = 22)
    (hsig : E.take 4 = [0x50, 0x4b, 0x05, 0x06]) (hn : le16At E 20 = comment.length)
    (h100 : 100 ≤ (P ++ E ++ comment).length) (hwin : 22 + comment.length ≤ 100)
    (hlast : ∀ j, P.length < j → ¬ IsEndCandidate (P ++ E ++ comment) j) :
    findSignatureInBlock ((P ++ E ++ comment).drop ((P ++ E ++ comment).length - 100))
      = ok ((P.length - ((P ++ E ++ comment).length - 100) : Nat) : Int) := by
  have hsize : (P ++ E ++ comment).length = P.length + 22 + comment.length := by
    simp only [List.length_append, hlen]
  have hc := isEndCandidate_record P E comment hlen hsig hn
  generalize hres : P ++ E ++ comment = res at *
  have hci : IsEndCandidate (res.drop (res.length - 100)) (P.length - (res.length - 100)) := by
    rw [isEndCandidate_drop res _ _ (by omega),
      show res.length - 100 + (P.length - (res.length - 100)) = P.length by omega]
    exact hc
  rcases findSignatureInBlock_spec (res.drop (res.length - 100)) with ⟨_, h2⟩ | ⟨j, h1, h2, h3⟩
  · exact absurd hci (h2 _)
  · have h4 : ¬ j < P.length - (res.length - 100) := fun hlt => h3 _ hlt hci
    have h5 : ¬ P.length - (res.length - 100) < j := by
      intro hlt
      rw [isEndCandidate_drop res _ _ (by omega)] at h2
      exact hlast _ (by omega) h2
    have : j = P.length - (res.length - 100) := by omega
    rw [h1, this]

set_option maxRecDepth 100000 in
/-- C5 (as stated, refuted): `archiveCommentRecord` has a central directory of one
well-formed header, immediately followed by an end record that declares one entry and a
comment of 22 bytes. The comment is itself an end record, which sends the reader to offset
89: `Reader.init` succeeds with no entry. -/
theorem Reader.init_comment_record_no_entry :
    archiveCommentRecord =
      archiveStored.take 42 ++ [(archiveStored.drop 42).take 47].flatten ++
        (archiveCommentRecord.drop 89).take 22 ++ archiveCommentRecord.drop 111 ∧
    IsDirectoryRecord ((archiveStored.drop 42).take 47) ∧
    ((archiveCommentRecord.drop 89).take 22).take 4 = [0x50, 0x4b, 0x05, 0x06] ∧
    le16At ((archiveCommentRecord.drop 89).take 22) 10 = 1 ∧
    le32At ((archiveCommentRecord.drop 89).take 22) 16 = 42 ∧
    le16At ((archiveCommentRecord.drop 89).take 22) 20 = (archiveCommentRecord.drop 111).length ∧
    Reader.init archiveCommentRecord archiveCommentRecord.length = ok { File := [] } := by
  unfold IsDirectoryRecord
  decide

/-- C5 (amended): for every resource of at least 100 bytes that consists of some bytes
`pre`, then `k` well-formed central directory file headers, then an end record that
declares `directoryRecords = k` and `directoryOffset = len(pre)`, then the comment of the
end record, where the end record and its comment lie in the last 100 bytes and no offset
after the end record is itself an end-record candidate, `Reader.init` succeeds and
`Reader.File` has exactly `k` entries, the i-th entry being what `readDirectoryHeader`
decodes from the i-th header. -/
theorem Reader.init_reads_directory (pre : List Byte) (recs : List (List Byte))
    (E comment : List Byte) (hrecs : ∀ rec ∈ recs, IsDirectoryRecord rec)
    (hlen : E.length = 22) (hsig : E.take 4 = [0x50, 0x4b, 0x05, 0x06])
    (hk : le16At E 10 = recs.length) (hoff : le32At E 16 = pre.length)
    (hn : le16At E 20 = comment.length)
    (h100 : 100 ≤ (pre ++ recs.flatten ++ E ++ comment).length)
    (hwin : 22 + comment.length ≤ 100)
    (hlast : ∀ j, (pre ++ recs.flatten).length < j →
      ¬ IsEndCandidate (pre ++ recs.flatten ++ E ++ comment) j) :
    ∃ fs, Reader.init (pre ++ recs.flatten ++ E ++ comment)
        (pre ++ recs.flatten ++ E ++ comment).length = ok { File := fs } ∧
      fs.length = recs.length ∧
      List.Forall₂ (fun rec f => readDirectoryHeader rec = ok (f, [])) recs fs := by
  obtain ⟨fs, hdec, hfl, hall⟩ := decodesTo_flatten recs (E ++ comment) hrecs
  obtain ⟨e, hstop, he⟩ := readDirectoryHeader_end_record E comment hlen hsig
  have hflat := flatten_length_ge recs hrecs
  have hfind := findSignatureInBlock_tail (pre ++ recs.flatten) E comment hlen hsig hn h100
    hwin hlast
  have hsize : (pre ++ recs.flatten ++ E ++ comment).length
      = pre.length + recs.flatten.length + 22 + comment.length := by
    simp only [List.length_append, hlen]
  have hP : (pre ++ recs.flatten).length = pre.length + recs.flatten.length :=
    List.length_append _ _
  have hdropE : (pre ++ recs.flatten ++ E ++ comment).drop (pre ++ recs.flatten).length
      = E ++ comment := by
    rw [List.append_assoc (pre ++ recs.flatten)]
    exact List.drop_left _ _
  have hdropP : (pre ++ recs.flatten ++ E ++ comment).drop pre.length
      = recs.flatten ++ (E ++ comment) := by
    rw [List.append_assoc (pre ++ recs.flatten), List.append_assoc pre]
    exact List.drop_left _ _
  refine ⟨fs, ?_, hfl, hall⟩
  refine Reader.init_of_decodes _ _
    ((pre ++ recs.flatten).length - ((pre ++ recs.flatten ++ E ++ comment).length - 100))
    { diskNbr := le16At (E ++ comment) 4, dirDiskNbr := le16At (E ++ comment) 6,
      dirRecordsThisDisk := le16At (E ++ comment) 8,
      directoryRecords := le16At (E ++ comment) 10,
      directorySize := le32At (E ++ comment) 12,
      directoryOffset := le32At (E ++ comment) 16,
      commentLen := le16At (E ++ comment) 20,
      comment := ((E ++ comment).drop 22).take (le16At (E ++ comment) 20) }
    fs (E ++ comment) e ?_ ?_ ?_ ?_ hstop he
  · rw [getFileBody_tail _ h100]
    exact hfind
  · rw [getFileBody_tail _ h100, List.drop_drop,
      show (pre ++ recs.flatten ++ E ++ comment).length - 100 +
        ((pre ++ recs.flatten).length - ((pre ++ recs.flatten ++ E ++ comment).length - 100))
        = (pre ++ recs.flatten).length by omega,
      hdropE, readDirectoryEnd_eq _ (by rw [List.length_append]; omega),
      if_neg (by rw [le16At_append_left E comment 20 (by omega), hn, List.length_append]; omega)]
  · show le16At (E ++ comment) 10 ≤ _
    rw [le16At_append_left E comment 10 (by omega), hk]
    omega
  · show DecodesTo (getFileBody _ ((le32At (E ++ comment) 16 : Nat) : Int) _) fs _
    rw [le32At_append_left E comment 16 (by omega), hoff,
      getFileBody_to_end _ pre.length (by omega), hdropP]
    exact hdec

set_option maxRecDepth 100000 in
/-- C5 (amended), at a concrete input: the archive `archiveStored`, split into the 42 bytes
before the central directory, its one header of 47 bytes, and the end record. -/
theorem Reader.init_reads_directory_witness :
    ∃ fs, Reader.init
        (archiveStored.take 42 ++ [(archiveStored.drop 42).take 47].flatten ++
          archiveStored.drop 89 ++ [])
        (archiveStored.take 42 ++ [(archiveStored.drop 42).take 47].flatten ++
          archiveStored.drop 89 ++ []).length = ok { File := fs } ∧
      fs.length = [(archiveStored.drop 42).take 47].length ∧
      List.Forall₂ (fun rec f => readDirectoryHeader rec = ok (f, []))
        [(archiveStored.drop 42).take 47] fs :=
  Reader.init_reads_directory (archiveStored.take 42) [(archiveStored.drop 42).take 47]
    (archiveStored.drop 89) []
    (fun rec h => by
      rw [List.mem_singleton] at h
      subst h
      unfold IsDirectoryRecord
      decide)
    (by decide) (by decide) (by decide) (by decide) (by decide) (by decide) (by decide)
    (fun j hj hc => by
      have h1 := hc.1
      have h2 : (archiveStored.take 42 ++ [(archiveStored.drop 42).take 47].flatten ++
        archiveStored.drop 89 ++ []).length = 111 := by decide
      have h3 : (archiveStored.take 42 ++ [(archiveStored.drop 42).take 47].flatten).length
        = 89 := by decide
      omega)

set_option maxRecDepth 100000 in
/-- An end record outside the last 100 bytes: with an archive comment of 79 bytes
`findSignatureInBlock` finds no candidate in the tail and `Reader.init` panics on the
slice `buf[-1:]`. -/
theorem Reader.init_long_comment :
    archiveLongComment.length = 190 ∧
    findSignatureInBlock (getFileBody archiveLongComment 90 190) = ok (-1) ∧
    Reader.init archiveLongComment 190 = Outcome.panic := by
  decide

/-! ## The end record in a block -/

/-- C18: for every byte buffer `b`, `findSignatureInBlock` returns `-1` if and only if
there is no index `i` with `0 ≤ i ≤ len(b) - 22` such that `b[i..i+3]` is `50 4B 05 06` and
`i + 22 + n ≤ len(b)`, where `n` is the little-endian uint16 at `b[i+20..i+21]`; otherwise
it returns the greatest such index; and it never reads outside the buffer, that is, it
returns and does not panic. -/
theorem findSignatureInBlock_greatest_candidate (b : List Byte) :
    (findSignatureInBlock b = ok (-1) ↔ ¬ ∃ i, IsEndCandidate b i) ∧
    ((∃ i, IsEndCandidate b i) →
      ∃ i : Nat, findSignatureInBlock b = ok (i : Int) ∧ IsEndCandidate b i ∧
        ∀ j, IsEndCandidate b j → j ≤ i) ∧
    (∃ r : Int, findSignatureInBlock b = ok r) := by
  rcases findSignatureInBlock_spec b with ⟨h1, h2⟩ | ⟨i, h1, h2, h3⟩
  · refine ⟨⟨fun _ => fun ⟨i, hi⟩ => h2 i hi, fun _ => h1⟩, fun ⟨i, hi⟩ => absurd hi (h2 i),
      ⟨_, h1⟩⟩
  · refine ⟨⟨fun h => ?_, fun h => absurd ⟨i, h2⟩ h⟩, fun _ => ⟨i, h1, h2, fun j hj => ?_⟩,
      ⟨_, h1⟩⟩
    · rw [h1] at h
      injection h with h
      omega
    · by_cases hji : j ≤ i
      · exact hji
      · exact absurd hj (h3 j (by omega))

/-- C19: for every byte buffer `b` for which `findSignatureInBlock(b)` returns an index
`i >= 0`, `readDirectoryEnd(b[i:])` performs no out-of-bounds read and succeeds (it returns
neither a panic nor the invalid-comment-length error), and the comment it returns has
exactly the length encoded at `b[i+20..i+21]`. -/
theorem readDirectoryEnd_after_find (b : List Byte) (r : Int)
    (h : findSignatureInBlock b = ok r) (hr : 0 ≤ r) :
    ∃ d, (sliceFrom b r >>= readDirectoryEnd) = ok d ∧
      d.comment.length = le16At b (r.toNat + 20) ∧ d.commentLen = le16At b (r.toNat + 20) := by
  rcases findSignatureInBlock_spec b with ⟨h1, _⟩ | ⟨i, h1, h2, _⟩
  · rw [h] at h1
    injection h1 with h1
    omega
  · rw [h] at h1
    injection h1 with h1
    subst h1
    obtain ⟨c1, _, _, _, _, c6⟩ := h2
    rw [Int.toNat_ofNat, sliceFrom_eq b _ i rfl (by omega), bind_ok,
      readDirectoryEnd_eq _ (by rw [List.length_drop]; omega), le16At_drop,
      if_neg (by rw [List.length_drop]; omega)]
    refine ⟨_, rfl, ?_, rfl⟩
    simp only [List.length_take, List.length_drop]
    omega

/-- C19, at a concrete buffer: three bytes, a record whose comment has 4 bytes, and the
comment. -/
theorem readDirectoryEnd_after_find_witness :
    findSignatureInBlock ([1, 2, 3] ++ eocdComment4 ++ [7, 7, 7, 7]) = ok 3 ∧
    ∃ d, (sliceFrom ([1, 2, 3] ++ eocdComment4 ++ [7, 7, 7, 7]) 3 >>= readDirectoryEnd) = ok d ∧
      d.comment.length = le16At ([1, 2, 3] ++ eocdComment4 ++ [7, 7, 7, 7]) ((3 : Int).toNat + 20) ∧
      d.commentLen = le16At ([1, 2, 3] ++ eocdComment4 ++ [7, 7, 7, 7]) ((3 : Int).toNat + 20) :=
  ⟨by decide,
    readDirectoryEnd_after_find ([1, 2, 3] ++ eocdComment4 ++ [7, 7, 7, 7]) 3 (by decide)
      (by decide)⟩

/-! ## `Reader.init`: the end record that is not found, and the entry count -/

theorem bind_panic {α β : Type} (f : α → Outcome β) :
    ((Outcome.panic : Outcome α) >>= f) = Outcome.panic := rfl

/-- When the scan finds no candidate in the tail, `Reader.init` slices the tail at `-1`, which
is a run-time panic. -/
theorem Reader.init_not_found (res : List Byte) (size : Nat)
    (h : findSignatureInBlock (getFileBody res ((size : Int) - 100) size) = ok (-1)) :
    Reader.init res size = Outcome.panic := by
  unfold Reader.init
  dsimp only
  rw [h, bind_ok]
  have : sliceFrom (getFileBody res ((size : Int) - 100) size) (-1) = Outcome.panic := by
    unfold sliceFrom
    rw [if_pos (Or.inl (by decide))]
  rw [this, bind_panic]

set_option maxRecDepth 100000 in
/-- C11 (the code at a failing input): the archive `archiveLongComment` has 190 bytes and an
archive comment of 79 bytes, so its end record starts one byte before the tail that
`Reader.init` fetches. `findSignatureInBlock` returns `-1` on that tail, and `Reader.init`
ends in a run-time panic on `buf[-1:]`; it returns no error. -/
theorem Reader.init_archiveLongComment :
    archiveLongComment.length = 190 ∧
    (getFileBody archiveLongComment 90 190).length = 100 ∧
    findSignatureInBlock (getFileBody archiveLongComment 90 190) = ok (-1) ∧
    sliceFrom (getFileBody archiveLongComment 90 190) (-1) = Outcome.panic ∧
    Reader.init archiveLongComment 190 = Outcome.panic ∧
    Reader.init archiveLongComment 190 ≠ error GoError.ErrFormat := by
  decide

/-- The model with the receiver and the requests returns what `Reader.init` returns, and on
success leaves the reader that `Reader.init` gives, when the call starts from a fresh
reader. -/
theorem Reader.init.runLoop_eq : ∀ (steps : Nat) (b2 : List Byte) (acc : List ZipStream.File),
    Reader.init.loop steps b2 acc =
      ((Reader.init.runLoop steps b2 acc).1 >>= fun _ =>
        ok (Reader.init.runLoop steps b2 acc).2) := by
  intro steps
  induction steps with
  | zero => intro b2 acc; rfl
  | succ k ih =>
    intro b2 acc
    rw [Reader.init.loop.eq_def, Reader.init.runLoop.eq_def]
    dsimp only
    cases h : readDirectoryHeader b2 with
    | ok p =>
      obtain ⟨f, rest⟩ := p
      exact ih rest _
    | error e =>
      dsimp only
      by_cases hb : e = GoError.ErrFormat ∨ e = GoError.ErrUnexpectedEOF
      · rw [if_pos hb, if_pos hb]; rfl
      · rw [if_neg hb, if_neg hb]; rfl
    | panic => rfl
    | budget => rfl

theorem Reader.init_eq_run (res : List Byte) (size : Nat) :
    Reader.init res size =
      ((Reader.init.run {} res size).result >>= fun _ => ok (Reader.init.run {} res size).z) := by
  unfold Reader.init Reader.init.run
  dsimp only
  cases h1 : findSignatureInBlock (getFileBody res ((size : Int) - 100) size) with
  | ok s =>
    rw [bind_ok, bind_ok]
    cases h2 : sliceFrom (getFileBody res ((size : Int) - 100) size) s with
    | ok tail =>
      rw [bind_ok, bind_ok]
      cases h3 : readDirectoryEnd tail with
      | ok dirEnd =>
        rw [bind_ok]
        dsimp only
        by_cases hb : dirEnd.directoryRecords > size / fileHeaderLen
        · rw [if_pos hb, if_pos hb]; rfl
        · rw [if_neg hb, if_neg hb]
          dsimp only
          rw [Reader.init.runLoop_eq]
          cases (Reader.init.runLoop
            ((getFileBody res (dirEnd.directoryOffset : Int) (size : Int)).length + 1)
            (getFileBody res (dirEnd.directoryOffset : Int) (size : Int)) []).1 <;> rfl
      | error e => rfl
      | panic => rfl
      | budget => rfl
    | error e => rfl
    | panic => rfl
    | budget => rfl
  | error e => rfl
  | panic => rfl
  | budget => rfl

theorem readDirectoryHeader_error (r : List Byte) (e : GoError)
    (h : readDirectoryHeader r = error e) :
    e = GoError.ErrFormat ∨ e = GoError.EOF ∨ e = GoError.ErrUnexpectedEOF := by
  by_cases h46 : 46 ≤ r.length
  · by_cases hsig : le32At r 0 = directoryHeaderSignature
    · rw [readDirectoryHeader_eq r h46 hsig] at h
      by_cases hn : le16At r 28 + le16At r 30 + le16At r 32 ≤ r.length - 46
      · rw [if_pos hn] at h
        exact Outcome.noConfusion h
      · rw [if_neg hn] at h
        injection h with h
        rw [← h]
        by_cases h0 : r.length = 46
        · rw [if_pos h0]; exact Or.inr (Or.inl rfl)
        · rw [if_neg h0]; exact Or.inr (Or.inr rfl)
    · rw [readDirectoryHeader_bad_signature r h46 hsig] at h
      injection h with h
      exact Or.inl h.symm
  · rw [readDirectoryHeader_short r (by omega)] at h
    injection h with h
    rw [← h]
    by_cases h0 : r.length = 0
    · rw [if_pos h0]; exact Or.inr (Or.inl rfl)
    · rw [if_neg h0]; exact Or.inr (Or.inr rfl)

/-- The only error that the loop of `Reader.init` returns is `io.EOF`. -/
theorem Reader.init.loop_error_eof : ∀ (steps : Nat) (b2 : List Byte)
    (acc : List ZipStream.File) (e : GoError),
    Reader.init.loop steps b2 acc = error e → e = GoError.EOF := by
  intro steps
  induction steps with
  | zero =>
    intro b2 acc e h
    exact Outcome.noConfusion h
  | succ k ih =>
    intro b2 acc e h
    rcases readDirectoryHeader_total b2 with ⟨f, rest, hf⟩ | ⟨e2, he⟩
    · rw [Reader.init.loop_ok k b2 rest acc f hf] at h
      exact ih rest _ e h
    · rw [Reader.init.loop_error k b2 acc e2 he] at h
      by_cases hb : e2 = GoError.ErrFormat ∨ e2 = GoError.ErrUnexpectedEOF
      · rw [if_pos hb] at h
        exact Outcome.noConfusion h
      · rw [if_neg hb] at h
        injection h with h
        rcases readDirectoryHeader_error b2 e2 he with h1 | h1 | h1
        · exact absurd (Or.inl h1) hb
        · rw [← h]; exact h1
        · exact absurd (Or.inr h1) hb

/-- C12: once the end record is found and decoded, `Reader.init` fails with the error
`TOC declares impossible ... files` exactly when the declared `directoryRecords` exceeds
`size / 30`; and in that case it returns after the one request for the tail, before
`z.File` is assigned and before the central directory is fetched, so that the receiver is
as it was (with `File` empty for the fresh reader of `getStream`). -/
theorem Reader.init_impossible_files (res : List Byte) (size : Nat) (r : Int)
    (dirEnd : directoryEnd)
    (hfind : findSignatureInBlock (getFileBody res ((size : Int) - 100) size) = ok r)
    (hend : (sliceFrom (getFileBody res ((size : Int) - 100) size) r >>= readDirectoryEnd)
      = ok dirEnd) :
    ((∃ n m, Reader.init res size = error (GoError.impossibleFiles n m)) ↔
      dirEnd.directoryRecords > size / 30) ∧
    (dirEnd.directoryRecords > size / 30 →
      Reader.init res size = error (GoError.impossibleFiles dirEnd.directoryRecords size) ∧
      ∀ z : Reader, Reader.init.run z res size =
        { result := error (GoError.impossibleFiles dirEnd.directoryRecords size), z := z,
          requests := [((size : Int) - 100, (size : Int))] }) := by
  obtain ⟨tail, hs, he⟩ : ∃ tail,
      sliceFrom (getFileBody res ((size : Int) - 100) size) r = ok tail ∧
      readDirectoryEnd tail = ok dirEnd := by
    cases hs : sliceFrom (getFileBody res ((size : Int) - 100) size) r with
    | ok tail =>
      rw [hs, bind_ok] at hend
      exact ⟨tail, rfl, hend⟩
    | error e => rw [hs] at hend; exact Outcome.noConfusion hend
    | panic => rw [hs] at hend; exact Outcome.noConfusion hend
    | budget => rw [hs] at hend; exact Outcome.noConfusion hend
  have hinit : Reader.init res size =
      if dirEnd.directoryRecords > size / 30 then
        error (GoError.impossibleFiles dirEnd.directoryRecords size)
      else
        (Reader.init.loop ((getFileBody res dirEnd.directoryOffset size).length + 1)
          (getFileBody res dirEnd.directoryOffset size) [] >>= fun files =>
            ok { File := files }) := by
    unfold Reader.init
    dsimp only
    rw [hfind, bind_ok, hs, bind_ok, he, bind_ok]
    rfl
  have hrun : ∀ z : Reader, dirEnd.directoryRecords > size / 30 →
      Reader.init.run z res size =
        { result := error (GoError.impossibleFiles dirEnd.directoryRecords size), z := z,
          requests := [((size : Int) - 100, (size : Int))] } := by
    intro z hb
    unfold Reader.init.run
    dsimp only
    rw [hfind, bind_ok, hs, bind_ok, he]
    dsimp only
    rw [if_pos (by unfold fileHeaderLen; exact hb)]
  refine ⟨⟨?_, fun hb => ⟨_, _, by rw [hinit, if_pos hb]⟩⟩,
    fun hb => ⟨by rw [hinit, if_pos hb], fun z => hrun z hb⟩⟩
  rintro ⟨n, m, hnm⟩
  by_cases hb : dirEnd.directoryRecords > size / 30
  · exact hb
  · rw [hinit, if_neg hb] at hnm
    cases hl : Reader.init.loop ((getFileBody res dirEnd.directoryOffset size).length + 1)
        (getFileBody res dirEnd.directoryOffset size) [] with
    | ok fs => rw [hl] at hnm; exact Outcome.noConfusion hnm
    | error e =>
      rw [hl] at hnm
      have h1 := Reader.init.loop_error_eof _ _ _ e hl
      subst h1
      injection hnm with hnm
      exact GoError.noConfusion hnm
    | panic => rw [hl] at hnm; exact Outcome.noConfusion hnm
    | budget => rw [hl] at hnm; exact Outcome.noConfusion hnm

set_option maxRecDepth 100000 in
/-- C12, at a concrete input: the archive `archiveManyDeclared` of 111 bytes, whose end
record declares 4 entries, more than `111 / 30 = 3`. -/
theorem Reader.init_impossible_files_witness :
    Reader.init archiveManyDeclared 111 = error (GoError.impossibleFiles 4 111) ∧
    ∀ z : Reader, Reader.init.run z archiveManyDeclared 111 =
      { result := error (GoError.impossibleFiles 4 111), z := z,
        requests := [(11, 111)] } :=
  (Reader.init_impossible_files archiveManyDeclared 111 78
    { diskNbr := 0, dirDiskNbr := 0, dirRecordsThisDisk := 4, directoryRecords := 4,
      directorySize := 47, directoryOffset := 42, commentLen := 0, comment := [] }
    (by decide) (by decide)).2 (by decide)

/-! ## `detectUTF8` and the code points -/

theorem codePoints_cons (b0 : Byte) (t : List Byte) : codePoints (b0 :: t) =
    if b0.val < 0x80 then (codePoints t).map (fun cs => b0.val :: cs)
    else if 0xC2 ≤ b0.val ∧ b0.val ≤ 0xDF then
      match t with
      | b1 :: t1 =>
        if isContinuation b1 then
          (codePoints t1).map (fun cs => ((b0.val - 0xC0) * 64 + (b1.val - 0x80)) :: cs)
        else none
      | _ => none
    else if 0xE0 ≤ b0.val ∧ b0.val ≤ 0xEF then
      match t with
      | b1 :: b2 :: t2 =>
        if isSecondOfThree b0 b1 && isContinuation b2 then
          (codePoints t2).map (fun cs =>
            ((b0.val - 0xE0) * 4096 + (b1.val - 0x80) * 64 + (b2.val - 0x80)) :: cs)
        else none
      | _ => none
    else if 0xF0 ≤ b0.val ∧ b0.val ≤ 0xF4 then
      match t with
      | b1 :: b2 :: b3 :: t3 =>
        if isSecondOfFour b0 b1 && isContinuation b2 && isContinuation b3 then
          (codePoints t3).map (fun cs =>
            ((b0.val - 0xF0) * 262144 + (b1.val - 0x80) * 4096 + (b2.val - 0x80) * 64 +
              (b3.val - 0x80)) :: cs)
        else none
      | _ => none
    else none := by
  cases t with
  | nil => rfl
  | cons b1 t =>
    cases t with
    | nil => rfl
    | cons b2 t =>
      cases t with
      | nil => rfl
      | cons b3 t => rfl

theorem codePointsAgree_of_invalid (s : List Byte) (hv : validUTF8 s = false)
    (hc : codePoints s = none) : CodePointsAgree s :=
  ⟨fun _ => hc, fun h => by rw [hv] at h; exact Bool.noConfusion h⟩

theorem codePointsAgree_step (b0 : Byte) (t t1 : List Byte) (c : Nat)
    (hv : validUTF8 (b0 :: t) = validUTF8 t1)
    (hc : codePoints (b0 :: t) = (codePoints t1).map (fun cs => c :: cs))
    (hu : (b0 :: t).any isUnsafeByte = (isUnsafeCodePoint c || t1.any isUnsafeByte))
    (ih : CodePointsAgree t1) : CodePointsAgree (b0 :: t) := by
  constructor
  · intro h
    rw [hv] at h
    rw [hc, ih.1 h]
    rfl
  · intro h
    rw [hv] at h
    obtain ⟨cps, h1, h2⟩ := ih.2 h
    refine ⟨c :: cps, by rw [hc, h1]; rfl, ?_⟩
    rw [hu, List.any_cons, h2]

theorem codePointsAgree_all : ∀ (n : Nat) (s : List Byte), s.length ≤ n → CodePointsAgree s := by
  intro n
  induction n with
  | zero =>
    intro s hs
    have : s = [] := List.length_eq_zero.mp (by omega)
    subst this
    exact ⟨fun h => Bool.noConfusion h, fun _ => ⟨[], rfl, rfl⟩⟩
  | succ n ih =>
    intro s hs
    match s, hs with
    | [], _ => exact ⟨fun h => Bool.noConfusion h, fun _ => ⟨[], rfl, rfl⟩⟩
    | b0 :: t, hs =>
      have hb := b0.isLt
      have hlen : t.length ≤ n := by simpa using hs
      by_cases c1 : b0.val < 0x80
      · refine codePointsAgree_step b0 t t b0.val ?_ ?_ ?_ (ih t hlen)
        · rw [validUTF8_cons, if_pos c1]
        · rw [codePoints_cons, if_pos c1]
        · rw [List.any_cons]; rfl
      have hu0 : isUnsafeByte b0 = true := isUnsafeByte_of_ge b0 (by omega)
      by_cases c2 : 0xC2 ≤ b0.val ∧ b0.val ≤ 0xDF
      · match t, hlen with
        | [], _ =>
          exact codePointsAgree_of_invalid _
            (by rw [validUTF8_cons, if_neg c1, if_pos c2])
            (by rw [codePoints_cons, if_neg c1, if_pos c2])
        | b1 :: t1, hlen =>
          by_cases k1 : isContinuation b1 = true
          · refine codePointsAgree_step b0 _ t1 ((b0.val - 0xC0) * 64 + (b1.val - 0x80)) ?_ ?_ ?_
              (ih t1 (by simp at hlen; omega))
            · rw [validUTF8_cons, if_neg c1, if_pos c2]
              simp [k1]
            · rw [codePoints_cons, if_neg c1, if_pos c2]
              simp [k1]
            · have : isUnsafeCodePoint ((b0.val - 0xC0) * 64 + (b1.val - 0x80)) = true := by
                simp only [isUnsafeCodePoint, decide_eq_true_eq]
                omega
              rw [List.any_cons, hu0, this]
              rfl
          · exact codePointsAgree_of_invalid _
              (by rw [validUTF8_cons, if_neg c1, if_pos c2]; simp [k1])
              (by rw [codePoints_cons, if_neg c1, if_pos c2]; simp [k1])
      by_cases c3 : 0xE0 ≤ b0.val ∧ b0.val ≤ 0xEF
      · match t, hlen with
        | [], _ =>
          exact codePointsAgree_of_invalid _
            (by rw [validUTF8_cons, if_neg c1, if_neg c2, if_pos c3])
            (by rw [codePoints_cons, if_neg c1, if_neg c2, if_pos c3])
        | [b1], _ =>
          exact codePointsAgree_of_invalid _
            (by rw [validUTF8_cons, if_neg c1, if_neg c2, if_pos c3])
            (by rw [codePoints_cons, if_neg c1, if_neg c2, if_pos c3])
        | b1 :: b2 :: t2, hlen =>
          by_cases k1 : (isSecondOfThree b0 b1 && isContinuation b2) = true
          · refine codePointsAgree_step b0 _ t2
              ((b0.val - 0xE0) * 4096 + (b1.val - 0x80) * 64 + (b2.val - 0x80)) ?_ ?_ ?_
              (ih t2 (by simp at hlen; omega))
            · rw [validUTF8_cons, if_neg c1, if_neg c2, if_pos c3]
              simp only [k1, Bool.true_and]
            · rw [codePoints_cons, if_neg c1, if_neg c2, if_pos c3]
              simp only [k1, if_true]
            · have k2 := k1
              rw [isSecondOfThree_eq] at k2
              simp only [isContinuation, Bool.and_eq_true, decide_eq_true_eq] at k2
              have : isUnsafeCodePoint
                  ((b0.val - 0xE0) * 4096 + (b1.val - 0x80) * 64 + (b2.val - 0x80)) = true := by
                simp only [isUnsafeCodePoint, decide_eq_true_eq]
                split_ifs at k2 <;> omega
              rw [List.any_cons, hu0, this]
              rfl
          · exact codePointsAgree_of_invalid _
              (by rw [validUTF8_cons, if_neg c1, if_neg c2, if_pos c3]
                  simp only [Bool.not_eq_true] at k1
                  simp only [k1, Bool.false_and])
              (by rw [codePoints_cons, if_neg c1, if_neg c2, if_pos c3]
                  simp only [k1, if_false]; rfl)
      by_cases c4 : 0xF0 ≤ b0.val ∧ b0.val ≤ 0xF4
      · match t, hlen with
        | [], _ =>
          exact codePointsAgree_of_invalid _
            (by rw [validUTF8_cons, if_neg c1, if_neg c2, if_neg c3, if_pos c4])
            (by rw [codePoints_cons, if_neg c1, if_neg c2, if_neg c3, if_pos c4])
        | [b1], _ =>
          exact codePointsAgree_of_invalid _
            (by rw [validUTF8_cons, if_neg c1, if_neg c2, if_neg c3, if_pos c4])
            (by rw [codePoints_cons, if_neg c1, if_neg c2, if_neg c3, if_pos c4])
        | [b1, b2], _ =>
          exact codePointsAgree_of_invalid _
            (by rw [validUTF8_cons, if_neg c1, if_neg c2, if_neg c3, if_pos c4])
            (by rw [codePoints_cons, if_neg c1, if_neg c2, if_neg c3, if_pos c4])
        | b1 :: b2 :: b3 :: t3, hlen =>
          by_cases k1 : (isSecondOfFour b0 b1 && isContinuation b2 && isContinuation b3) = true
          · refine codePointsAgree_step b0 _ t3
              ((b0.val - 0xF0) * 262144 + (b1.val - 0x80) * 4096 + (b2.val - 0x80) * 64 +
                (b3.val - 0x80)) ?_ ?_ ?_ (ih t3 (by simp at hlen; omega))
            · rw [validUTF8_cons, if_neg c1, if_neg c2, if_neg c3, if_pos c4]
              simp only [k1, Bool.true_and]
            · rw [codePoints_cons, if_neg c1, if_neg c2, if_neg c3, if_pos c4]
              simp only [k1, if_true]
            · have k2 := k1
              rw [isSecondOfFour_eq] at k2
              simp only [isContinuation, Bool.and_eq_true, decide_eq_true_eq] at k2
              have : isUnsafeCodePoint
                  ((b0.val - 0xF0) * 262144 + (b1.val - 0x80) * 4096 + (b2.val - 0x80) * 64 +
                    (b3.val - 0x80)) = true := by
                simp only [isUnsafeCodePoint, decide_eq_true_eq]
                split_ifs at k2 <;> omega
              rw [List.any_cons, hu0, this]
              rfl
          · exact codePointsAgree_of_invalid _
              (by rw [validUTF8_cons, if_neg c1, if_neg c2, if_neg c3, if_pos c4]
                  simp only [Bool.not_eq_true] at k1
                  simp only [k1, Bool.false_and])
              (by rw [codePoints_cons, if_neg c1, if_neg c2, if_neg c3, if_pos c4]
                  simp only [k1, if_false]; rfl)
      exact codePointsAgree_of_invalid _
        (by rw [validUTF8_cons, if_neg c1, if_neg c2, if_neg c3, if_neg c4])
        (by rw [codePoints_cons, if_neg c1, if_neg c2, if_neg c3, if_neg c4])

/-- C20: for every byte string `s`, `detectUTF8(s)` returns `valid = true` if and only if
`s` is well-formed UTF-8, and `require = true` if and only if `s` is well-formed UTF-8 and
contains at least one code point that is below `0x20`, above `0x7D`, or equal to `0x5C`;
when `valid` is false, `require` is false. -/
theorem detectUTF8_valid_require (s : List Byte) :
    ∃ valid require, detectUTF8 s = ok (valid, require) ∧
      (valid = true ↔ validUTF8 s = true) ∧
      (validUTF8 s = true ↔ ∃ cps, codePoints s = some cps) ∧
      (require = true ↔ validUTF8 s = true ∧
        ∃ cps, codePoints s = some cps ∧ ∃ c ∈ cps, c < 0x20 ∨ c > 0x7D ∨ c = 0x5C) ∧
      (valid = false → require = false) := by
  have hag := codePointsAgree_all s.length s (le_refl _)
  have hany : ∀ cps : List Nat, cps.any isUnsafeCodePoint = true ↔
      ∃ c ∈ cps, c < 0x20 ∨ c > 0x7D ∨ c = 0x5C := by
    intro cps
    rw [List.any_eq_true]
    simp only [isUnsafeCodePoint, decide_eq_true_eq]
  refine ⟨validUTF8 s, validUTF8 s && s.any isUnsafeByte, detectUTF8_eq s, Iff.rfl, ?_, ?_, ?_⟩
  · constructor
    · intro h
      obtain ⟨cps, h1, _⟩ := hag.2 h
      exact ⟨cps, h1⟩
    · rintro ⟨cps, h1⟩
      cases hv : validUTF8 s
      · rw [hag.1 hv] at h1
        exact Option.noConfusion h1
      · rfl
  · constructor
    · intro h
      rw [Bool.and_eq_true] at h
      obtain ⟨cps, h1, h2⟩ := hag.2 h.1
      exact ⟨h.1, cps, h1, (hany cps).mp (by rw [h2]; exact h.2)⟩
    · rintro ⟨hv, cps, h1, h2⟩
      obtain ⟨cps2, h3, h4⟩ := hag.2 hv
      rw [h1] at h3
      injection h3 with h3
      subst h3
      rw [Bool.and_eq_true]
      exact ⟨hv, by rw [← h4]; exact (hany cps).mpr h2⟩
  · intro h
    rw [h]
    rfl

/-! ## `File.setFilePath` -/

theorem take_one_eq (l : List Byte) (c : Byte) : l.take 1 = [c] ↔ l[0]? = some c := by
  cases l with
  | nil => simp
  | cons a t => simp

theorem take_one_drop (s : List Byte) (i : Nat) (c : Byte) :
    (s.drop i).take 1 = [c] ↔ s[i]? = some c := by
  rw [take_one_eq, List.getElem?_drop, Nat.add_zero]

/-- The scan of `strings.LastIndex` for a separator of one byte: `-1` when no index below
`k` holds the byte, otherwise the greatest index below `k` that holds it. -/
theorem strings.LastIndex.loop_scan (s : List Byte) (c : Byte) : ∀ k : Nat,
    (strings.LastIndex.loop s [c] k = -1 ∧ ∀ j, j < k → s[j]? ≠ some c) ∨
    (∃ i : Nat, i < k ∧ strings.LastIndex.loop s [c] k = (i : Int) ∧ s[i]? = some c ∧
      ∀ j, i < j → j < k → s[j]? ≠ some c) := by
  intro k
  induction k with
  | zero => exact Or.inl ⟨rfl, fun j hj => absurd hj (Nat.not_lt_zero j)⟩
  | succ k ih =>
    rw [strings.LastIndex.loop]
    simp only [List.length_singleton]
    by_cases hc : s[k]? = some c
    · rw [if_pos ((take_one_drop s k c).mpr hc)]
      exact Or.inr ⟨k, Nat.lt_succ_self k, rfl, hc, fun j h1 h2 => by omega⟩
    · rw [if_neg (fun h => hc ((take_one_drop s k c).mp h))]
      rcases ih with ⟨h1, h2⟩ | ⟨i, hi, h1, h2, h3⟩
      · refine Or.inl ⟨h1, fun j hj => ?_⟩
        rcases Nat.lt_succ_iff_lt_or_eq.mp hj with h | h
        · exact h2 j h
        · exact h ▸ hc
      · refine Or.inr ⟨i, Nat.lt_succ_of_lt hi, h1, h2, fun j hj1 hj2 => ?_⟩
        rcases Nat.lt_succ_iff_lt_or_eq.mp hj2 with h | h
        · exact h3 j hj1 h
        · exact h ▸ hc

/-- The index after the last separator: what follows it holds no separator, and what
precedes it is empty or ends with the separator. -/
theorem strings.LastIndex_succ (s : List Byte) (c : Byte) :
    ∃ n : Nat, strings.LastIndex s [c] + 1 = (n : Int) ∧ n ≤ s.length ∧ c ∉ s.drop n ∧
      (s.take n = [] ∨ (s.take n).getLast? = some c) := by
  have hnot : ∀ n : Nat, (∀ j, n ≤ j → j < s.length → s[j]? ≠ some c) → c ∉ s.drop n := by
    intro n h hmem
    obtain ⟨i, hi⟩ := List.mem_iff_getElem?.mp hmem
    rw [List.getElem?_drop] at hi
    have hlt : n + i < s.length := by
      by_contra hge
      rw [List.getElem?_eq_none (by omega)] at hi
      exact Option.noConfusion hi
    exact h (n + i) (by omega) hlt hi
  unfold strings.LastIndex
  simp only [List.length_singleton]
  by_cases h0 : s.length < 1
  · rw [if_pos h0]
    refine ⟨0, rfl, Nat.zero_le _, hnot 0 (fun j _ hj => by omega), Or.inl rfl⟩
  · rw [if_neg h0, show s.length - 1 + 1 = s.length by omega]
    rcases strings.LastIndex.loop_scan s c s.length with ⟨h1, h2⟩ | ⟨i, hi, h1, h2, h3⟩
    · rw [h1]
      exact ⟨0, rfl, Nat.zero_le _, hnot 0 (fun j _ hj => h2 j hj), Or.inl rfl⟩
    · rw [h1]
      refine ⟨i + 1, by push_cast; rfl, by omega, hnot (i + 1) (fun j h4 h5 => h3 j (by omega) h5),
        Or.inr ?_⟩
      rw [List.getLast?_eq_getElem?, List.length_take, Nat.min_eq_left (by omega),
        List.getElem?_take_of_lt (by omega)]
      exact h2

/-- C16: for every entry name and destination directory `p`, `File.setFilePath` sets `Path`
to `p` joined with the last path segment of `Name`, where the last segment is the suffix
of `Name` after its final `/` (the whole `Name` when it contains no `/`); that segment
never contains `/`. -/
theorem File.setFilePath_last_segment (f : File) (p : List Byte) :
    ∃ pre seg, f.Name = pre ++ seg ∧ (pre = [] ∨ pre.getLast? = some 0x2f) ∧
      (0x2f : Byte) ∉ seg ∧
      f.setFilePath p = ok { f with Path := path.Join [p, seg] } := by
  obtain ⟨n, h1, h2, h3, h4⟩ := strings.LastIndex_succ f.Name 0x2f
  refine ⟨f.Name.take n, f.Name.drop n, (List.take_append_drop n f.Name).symm, h4, h3, ?_⟩
  unfold File.setFilePath
  rw [sliceFrom_eq f.Name _ n h1 h2, bind_ok]
  rfl

theorem path.elements_ne_nil (s : List Byte) : path.elements s ≠ [] := by
  cases s with
  | nil => simp [path.elements]
  | cons c s =>
    rw [path.elements]
    split_ifs
    · simp
    · split <;> simp

theorem path.elements_append (a b : List Byte) :
    path.elements (a ++ 0x2f :: b) = path.elements a ++ path.elements b := by
  induction a with
  | nil => simp [path.elements]
  | cons c a ih =>
    rw [List.cons_append, path.elements, path.elements, ih]
    by_cases hc : c = 0x2f
    · simp [hc]
    · rw [if_neg hc, if_neg hc]
      cases h : path.elements a with
      | nil => exact absurd h (path.elements_ne_nil a)
      | cons e es => rfl

theorem path.elements_no_slash (s : List Byte) (h : (0x2f : Byte) ∉ s) :
    path.elements s = [s] := by
  induction s with
  | nil => rfl
  | cons c s ih =>
    have hc : c ≠ 0x2f := fun e => h (by rw [e]; exact List.mem_cons_self _ _)
    rw [path.elements, if_neg hc, ih (fun hm => h (List.mem_cons_of_mem _ hm))]

theorem path.elements_mem (s : List Byte) : ∀ e ∈ path.elements s, (0x2f : Byte) ∉ e := by
  induction s with
  | nil => intro e he; simp [path.elements] at he; simp [he]
  | cons c s ih =>
    intro e he
    rw [path.elements] at he
    by_cases hc : c = 0x2f
    · rw [if_pos hc] at he
      rcases List.mem_cons.mp he with h | h
      · simp [h]
      · exact ih e h
    · rw [if_neg hc] at he
      cases h : path.elements s with
      | nil => exact absurd h (path.elements_ne_nil s)
      | cons e1 es =>
        rw [h] at he ih
        rcases List.mem_cons.mp he with h2 | h2
        · rw [h2]
          intro hm
          rcases List.mem_cons.mp hm with h3 | h3
          · exact hc h3.symm
          · exact ih e1 (List.mem_cons_self _ _) h3
        · exact ih e (List.mem_cons_of_mem _ h2)

theorem path.Clean.step_plain (rooted : Bool) (out : List (List Byte)) (e : List Byte)
    (ho : PlainElements out) (he : (0x2f : Byte) ∉ e) :
    PlainElements (path.Clean.step rooted out e) := by
  have hpush : ∀ x, x ≠ [] → x ≠ [0x2e] → (0x2f : Byte) ∉ x → PlainElements (out ++ [x]) := by
    intro x h1 h2 h3 y hy
    rcases List.mem_append.mp hy with h | h
    · exact ho y h
    · rw [List.mem_singleton.mp h]; exact ⟨h1, h2, h3⟩
  have hdots : PlainElements (out ++ [[0x2e, 0x2e]]) :=
    hpush _ (by decide) (by decide) (by decide)
  unfold path.Clean.step
  by_cases h1 : e = [] ∨ e = [0x2e]
  · rw [if_pos h1]; exact ho
  · rw [if_neg h1]
    by_cases h2 : e = [0x2e, 0x2e]
    · rw [if_pos h2]
      subst h2
      cases hl : out.getLast? with
      | none =>
        dsimp only
        cases rooted
        · exact hdots
        · exact ho
      | some top =>
        dsimp only
        by_cases h3 : top ≠ [0x2e, 0x2e]
        · rw [if_pos h3]
          exact fun y hy => ho y (List.mem_of_mem_dropLast hy)
        · rw [if_neg h3]
          cases rooted
          · exact hdots
          · exact ho
    · rw [if_neg h2]
      exact hpush e (fun h => h1 (Or.inl h)) (fun h => h1 (Or.inr h)) he

theorem path.Clean.foldl_plain (rooted : Bool) (es : List (List Byte)) :
    ∀ out, PlainElements out → (∀ e ∈ es, (0x2f : Byte) ∉ e) →
      PlainElements (es.foldl (path.Clean.step rooted) out) := by
  induction es with
  | nil => intro out ho _; exact ho
  | cons e es ih =>
    intro out ho he
    rw [List.foldl_cons]
    exact ih _ (path.Clean.step_plain rooted out e ho (he e (List.mem_cons_self _ _)))
      (fun x hx => he x (List.mem_cons_of_mem _ hx))

theorem intercalate_append_singleton (out : List (List Byte)) (seg : List Byte)
    (h : out ≠ []) :
    List.intercalate [0x2f] (out ++ [seg]) = List.intercalate [0x2f] out ++ 0x2f :: seg := by
  induction out with
  | nil => exact absurd rfl h
  | cons e es ih =>
    cases es with
    | nil => simp [List.intercalate]
    | cons e2 es =>
      have := ih (by simp)
      simp only [List.intercalate, List.cons_append, List.intersperse, List.flatten_cons,
        List.append_assoc] at this ⊢
      have happ : es.append [seg] = es ++ [seg] := rfl
      rw [happ, this]

theorem intercalate_plain (out : List (List Byte)) (h : out ≠ []) (hp : PlainElements out) :
    List.intercalate [0x2f] out ≠ [0x2e] ∧
      ∃ c rest, List.intercalate [0x2f] out = c :: rest ∧ c ≠ 0x2f := by
  cases out with
  | nil => exact absurd rfl h
  | cons e es =>
    obtain ⟨h1, h2, h3⟩ := hp e (List.mem_cons_self _ _)
    cases e with
    | nil => exact absurd rfl h1
    | cons c e =>
      have hc : c ≠ 0x2f := fun hc => h3 (by rw [hc]; exact List.mem_cons_self _ _)
      cases es with
      | nil =>
        refine ⟨by simpa [List.intercalate] using h2, c, e, by simp [List.intercalate], hc⟩
      | cons e2 es =>
        refine ⟨?_, c, e ++ 0x2f :: List.intercalate [0x2f] (e2 :: es), ?_, hc⟩
        · intro hh
          have := congrArg List.length hh
          simp [List.intercalate, List.intersperse] at this
        · simp [List.intercalate, List.intersperse]

theorem path.render_child (rooted : Bool) (out : List (List Byte)) (seg : List Byte)
    (hp : PlainElements out) :
    path.render rooted (out ++ [seg]) = childPath (path.render rooted out) seg := by
  by_cases ho : out = []
  · subst ho
    cases rooted
    · simp [path.render, childPath, List.intercalate]
    · simp [path.render, childPath, List.intercalate]
  · obtain ⟨h1, c, rest, h2, hc⟩ := intercalate_plain out ho hp
    have happ := intercalate_append_singleton out seg ho
    cases rooted
    · have hne : out ++ [seg] ≠ [] := by simp
      simp only [path.render, Bool.false_eq_true, if_false, if_neg ho, if_neg hne, happ]
      unfold childPath
      rw [if_neg (by rw [h2]; intro h; injection h with h _; exact hc h), if_neg h1]
    · simp only [path.render, if_true, happ]
      unfold childPath
      rw [if_neg (by rw [h2]; simp), if_neg (by simp)]
      simp

theorem path.Clean_plain (p : List Byte) (rooted : Bool) :
    PlainElements ((path.elements p).foldl (path.Clean.step rooted) []) :=
  path.Clean.foldl_plain rooted _ [] (fun _ h => absurd h (List.not_mem_nil _))
    (path.elements_mem p)

theorem path.Clean.step_push (rooted : Bool) (out : List (List Byte)) (seg : List Byte)
    (h1 : seg ≠ []) (h2 : seg ≠ [0x2e]) (h3 : seg ≠ [0x2e, 0x2e]) :
    path.Clean.step rooted out seg = out ++ [seg] := by
  unfold path.Clean.step
  rw [if_neg (by simp [h1, h2]), if_neg h3]

theorem path.Join_child (p seg : List Byte) (hno : (0x2f : Byte) ∉ seg)
    (h1 : seg ≠ []) (h2 : seg ≠ [0x2e]) (h3 : seg ≠ [0x2e, 0x2e]) :
    path.Join [p, seg] = childPath (path.Clean p) seg := by
  have hseg : path.Clean seg = seg := by
    unfold path.Clean
    rw [if_neg h1, path.elements_no_slash seg hno]
    simp only [List.foldl_cons, List.foldl_nil]
    rw [path.Clean.step_push _ _ _ h1 h2 h3]
    have : decide (seg.head? = some 0x2f) = false := by
      cases seg with
      | nil => rfl
      | cons c s =>
        have : c ≠ 0x2f := fun hc => hno (by rw [hc]; exact List.mem_cons_self _ _)
        simpa using this
    rw [this]
    simp [path.render, List.intercalate]
  by_cases hp : p = []
  · subst hp
    have : path.Join [[], seg] = path.Clean seg := by
      simp [path.Join, List.dropWhile, h1, List.intercalate]
    rw [this, hseg]
    simp [path.Clean, childPath]
  · have : path.Join [p, seg] = path.Clean (p ++ 0x2f :: seg) := by
      simp [path.Join, List.dropWhile, hp, List.intercalate]
    rw [this]
    unfold path.Clean
    have hhead : (p ++ 0x2f :: seg).head? = p.head? := by
      cases p with
      | nil => exact absurd rfl hp
      | cons c p => rfl
    rw [if_neg (by simp), if_neg hp]
    simp only [hhead]
    rw [path.elements_append, path.elements_no_slash seg hno, List.foldl_append]
    simp only [List.foldl_cons, List.foldl_nil]
    rw [path.Clean.step_push _ _ _ h1 h2 h3]
    exact path.render_child _ _ _ (path.Clean_plain p _)

theorem childPath_ne (d seg : List Byte) (h1 : seg ≠ []) (h2 : seg ≠ [0x2e]) :
    childPath d seg ≠ d := by
  unfold childPath
  split_ifs with ha hb
  · rw [ha]; simpa using h1
  · rw [hb]; exact h2
  · intro h
    have := congrArg List.length h
    simp at this

theorem last_segment_unique (c : Byte) (a x b y : List Byte) (h : a ++ x = b ++ y)
    (ha : a = [] ∨ a.getLast? = some c) (hb : b = [] ∨ b.getLast? = some c)
    (hx : c ∉ x) (hy : c ∉ y) : a = b ∧ x = y := by
  have key : ∀ a x b y : List Byte, (b = [] ∨ b.getLast? = some c) → c ∉ x →
      ∀ z, b = a ++ z → x = z ++ y → z = [] := by
    intro a x b y hb hx z hbz hxz
    by_contra hz
    rcases hb with hb | hb
    · rw [hb] at hbz
      exact hz (List.append_eq_nil.mp hbz.symm).2
    · rw [hbz, List.getLast?_append_of_ne_nil _ hz] at hb
      have : c ∈ z := List.mem_of_getLast?_eq_some hb
      exact hx (by rw [hxz]; exact List.mem_append_left _ this)
  rcases List.append_eq_append_iff.mp h with ⟨z, hbz, hxz⟩ | ⟨z, haz, hyz⟩
  · have hz := key a x b y hb hx z hbz hxz
    subst hz
    simp at hbz hxz
    exact ⟨hbz.symm, hxz⟩
  · have hz := key b y a x ha hy z haz hyz
    subst hz
    simp at haz hyz
    exact ⟨haz, hyz.symm⟩

/-- C17 (counterexample): with the destination directory `out`, the entry named `a/`
and the entry named `a/.` are given the path `out`, which is the directory itself, and the
entry named `a/..` is given the path `.`, the parent of `out`. -/
theorem File.setFilePath_not_under_directory :
    fileSlashName.setFilePath dirOut = ok { fileSlashName with Path := dirOut } ∧
      fileDotName.setFilePath dirOut = ok { fileDotName with Path := dirOut } ∧
      fileDotDotName.setFilePath dirOut = ok { fileDotDotName with Path := [0x2e] } ∧
      path.Clean dirOut = dirOut := by
  decide

/-- C17 (amended): for every entry name whose last path segment `seg` (what follows its
final `/`, the whole name when it has none) is not empty, not `.` and not `..`, and every
destination directory `p`, `File.setFilePath` returns with `Path` set to the cleaned `p`
followed by a slash and `seg` (by `seg` alone after the root `/`, and `seg` itself when
the cleaned `p` is `.`); `seg` holds no slash and `Path` is never the cleaned `p` itself. -/
theorem File.setFilePath_child (f : File) (p pre seg : List Byte)
    (hname : f.Name = pre ++ seg) (hpre : pre = [] ∨ pre.getLast? = some 0x2f)
    (hno : (0x2f : Byte) ∉ seg)
    (h1 : seg ≠ []) (h2 : seg ≠ [0x2e]) (h3 : seg ≠ [0x2e, 0x2e]) :
    f.setFilePath p = ok { f with Path := childPath (path.Clean p) seg } ∧
      childPath (path.Clean p) seg ≠ path.Clean p := by
  obtain ⟨n, e1, e2, e3, e4⟩ := strings.LastIndex_succ f.Name 0x2f
  have hu := last_segment_unique 0x2f (f.Name.take n) (f.Name.drop n) pre seg
    (by rw [List.take_append_drop, hname]) e4 hpre e3 hno
  refine ⟨?_, childPath_ne _ _ h1 h2⟩
  unfold File.setFilePath
  rw [sliceFrom_eq f.Name _ n e1 e2, bind_ok, hu.2, path.Join_child p seg hno h1 h2 h3]
  rfl

/-- The entry named `a/b/c.go` is given the path `out/c.go` in the directory `out`. -/
theorem File.setFilePath_child_witness :
    fileNestedName.setFilePath dirOut =
        ok { fileNestedName with
              Path := [0x6f, 0x75, 0x74, 0x2f, 0x63, 0x2e, 0x67, 0x6f] } ∧
      ([0x6f, 0x75, 0x74, 0x2f, 0x63, 0x2e, 0x67, 0x6f] : List Byte) ≠ dirOut :=
  File.setFilePath_child fileNestedName dirOut [0x61, 0x2f, 0x62, 0x2f]
    [0x63, 0x2e, 0x67, 0x6f] (by decide) (by decide) (by decide) (by decide) (by decide)
    (by decide)

/-! ## The files written: `File.decompress` and `File.saveFileBody` -/

/-- The open that succeeds: the path is not empty and can be opened. The file system
after it has the same content at every path, is the same when the file existed, and
differs at most at the path opened. -/
theorem os.OpenFile_ok (fs : FileSystem) (name : List Byte) (hn : name ≠ [])
    (hd : fs name ≠ Node.denied) :
    ∃ fs1, os.OpenFile fs name = ok fs1 ∧ (∀ q, fs1.content q = fs.content q) ∧
      (∀ c, fs name = Node.file c → fs1 = fs) ∧ (∀ q, q ≠ name → fs1 q = fs q) ∧
      (∀ c, fs1.write name c = fs.write name c) := by
  unfold os.OpenFile
  rw [if_neg hn]
  cases h : fs name with
  | file c =>
    exact ⟨fs, rfl, fun _ => rfl, fun _ _ => rfl, fun _ _ => rfl, fun _ => rfl⟩
  | absent =>
    refine ⟨fs.write name [], rfl, ?_, ?_, ?_, ?_⟩
    · intro q
      unfold FileSystem.content FileSystem.write
      by_cases hq : q = name
      · rw [if_pos hq, hq, h]
      · rw [if_neg hq]
    · intro c hc
      exact Node.noConfusion hc
    · intro q hq
      exact if_neg hq
    · intro c
      funext q
      unfold FileSystem.write
      by_cases hq : q = name
      · rw [if_pos hq, if_pos hq]
      · rw [if_neg hq, if_neg hq, if_neg hq]
  | denied => exact absurd h hd

/-- The open that fails: on the empty path and on a path that cannot be opened. -/
theorem os.OpenFile_denied (fs : FileSystem) (name : List Byte)
    (h : name = [] ∨ fs name = Node.denied) :
    os.OpenFile fs name = error GoError.PathError := by
  unfold os.OpenFile
  by_cases hn : name = []
  · rw [if_pos hn]
  · rw [if_neg hn]
    rcases h with h | h
    · exact absurd h hn
    · rw [h]

/-- The open succeeds exactly on a path that is not empty and can be opened. -/
theorem os.OpenFile_ok_iff (fs : FileSystem) (name : List Byte) :
    (∃ fs1, os.OpenFile fs name = ok fs1) ↔ (name ≠ [] ∧ fs name ≠ Node.denied) := by
  constructor
  · rintro ⟨fs1, h1⟩
    by_contra hc
    have : name = [] ∨ fs name = Node.denied := by
      by_cases hn : name = []
      · exact Or.inl hn
      · by_cases hd : fs name = Node.denied
        · exact Or.inr hd
        · exact absurd ⟨hn, hd⟩ hc
    rw [os.OpenFile_denied fs name this] at h1
    exact Outcome.noConfusion h1
  · rintro ⟨hn, hd⟩
    obtain ⟨fs1, h1, _⟩ := os.OpenFile_ok fs name hn hd
    exact ⟨fs1, h1⟩

/-- C13 (counterexample): no decompressor is registered for the method 8. For the entry
whose path is the directory `out`, and for the entry whose path is empty, the open in
`File.decompress` fails and the call returns the error of the open, which is not
`ErrAlgorithm`. -/
theorem File.decompress_open_error :
    Reader.decompressor registryNone registryNone entryAtDirectory.Method = none ∧
      (entryAtDirectory.decompress registryNone registryNone fsDirectory).1 =
        error GoError.PathError ∧
      (entryAtDirectory.decompress registryNone registryNone fsDirectory).1 ≠
        error GoError.ErrAlgorithm ∧
      Reader.decompressor registryNone registryNone entryNoPath.Method = none ∧
      (entryNoPath.decompress registryNone registryNone fsDeflated).1 =
        error GoError.PathError ∧
      (entryNoPath.decompress registryNone registryNone fsDeflated).1 ≠
        error GoError.ErrAlgorithm := by
  refine ⟨rfl, by decide, by decide, rfl, by decide, by decide⟩

/-- C13 (amended): for every entry whose compression method has no registered
decompressor (the lookup of `Reader.decompressor` gives `nil`): when the file at `f.Path`
can be opened, `File.decompress` returns `ErrAlgorithm`; when the open fails,
`File.decompress` returns the error of the open and the file system is as it was. In
both cases the content of the file at `f.Path`, and at every path, is what it was before
the call: a file that existed is left with the whole file system unchanged, no other path
is touched, and where there was no file the one that `O_CREATE` makes is empty. -/
theorem File.decompress_unregistered (f : File)
    (decompressors decompressor : Nat → Option Decompressor) (fs : FileSystem)
    (h : Reader.decompressor decompressors decompressor f.Method = none) :
    ((∃ fs1, os.OpenFile fs f.Path = ok fs1) →
        (f.decompress decompressors decompressor fs).1 = error GoError.ErrAlgorithm) ∧
      ((¬ ∃ fs1, os.OpenFile fs f.Path = ok fs1) →
        f.decompress decompressors decompressor fs = (error GoError.PathError, fs)) ∧
      (∀ q, (f.decompress decompressors decompressor fs).2.content q = fs.content q) ∧
      (∀ c, fs f.Path = Node.file c → (f.decompress decompressors decompressor fs).2 = fs) ∧
      (∀ q, q ≠ f.Path → (f.decompress decompressors decompressor fs).2 q = fs q) := by
  by_cases hopen : ∃ fs1, os.OpenFile fs f.Path = ok fs1
  · obtain ⟨hn, hd⟩ := (os.OpenFile_ok_iff fs f.Path).mp hopen
    obtain ⟨fs1, h1, h2, h3, h4, _⟩ := os.OpenFile_ok fs f.Path hn hd
    have e : f.decompress decompressors decompressor fs =
        (error GoError.ErrAlgorithm, fs1) := by
      unfold File.decompress
      simp only [h1, h]
    rw [e]
    exact ⟨fun _ => rfl, fun hc => absurd hopen hc, h2, h3, h4⟩
  · have hden : f.Path = [] ∨ fs f.Path = Node.denied := by
      by_contra hc
      exact hopen ((os.OpenFile_ok_iff fs f.Path).mpr
        ⟨fun hn => hc (Or.inl hn), fun hd => hc (Or.inr hd)⟩)
    have e : f.decompress decompressors decompressor fs = (error GoError.PathError, fs) := by
      unfold File.decompress
      rw [os.OpenFile_denied fs f.Path hden]
      rfl
    rw [e]
    exact ⟨fun hc => absurd hc hopen, fun _ => rfl, fun _ => rfl, fun _ _ => rfl,
      fun _ _ => rfl⟩

/-- With no decompressor registered, `File.decompress` on the entry of method 8 at `out/a`,
a file that can be opened, returns `ErrAlgorithm` and leaves the two bytes of the file. -/
theorem File.decompress_unregistered_witness :
    Reader.decompressor registryNone registryNone entryDeflated.Method = none ∧
      os.OpenFile fsDeflated entryDeflated.Path = ok fsDeflated ∧
      (entryDeflated.decompress registryNone registryNone fsDeflated).1 =
        error GoError.ErrAlgorithm ∧
      (entryDeflated.decompress registryNone registryNone fsDeflated).2.content pathOutA =
        [3, 0] :=
  ⟨rfl, rfl,
   (File.decompress_unregistered entryDeflated registryNone registryNone fsDeflated rfl).1
     ⟨fsDeflated, rfl⟩,
   ((File.decompress_unregistered entryDeflated registryNone registryNone fsDeflated
      rfl).2.2.1 pathOutA).trans (by decide)⟩

/-- With a decompressor `dcomp` registered for the method and a file that can be opened,
`File.decompress` succeeds and the file holds the output for its first `CompressedSize64`
bytes followed by what the prior content has past the length of the output. -/
theorem File.decompress_registered (f : File)
    (decompressors decompressor : Nat → Option Decompressor) (fs : FileSystem)
    (dcomp : Decompressor)
    (h : Reader.decompressor decompressors decompressor f.Method = some dcomp)
    (hn : f.Path ≠ []) (hd : fs f.Path ≠ Node.denied) :
    (f.decompress decompressors decompressor fs).1 = ok () ∧
      (f.decompress decompressors decompressor fs).2.content f.Path =
        dcomp ((fs.content f.Path).take f.CompressedSize64) ++
          (fs.content f.Path).drop (dcomp ((fs.content f.Path).take f.CompressedSize64)).length := by
  obtain ⟨fs1, h1, h2, _, _, h5⟩ := os.OpenFile_ok fs f.Path hn hd
  have e : f.decompress decompressors decompressor fs =
      (ok (), fs1.write f.Path
        (dcomp ((fs1.content f.Path).take f.CompressedSize64) ++
          (fs1.content f.Path).drop
            (dcomp ((fs1.content f.Path).take f.CompressedSize64)).length)) := by
    unfold File.decompress
    simp only [h1, h]
  rw [e, h2]
  refine ⟨rfl, ?_⟩
  show FileSystem.content (FileSystem.write fs1 f.Path _) f.Path = _
  unfold FileSystem.content FileSystem.write
  simp

/-- C14 (failing input): the file at `out/a` holds `03 00`, the entry has the method 8 and
the compressed size 2, and the registered decompressor expands `03 00` to no bytes.
`File.decompress` succeeds, and the file still holds `03 00`, which is not the output of
the decompressor for its first 2 bytes: the compressed bytes remain. -/
theorem File.decompress_fsDeflated :
    (entryDeflated.decompress registryNone registryDeflate fsDeflated).1 = ok () ∧
      (entryDeflated.decompress registryNone registryDeflate fsDeflated).2.content pathOutA =
        [3, 0] ∧
      (∃ dcomp, Reader.decompressor registryNone registryDeflate entryDeflated.Method =
          some dcomp ∧
        dcomp ((fsDeflated.content entryDeflated.Path).take entryDeflated.CompressedSize64) =
          []) := by
  refine ⟨by decide, by decide, fun r => if r = [3, 0] then [] else [1], rfl, by decide⟩

theorem File.saveFileBody_eq (f : File) (b : List Byte) (fs : FileSystem)
    (hn : f.Path ≠ []) (hd : fs f.Path ≠ Node.denied) :
    f.saveFileBody b fs = (ok (), fs.write f.Path (fs.content f.Path ++ b)) := by
  obtain ⟨fs1, h1, h2, _, _, h5⟩ := os.OpenFile_ok fs f.Path hn hd
  unfold File.saveFileBody
  simp only [h1]
  rw [h2, h5]

theorem FileSystem.write_write (fs : FileSystem) (name c d : List Byte) :
    (fs.write name c).write name d = fs.write name d := by
  funext q
  unfold FileSystem.write
  by_cases hq : q = name
  · rw [if_pos hq, if_pos hq]
  · rw [if_neg hq, if_neg hq, if_neg hq]

theorem FileSystem.content_write (fs : FileSystem) (name c : List Byte) :
    (fs.write name c).content name = c := by
  unfold FileSystem.content FileSystem.write
  rw [if_pos rfl]

theorem FileSystem.write_not_denied (fs : FileSystem) (name c : List Byte) :
    fs.write name c name ≠ Node.denied := by
  unfold FileSystem.write
  rw [if_pos rfl]
  exact fun h => Node.noConfusion h

/-- The loop over the requests of one entry whose file can be opened never fails, and it
leaves the file with its prior content followed by the bodies of the responses, in
order. -/
theorem getStream.save_eq (res : List Byte) (f : File) (rs : List (Int × Int))
    (hn : f.Path ≠ []) :
    ∀ fs : FileSystem, fs f.Path ≠ Node.denied → rs ≠ [] →
      getStream.save res f rs fs =
        (ok (), fs.write f.Path
          (fs.content f.Path ++ (rs.map (fun p => getFileBody res p.1 p.2)).flatten)) := by
  induction rs with
  | nil => intro fs _ h; exact absurd rfl h
  | cons r rs ih =>
    intro fs hd _
    rw [getStream.save, File.saveFileBody_eq f _ fs hn hd]
    dsimp only
    cases rs with
    | nil =>
      rw [getStream.save]
      simp
    | cons r2 rs =>
      rw [ih _ (FileSystem.write_not_denied _ _ _) (by simp), FileSystem.write_write,
        FileSystem.content_write]
      simp

/-- The iteration of `getStream` for a Store-method entry (`Method = 0`) whose path is set
to `f1.Path`, whose file can be opened and whose body offset is found: it succeeds, no
decompression is applied, and the file at the path holds its prior content (no bytes when
there was no file) followed by the bytes fetched for the entry, in partition order; no
other path is touched. -/
theorem getStream.entry_store (res p : List Byte)
    (decompressors decompressor : Nat → Option Decompressor) (f f1 : File)
    (fs : FileSystem) (bodyOffSet : Int) (hm : f.Method = 0)
    (hp : f.setFilePath p = ok f1) (hb : f1.findBodyOffset res = ok bodyOffSet)
    (hn : f1.Path ≠ []) (hd : fs f1.Path ≠ Node.denied) :
    getStream.entry res p decompressors decompressor f fs =
      (ok f1, fs.write f1.Path (fs.content f1.Path ++
        getStream.fetched res f1.headerOffset bodyOffSet f1.CompressedSize64)) := by
  have hm1 : f1.Method = 0 := by
    unfold File.setFilePath at hp
    cases hs : sliceFrom f.Name (strings.LastIndex f.Name [0x2f] + 1) with
    | ok seg =>
      rw [hs, bind_ok] at hp
      injection hp with hp
      rw [← hp]
      exact hm
    | error e => rw [hs] at hp; exact Outcome.noConfusion hp
    | panic => rw [hs] at hp; exact Outcome.noConfusion hp
    | budget => rw [hs] at hp; exact Outcome.noConfusion hp
  have hne : getStream.ranges f1.headerOffset bodyOffSet f1.CompressedSize64 ≠ [] := by
    rw [getStream.ranges_eq]
    simp
  unfold getStream.entry
  simp only [hp, hb]
  rw [getStream.save_eq res f1 _ hn fs hd hne]
  simp only [hm1, ne_eq, not_true_eq_false, if_false]
  rfl

/-- C15 (failing input): the archive `archiveStored`, its Store-method entry `a`, the
destination directory `out`, and a file system in which `out/a` exists already with the
one byte 9. After the iteration of `getStream` the file holds 13 bytes: the byte 9 and
then the 12 bytes fetched for the entry, so the fetched bytes are preceded by a byte that
was not fetched. -/
theorem getStream.entry_fsStale :
    entryStored.Method = 0 ∧
      fsStale.content pathOutA = [9] ∧
      (getStream.entry archiveStored dirOut registryNone registryNone entryStored fsStale).1 =
        ok { entryStored with Path := pathOutA } ∧
      entryStored.findBodyOffset archiveStored = ok 31 ∧
      getStream.fetched archiveStored 0 31 11 =
        [101, 102, 103, 104, 105, 106, 107, 108, 109, 110, 111, 0x50] ∧
      (getStream.entry archiveStored dirOut registryNone registryNone entryStored
          fsStale).2.content pathOutA =
        [9, 101, 102, 103, 104, 105, 106, 107, 108, 109, 110, 111, 0x50] := by
  have hp : entryStored.setFilePath dirOut = ok { entryStored with Path := pathOutA } := by
    decide
  have hb : File.findBodyOffset { entryStored with Path := pathOutA } archiveStored =
      ok 31 := by
    decide
  have hf : getStream.fetched archiveStored 0 31 11 =
      [101, 102, 103, 104, 105, 106, 107, 108, 109, 110, 111, 0x50] := by
    decide
  have e := getStream.entry_store archiveStored dirOut registryNone registryNone entryStored
    _ fsStale 31 rfl hp hb (by decide) (by decide)
  refine ⟨rfl, by decide, ?_, by decide, hf, ?_⟩
  · rw [e]
  · rw [e]
    dsimp only
    rw [FileSystem.content_write]
    have h0 : File.headerOffset { entryStored with Path := pathOutA } = 0 := rfl
    have h11 : File.CompressedSize64 { entryStored with Path := pathOutA } = 11 := rfl
    rw [h0, h11, hf]
    decide

end ZipStream
